import Mathlib

/-!
Verification development for the packageurl-js library: a shallow embedding
of the purl parsing / normalization / validation / serialization pipeline
(src/package-url.js together with its normalize, encode, lang and string
helper modules), with theorems settling the specification claims.

Strings are modelled as lists of Unicode scalar values (JS strings without
lone surrogates).  Host primitives (encodeURIComponent, decodeURIComponent,
the WHATWG URL splitter and URLSearchParams) are modelled faithfully from
their ECMAScript / WHATWG definitions, as the spec treats them as assumed
correct primitives described by contract.
-/

namespace PurlJs

/-- JS strings, modelled as lists of Unicode scalar values. -/
abbrev LC := List Char

/-- Convenience: list-of-chars of a Lean string literal. -/
def lc (s : String) : LC := s.data

/-- Errors raised by the JS code: plain Error, ReferenceError (unbound
identifier in strict mode), URIError (malformed percent-encoding). -/
inductive JsErr where
  | error (msg : String)
  | referenceError (msg : String)
  | uriError (msg : String)
deriving DecidableEq, Repr

deriving instance DecidableEq for Except

/-- The ECMAScript whitespace set used by the source's isBlank and by
String.prototype.trim (WhiteSpace plus LineTerminator code points). -/
def isWsChar (c : Char) : Bool :=
  let n := c.toNat
  n = 0x0020 || n = 0x0009 || n = 0x000a || n = 0x000b || n = 0x000c ||
  n = 0x000d || n = 0x00a0 || n = 0x1680 || n = 0x2000 || n = 0x2001 ||
  n = 0x2002 || n = 0x2003 || n = 0x2004 || n = 0x2005 || n = 0x2006 ||
  n = 0x2007 || n = 0x2008 || n = 0x2009 || n = 0x200a || n = 0x2028 ||
  n = 0x2029 || n = 0x202f || n = 0x205f || n = 0x3000 || n = 0xfeff

/-- strings.js isBlank: every character is whitespace. -/
def isBlank (s : LC) : Bool := s.all isWsChar

/-- Host primitive String.prototype.trim, per its ECMAScript contract. -/
def jsTrim (s : LC) : LC :=
  ((s.dropWhile isWsChar).reverse.dropWhile isWsChar).reverse

/-- Host primitive String.prototype.toLowerCase, modelled on its ASCII
range (the only range the purl rules rely on). -/
def lowerChar (c : Char) : Char :=
  if 0x41 ≤ c.toNat ∧ c.toNat ≤ 0x5A then Char.ofNat (c.toNat + 0x20) else c

/-- toLowerCase over a whole string. -/
def jsToLower (s : LC) : LC := s.map lowerChar

/-- strings.js isNonEmptyString on a string-or-undefined value. -/
def isNonEmptyStringO (v : Option LC) : Bool :=
  match v with
  | some s => s ≠ []
  | none => false

/-- lang.js isNullishOrEmptyString on a string-or-undefined value. -/
def isNullishOrEmptyStringO (v : Option LC) : Bool :=
  match v with
  | some s => s = []
  | none => true

/-- strings.js trimLeadingSlashes. -/
def trimLeadingSlashes (s : LC) : LC := s.dropWhile (· = '/')

/-! ### Percent-encoding (ECMAScript encodeURIComponent / decodeURIComponent) -/

/-- Uppercase hex digit of a value below 16. -/
def hexDigitUpper (n : Nat) : Char :=
  if n < 10 then Char.ofNat (0x30 + n) else Char.ofNat (0x37 + n)

/-- A percent triplet %XY for one byte. -/
def pctTriplet (b : Nat) : LC :=
  ['%', hexDigitUpper (b / 16), hexDigitUpper (b % 16)]

/-- UTF-8 bytes of a Unicode scalar value. -/
def utf8Enc (n : Nat) : List Nat :=
  if n < 0x80 then [n]
  else if n < 0x800 then [0xC0 + n / 0x40, 0x80 + n % 0x40]
  else if n < 0x10000 then
    [0xE0 + n / 0x1000, 0x80 + n / 0x40 % 0x40, 0x80 + n % 0x40]
  else
    [0xF0 + n / 0x40000, 0x80 + n / 0x1000 % 0x40, 0x80 + n / 0x40 % 0x40,
      0x80 + n % 0x40]

/-- The characters encodeURIComponent leaves unescaped:
ASCII letters, digits, and - _ . ! ~ * ' ( ). -/
def isUnreservedURI (c : Char) : Bool :=
  let n := c.toNat
  (0x41 ≤ n && n ≤ 0x5A) || (0x61 ≤ n && n ≤ 0x7A) ||
  (0x30 ≤ n && n ≤ 0x39) || n = 0x2D || n = 0x5F || n = 0x2E ||
  n = 0x21 || n = 0x7E || n = 0x2A || n = 0x27 || n = 0x28 || n = 0x29

/-- encodeURIComponent generalized with a set of extra characters kept
verbatim (used to state the effect of the source's post-encoding
replacements that restore ':', '/' and '+'). -/
def encCharKeep (keep : List Char) (c : Char) : LC :=
  if c ∈ keep || isUnreservedURI c then [c]
  else (utf8Enc c.toNat).flatMap pctTriplet

/-- String-level encoding with a keep set. -/
def encKeep (keep : List Char) (s : LC) : LC := s.flatMap (encCharKeep keep)

/-- Host primitive encodeURIComponent. -/
def encodeURIComponentJs (s : LC) : LC := encKeep [] s

/-- JS String.prototype.replace with a global three-character pattern
(the source's .replace of percent triplets %3A / %2F / %2B): scan left to
right, replacing each non-overlapping occurrence by one character. -/
def replaceTripletGo (p1 p2 p3 rep : Char) : Nat → LC → LC
  | _, [] => []
  | 0, s => s
  | fuel + 1, a :: rest =>
    match rest with
    | b :: c :: t =>
      if a = p1 ∧ b = p2 ∧ c = p3 then
        rep :: replaceTripletGo p1 p2 p3 rep fuel t
      else a :: replaceTripletGo p1 p2 p3 rep fuel rest
    | _ => a :: rest

/-- JS String.prototype.replace with a global three-character pattern
(the source's .replace of percent triplets %3A / %2F / %2B): scan left to
right, replacing each non-overlapping occurrence by one character.
Recursion is driven by a fuel of one unit per character, which never runs
out, so that evaluation stays structural. -/
def replaceTriplet (p1 p2 p3 rep : Char) (s : LC) : LC :=
  replaceTripletGo p1 p2 p3 rep s.length s

/-- Hex digit value (both cases), as read back by decodeURIComponent. -/
def hexVal? (c : Char) : Option Nat :=
  let n := c.toNat
  if 0x30 ≤ n ∧ n ≤ 0x39 then some (n - 0x30)
  else if 0x41 ≤ n ∧ n ≤ 0x46 then some (n - 0x37)
  else if 0x61 ≤ n ∧ n ≤ 0x66 then some (n - 0x57)
  else none

def decodePctGo : Nat → LC → Option LC
  | _, [] => some []
  | 0, _ => none
  | fuel + 1, '%' :: h1 :: h2 :: t => do
    let d1 ← hexVal? h1
    let d2 ← hexVal? h2
    let b := 16 * d1 + d2
    if b < 0x80 then (Char.ofNat b :: ·) <$> decodePctGo fuel t
    else if b < 0xC2 then none
    else if b < 0xE0 then
      match t with
      | '%' :: h3 :: h4 :: t2 => do
        let d3 ← hexVal? h3
        let d4 ← hexVal? h4
        let b2 := 16 * d3 + d4
        if 0x80 ≤ b2 ∧ b2 < 0xC0 then
          (Char.ofNat ((b - 0xC0) * 0x40 + (b2 - 0x80)) :: ·) <$> decodePctGo fuel t2
        else none
      | _ => none
    else if b < 0xF0 then
      match t with
      | '%' :: h3 :: h4 :: '%' :: h5 :: h6 :: t2 => do
        let d3 ← hexVal? h3
        let d4 ← hexVal? h4
        let d5 ← hexVal? h5
        let d6 ← hexVal? h6
        let b2 := 16 * d3 + d4
        let b3 := 16 * d5 + d6
        let lo2 := if b = 0xE0 then 0xA0 else 0x80
        let hi2 := if b = 0xED then 0xA0 else 0xC0
        if (lo2 ≤ b2 ∧ b2 < hi2) ∧ (0x80 ≤ b3 ∧ b3 < 0xC0) then
          (Char.ofNat ((b - 0xE0) * 0x1000 + (b2 - 0x80) * 0x40 + (b3 - 0x80))
            :: ·) <$> decodePctGo fuel t2
        else none
      | _ => none
    else if b < 0xF5 then
      match t with
      | '%' :: h3 :: h4 :: '%' :: h5 :: h6 :: '%' :: h7 :: h8 :: t2 => do
        let d3 ← hexVal? h3
        let d4 ← hexVal? h4
        let d5 ← hexVal? h5
        let d6 ← hexVal? h6
        let d7 ← hexVal? h7
        let d8 ← hexVal? h8
        let b2 := 16 * d3 + d4
        let b3 := 16 * d5 + d6
        let b4 := 16 * d7 + d8
        let lo2 := if b = 0xF0 then 0x90 else 0x80
        let hi2 := if b = 0xF4 then 0x90 else 0xC0
        if (lo2 ≤ b2 ∧ b2 < hi2) ∧ (0x80 ≤ b3 ∧ b3 < 0xC0) ∧
            (0x80 ≤ b4 ∧ b4 < 0xC0) then
          (Char.ofNat ((b - 0xF0) * 0x40000 + (b2 - 0x80) * 0x1000 +
            (b3 - 0x80) * 0x40 + (b4 - 0x80)) :: ·) <$> decodePctGo fuel t2
        else none
      | _ => none
    else none
  | _ + 1, ['%'] => none
  | _ + 1, ['%', _] => none
  | fuel + 1, c :: t => (c :: ·) <$> decodePctGo fuel t

/-- Host primitive decodeURIComponent per the ECMAScript Decode algorithm:
percent triplets are decoded as strict UTF-8 sequences (no overlong forms,
no surrogates, at most U+10FFFF); any malformed sequence aborts with a
URIError (here: none).  Characters other than '%' pass through.  The fuel
(one unit per character) never runs out on the initial call. -/
def decodePct (s : LC) : Option LC := decodePctGo s.length s

/-! ### WHATWG URL splitting and URLSearchParams (host primitives) -/

/-- The WHATWG lossy UTF-8 decoder (used by URLSearchParams): invalid
sequences yield U+FFFD; a byte that breaks a sequence is reprocessed. -/
def utf8LossyGo : Nat → List Nat → LC
  | _, [] => []
  | 0, _ => []
  | fuel + 1, b :: t =>
    if b < 0x80 then Char.ofNat b :: utf8LossyGo fuel t
    else if b < 0xC2 then '�' :: utf8LossyGo fuel t
    else if b < 0xE0 then
      match t with
      | b2 :: t2 =>
        if 0x80 ≤ b2 ∧ b2 < 0xC0 then
          Char.ofNat ((b - 0xC0) * 0x40 + (b2 - 0x80)) :: utf8LossyGo fuel t2
        else '�' :: utf8LossyGo fuel t
      | [] => ['�']
    else if b < 0xF0 then
      match t with
      | b2 :: t2 =>
        if (if b = 0xE0 then 0xA0 else 0x80) ≤ b2 ∧
            b2 < (if b = 0xED then 0xA0 else 0xC0) then
          match t2 with
          | b3 :: t3 =>
            if 0x80 ≤ b3 ∧ b3 < 0xC0 then
              Char.ofNat ((b - 0xE0) * 0x1000 + (b2 - 0x80) * 0x40 +
                (b3 - 0x80)) :: utf8LossyGo fuel t3
            else '�' :: utf8LossyGo fuel t2
          | [] => ['�']
        else '�' :: utf8LossyGo fuel t
      | [] => ['�']
    else if b < 0xF5 then
      match t with
      | b2 :: t2 =>
        if (if b = 0xF0 then 0x90 else 0x80) ≤ b2 ∧
            b2 < (if b = 0xF4 then 0x90 else 0xC0) then
          match t2 with
          | b3 :: t3 =>
            if 0x80 ≤ b3 ∧ b3 < 0xC0 then
              match t3 with
              | b4 :: t4 =>
                if 0x80 ≤ b4 ∧ b4 < 0xC0 then
                  Char.ofNat ((b - 0xF0) * 0x40000 + (b2 - 0x80) * 0x1000 +
                    (b3 - 0x80) * 0x40 + (b4 - 0x80)) :: utf8LossyGo fuel t4
                else '�' :: utf8LossyGo fuel t3
              | [] => ['�']
            else '�' :: utf8LossyGo fuel t2
          | [] => ['�']
        else '�' :: utf8LossyGo fuel t
      | [] => ['�']
    else '�' :: utf8LossyGo fuel t

/-- The WHATWG lossy UTF-8 decoder (used by URLSearchParams): invalid
sequences yield U+FFFD; a byte that breaks a sequence is reprocessed.
The fuel (one unit per byte) never runs out on the initial call. -/
def utf8Lossy (bs : List Nat) : LC := utf8LossyGo bs.length bs

/-- Percent-decoding to raw bytes (urlencoded flavour): a valid triplet
becomes one byte, anything else contributes its UTF-8 bytes verbatim. -/
def pctBytesGo : Nat → LC → List Nat
  | _, [] => []
  | 0, _ => []
  | fuel + 1, c :: rest =>
    if c = '%' then
      match rest with
      | h1 :: h2 :: t =>
        match hexVal? h1, hexVal? h2 with
        | some d1, some d2 => (16 * d1 + d2) :: pctBytesGo fuel t
        | _, _ => utf8Enc '%'.toNat ++ pctBytesGo fuel rest
      | _ => utf8Enc '%'.toNat ++ pctBytesGo fuel rest
    else utf8Enc c.toNat ++ pctBytesGo fuel rest

/-- Percent-decoding to raw bytes (urlencoded flavour): a valid triplet
becomes one byte, anything else contributes its UTF-8 bytes verbatim.
The fuel (one unit per character) never runs out on the initial call. -/
def pctBytes (s : LC) : List Nat := pctBytesGo s.length s

/-- application/x-www-form-urlencoded decoding of one token. -/
def formDecode (s : LC) : LC :=
  utf8Lossy (pctBytes (s.map fun c => if c = '+' then ' ' else c))

/-- Split a list at every occurrence of a separator character. -/
def splitOnChar (sep : Char) : LC → List LC
  | [] => [[]]
  | c :: t =>
    match splitOnChar sep t with
    | [] => [[]]
    | h :: hs => if c = sep then [] :: h :: hs else (c :: h) :: hs

/-- First index of a character, if present. -/
def firstIdx? (c : Char) : LC → Option Nat
  | [] => none
  | x :: t => if x = c then some 0 else (· + 1) <$> firstIdx? c t

/-- Last index of a character, if present. -/
def lastIdx? (c : Char) : LC → Option Nat
  | [] => none
  | x :: t =>
    match lastIdx? c t with
    | some i => some (i + 1)
    | none => if x = c then some 0 else none

/-- application/x-www-form-urlencoded parsing (URLSearchParams):
split on '&', drop empty pieces, split each piece at its first '=',
'+' means space, percent-decode with the lossy UTF-8 decoder. -/
def parseUrlencoded (q : LC) : List (LC × LC) :=
  (splitOnChar '&' q).filterMap fun piece =>
    if piece = [] then none
    else
      let kv := match firstIdx? '=' piece with
        | some j => (piece.take j, piece.drop (j + 1))
        | none => (piece, ([] : LC))
      some (formDecode kv.1, formDecode kv.2)

/-- The C0-control percent-encode set (opaque paths): C0 controls and
everything above U+007E. -/
def inC0Set (c : Char) : Bool := c.toNat < 0x20 || c.toNat > 0x7E

/-- The query percent-encode set for non-special schemes. -/
def inQuerySet (c : Char) : Bool :=
  inC0Set c || c = ' ' || c = '"' || c = '#' || c = '<' || c = '>'

/-- The fragment percent-encode set. -/
def inFragmentSet (c : Char) : Bool :=
  inC0Set c || c = ' ' || c = '"' || c = '<' || c = '>' ||
  c = Char.ofNat 0x60

/-- Percent-encode the characters of a given encode set (UTF-8, upper-case
hex), leaving all other characters verbatim. -/
def pctEncodeSet (pred : Char → Bool) (s : LC) : LC :=
  s.flatMap fun c =>
    if pred c then (utf8Enc c.toNat).flatMap pctTriplet else [c]

/-- Drop trailing characters satisfying a predicate. -/
def dropTrailing (p : Char → Bool) (s : LC) : LC :=
  (s.reverse.dropWhile p).reverse

/-- The observable parts of a WHATWG URL value that parseString reads. -/
structure JsUrl where
  pathname : LC
  searchPairs : List (LC × LC)
  hash : LC
deriving DecidableEq, Repr

/-- Host primitive: WHATWG URL parsing of pkg-scheme input, by contract.
parseString always calls new URL on a string of the shape pkg: ++ rest
where rest has had its leading slashes stripped, so the scheme is the
non-special scheme pkg and the path is an opaque path; there is never an
authority, the protocol is always pkg:, and username and password are
always empty.  Input cleaning (trim trailing C0-control-or-space, strip
ASCII tab and newline) only ever affects the rest part. -/
def jsURLpkgTail (rest : LC) : JsUrl :=
  let r1 := dropTrailing (fun c => c.toNat ≤ 0x20) rest
  let r2 := r1.filter fun c => ¬(c.toNat = 0x9 ∨ c.toNat = 0xA ∨ c.toNat = 0xD)
  let path := r2.takeWhile fun c => c ≠ '?' ∧ c ≠ '#'
  let afterPath := r2.drop path.length
  let qf : Option LC × Option LC :=
    match afterPath with
    | '?' :: t =>
      let q := t.takeWhile (· ≠ '#')
      (some q, match t.drop q.length with | '#' :: f => some f | _ => none)
    | '#' :: t => (none, some t)
    | _ => (none, none)
  { pathname := pctEncodeSet inC0Set path
    searchPairs :=
      match qf.1 with
      | some q => parseUrlencoded (pctEncodeSet inQuerySet q)
      | none => []
    hash :=
      match qf.2 with
      | some f => if f = [] then [] else '#' :: pctEncodeSet inFragmentSet f
      | none => [] }

/-- Auxiliary for the theory: the optional query part of a purl string. -/
def optQuery (o : Option LC) : LC :=
  match o with
  | some q => '?' :: q
  | none => []

/-- Auxiliary for the theory: the optional fragment part of a purl string
(also the shape of a non-empty hash). -/
def optFrag (o : Option LC) : LC :=
  match o with
  | some f => '#' :: f
  | none => []

/-- Auxiliary for the theory: the optional namespace prefix before the
name inside the purl path. -/
def optNsPre (o : Option LC) (n : LC) : LC :=
  match o with
  | some ns => ns ++ '/' :: n
  | none => n

/-- Auxiliary for the theory: the optional version part after the name. -/
def optVer (o : Option LC) : LC :=
  match o with
  | some v => '@' :: v
  | none => []

/-- Auxiliary for the theory: the search pairs read back from an optional
query part. -/
def optSearch (o : Option LC) : List (LC × LC) :=
  match o with
  | some q => parseUrlencoded q
  | none => []

/-- Auxiliary for the theory: the raw qualifiers component produced from
an optional query part. -/
def optRawQ (o : Option LC) : Option (List (LC × LC)) :=
  match o with
  | some q =>
    if (parseUrlencoded q).length ≠ 0 then some (parseUrlencoded q) else none
  | none => none

/-! ### encode.js -/

/-- encode.js encodeWithColonAndForwardSlash: encodeURIComponent, then
restore every %3A to ':' and every %2F to '/'. -/
def encodeWithColonAndForwardSlash (s : LC) : LC :=
  replaceTriplet '%' '2' 'F' '/'
    (replaceTriplet '%' '3' 'A' ':' (encodeURIComponentJs s))

/-- encode.js encodeWithColonAndPlusSign: encodeURIComponent, then
restore every %3A to ':' and every %2B to '+'. -/
def encodeWithColonAndPlusSign (s : LC) : LC :=
  replaceTriplet '%' '2' 'B' '+'
    (replaceTriplet '%' '3' 'A' ':' (encodeURIComponentJs s))

/-- encode.js encodeWithForwardSlash: encodeURIComponent, then restore
every %2F to '/'. -/
def encodeWithForwardSlash (s : LC) : LC :=
  replaceTriplet '%' '2' 'F' '/' (encodeURIComponentJs s)

/-- encode.js encodeNamespace. -/
def encodeNamespace (v : Option LC) : LC :=
  match v with
  | some s => if s.length ≠ 0 then encodeWithColonAndForwardSlash s else []
  | none => []

/-- encode.js encodeVersion. -/
def encodeVersion (v : Option LC) : LC :=
  match v with
  | some s => if s.length ≠ 0 then encodeWithColonAndPlusSign s else []
  | none => []

/-- encode.js encodeQualifierValue. -/
def encodeQualifierValue (s : LC) : LC :=
  if s.length ≠ 0 then encodeWithColonAndForwardSlash s else []

/-- encode.js encodeSubpath. -/
def encodeSubpath (v : Option LC) : LC :=
  match v with
  | some s => if s.length ≠ 0 then encodeWithForwardSlash s else []
  | none => []

/-- package-url.js PurlComponentEncoder (the default component encoder,
used for type and name): plain encodeURIComponent of a non-empty string. -/
def PurlComponentEncoder (v : Option LC) : LC :=
  match v with
  | some s => if s.length ≠ 0 then encodeURIComponentJs s else []
  | none => []

/-! ### Qualifier maps (plain JS objects in insertion order) -/

/-- Property assignment on a JS object viewed as an insertion-ordered
association list: an existing key keeps its position and gets the new
value, a fresh key is appended. -/
def qSet : List (LC × LC) → LC → LC → List (LC × LC)
  | [], k, v => [(k, v)]
  | (k1, v1) :: t, k, v =>
    if k1 = k then (k1, v) :: t else (k1, v1) :: qSet t k v

/-- JS property read qualifiers[key]. -/
def jsGet (m : List (LC × LC)) (k : LC) : Option LC :=
  match m with
  | [] => none
  | (k1, v1) :: t => if k1 = k then some v1 else jsGet t k

/-- UTF-16 code units of one scalar value (JS string representation). -/
def utf16Units (c : Char) : List Nat :=
  if c.toNat < 0x10000 then [c.toNat]
  else [0xD800 + (c.toNat - 0x10000) / 0x400, 0xDC00 + (c.toNat - 0x10000) % 0x400]

/-- UTF-16 code units of a string. -/
def utf16Str (s : LC) : List Nat := s.flatMap utf16Units

/-- The default Array.prototype.sort comparator order on strings:
lexicographic comparison of UTF-16 code unit sequences. -/
def jsStrLe (a b : LC) : Prop := utf16Str a ≤ utf16Str b

instance : DecidableRel jsStrLe := fun a b =>
  inferInstanceAs (Decidable (utf16Str a ≤ utf16Str b))

/-- Array.prototype.sort of the key list (result characterized as the
sorted permutation; with pairwise distinct keys it is unique). -/
def jsSortKeys (ks : List LC) : List LC := List.insertionSort jsStrLe ks

/-- encode.js encodeQualifiers: sort the keys lexicographically and join
key=encodedValue pairs with '&'. -/
def encodeQualifiers (m : List (LC × LC)) : LC :=
  let ks := jsSortKeys (m.map (·.1))
  List.intercalate ['&']
    (ks.map fun k => k ++ '=' :: encodeQualifierValue ((jsGet m k).getD []))

/-! ### normalize.js -/

/-- decodeURIComponent as used by normalize.js: a malformed escape
sequence raises a URIError. -/
def decodeE (s : LC) : Except JsErr LC :=
  match decodePct s with
  | some d => .ok d
  | none => .error (.uriError "URI malformed")

/-- Auxiliary for the theory (not a source function): the non-empty
segments of a slash-separated path, used to characterize normalizePath
when no callback is given. -/
def pathSegments (s : LC) : List LC :=
  (splitOnChar '/' s).filter (· ≠ [])

/-- Auxiliary for the theory: join segments back with single slashes. -/
def joinSlash (segs : List LC) : LC := List.intercalate ['/'] segs

/-- The acceptance test of normalize.js normalizePath:
callback === undefined || callback(segment). -/
def npAccept (f : Option (LC → Bool)) (seg : LC) : Bool :=
  match f with
  | some g => g seg
  | none => true

/-- The collapsing loop of normalize.js normalizePath, from the point
where start sits on a non-slash character: while another '/' exists, cut
the segment before it, append it to collapsed (with a '/' separator
unless collapsed is still empty) when the callback accepts it, then skip
the slash run and continue; when no '/' remains, the remainder is
lastSegment, appended as '/' ++ lastSegment (the separator is
unconditional here) when non-empty and accepted.  Fuel is the length of
the remaining input. -/
def npGo (f : Option (LC → Bool)) : Nat → LC → LC → LC
  | 0, collapsed, rest =>
    if rest.length ≠ 0 ∧ npAccept f rest = true
    then collapsed ++ '/' :: rest else collapsed
  | fuel + 1, collapsed, rest =>
    match firstIdx? '/' rest with
    | some i =>
      let seg := rest.take i
      let collapsed' :=
        if npAccept f seg = true then
          (if collapsed.length = 0 then seg else collapsed ++ '/' :: seg)
        else collapsed
      npGo f fuel collapsed' ((rest.drop (i + 1)).dropWhile (· = '/'))
    | none =>
      if rest.length ≠ 0 ∧ npAccept f rest = true
      then collapsed ++ '/' :: rest else collapsed

/-- normalize.js normalizePath: skip leading slashes; if no '/' remains
return the remainder as is (the callback is not consulted on this early
path); otherwise run the collapsing loop starting from an empty
collapsed accumulator. -/
def normalizePath (f : Option (LC → Bool)) (s : LC) : LC :=
  let s1 := s.dropWhile (· = '/')
  match firstIdx? '/' s1 with
  | none => s1
  | some _ => npGo f s1.length [] s1

/-- Auxiliary for the theory: joinSlash applied to a non-empty list of
non-empty, slash-free, callback-accepted segments.  Outputs of the main
collapsing loop with a non-empty accumulator have this shape. -/
def goodSegs (f : Option (LC → Bool)) (r : LC) : Prop :=
  ∃ segs : List LC, segs ≠ [] ∧
    (∀ x ∈ segs, x ≠ [] ∧ '/' ∉ x ∧ npAccept f x = true) ∧
    r = joinSlash segs

/-- normalize.js subpathFilter: a subpath segment must not be '.' or '..'
and must not be blank. -/
def subpathFilter (seg : LC) : Bool :=
  if seg = ['.'] then false
  else if seg = ['.', '.'] then false
  else !isBlank seg

/-- normalize.js normalizeName: percent-decode and trim. -/
def normalizeName (rawName : Option LC) : Except JsErr (Option LC) :=
  match rawName with
  | some s => do pure (some (jsTrim (← decodeE s)))
  | none => pure none

/-- normalize.js normalizeNamespace: percent-decode, then collapse the
path (empty segments dropped, leading/trailing slashes stripped). -/
def normalizeNamespace (rawNamespace : Option LC) : Except JsErr (Option LC) :=
  match rawNamespace with
  | some s => do pure (some (normalizePath none (← decodeE s)))
  | none => pure none

/-- normalize.js normalizeSubpath: percent-decode, then collapse the path
with subpathFilter. -/
def normalizeSubpath (rawSubpath : Option LC) : Except JsErr (Option LC) :=
  match rawSubpath with
  | some s => do pure (some (normalizePath (some subpathFilter) (← decodeE s)))
  | none => pure none

/-- normalize.js normalizeType: percent-decode, trim and lowercase. -/
def normalizeType (rawType : Option LC) : Except JsErr (Option LC) :=
  match rawType with
  | some s => do pure (some (jsToLower (jsTrim (← decodeE s))))
  | none => pure none

/-- normalize.js normalizeVersion: percent-decode and trim. -/
def normalizeVersion (rawVersion : Option LC) : Except JsErr (Option LC) :=
  match rawVersion with
  | some s => do pure (some (jsTrim (← decodeE s)))
  | none => pure none

/-- normalize.js normalizeQualifiers: iterate the entries; drop every
entry whose value trims to the empty string; lowercase the kept keys and
store the trimmed values; the result object is only created once a first
entry is kept, so an input with no kept entry yields undefined. -/
def normalizeQualifiers (raw : List (LC × LC)) : Option (List (LC × LC)) :=
  raw.foldl
    (fun acc kv =>
      if jsTrim kv.2 = [] then acc
      else some (qSet (acc.getD []) (jsToLower kv.1) (jsTrim kv.2)))
    none

/-! ### validate helpers (validate.js / the inline validators) -/

/-- validateStartsWithoutNumber: a non-empty value must not begin with an
ASCII digit. -/
def validateStartsWithoutNumber (label : String) (value : LC) (throws : Bool) :
    Except JsErr Bool :=
  match value with
  | c :: _ =>
    if 0x30 ≤ c.toNat ∧ c.toNat ≤ 0x39 then
      if throws then
        .error (.error ("Invalid purl: " ++ label ++ " \"" ++ String.mk value
          ++ "\" cannot start with a number."))
      else .ok false
    else .ok true
  | [] => .ok true

/-- Character allowed in a qualifier key: ASCII letters, digits,
'.', '-' and '_'. -/
def isQualifierKeyChar (c : Char) : Bool :=
  let n := c.toNat
  (0x30 ≤ n && n ≤ 0x39) || (0x41 ≤ n && n ≤ 0x5A) ||
  (0x61 ≤ n && n ≤ 0x7A) || n = 0x2E || n = 0x2D || n = 0x5F

/-- validateQualifierKey: no leading digit, restricted charset. -/
def validateQualifierKey (key : LC) (throws : Bool) : Except JsErr Bool := do
  if (← validateStartsWithoutNumber "qualifier" key throws) = false then
    return false
  if key.all isQualifierKeyChar then .ok true
  else if throws then
    .error (.error ("Invalid purl: qualifier \"" ++ String.mk key
      ++ "\" contains an illegal character."))
  else .ok false

/-- validateQualifiers: undefined passes; otherwise each key must be a
valid qualifier key. -/
def validateQualifiers (q : Option (List (LC × LC))) (throws : Bool) :
    Except JsErr Bool :=
  match q with
  | none => .ok true
  | some m =>
    m.foldlM
      (fun ok kv => do
        if ok = false then pure false
        else validateQualifierKey kv.1 throws)
      true

/-- Character allowed in a purl type: ASCII letters, digits,
'.', '+' and '-'. -/
def isTypeChar (c : Char) : Bool :=
  let n := c.toNat
  (0x30 ≤ n && n ≤ 0x39) || (0x41 ≤ n && n ≤ 0x5A) ||
  (0x61 ≤ n && n ≤ 0x7A) || n = 0x2E || n = 0x2B || n = 0x2D

/-- validateRequired: nullish or empty-string values are rejected. -/
def validateRequired (label : String) (v : Option LC) (throws : Bool) :
    Except JsErr Bool :=
  if isNullishOrEmptyStringO v then
    if throws then
      .error (.error ("Invalid purl: \"" ++ label ++ "\" is a required field."))
    else .ok false
  else .ok true

/-- validateRequiredByType: a type-specific required component. -/
def validateRequiredByType (ty label : String) (v : Option LC) (throws : Bool) :
    Except JsErr Bool :=
  if isNullishOrEmptyStringO v then
    if throws then
      .error (.error ("Invalid purl: " ++ ty ++ " requires a \"" ++ label
        ++ "\" field."))
    else .ok false
  else .ok true

/-- validateEmptyByType: a type-specific forbidden component. -/
def validateEmptyByType (ty label : String) (v : Option LC) (throws : Bool) :
    Except JsErr Bool :=
  if !isNullishOrEmptyStringO v then
    if throws then
      .error (.error ("Invalid purl: " ++ ty ++ " \"" ++ label
        ++ "\" field must be empty."))
    else .ok false
  else .ok true

/-- Modelled from the spec: validate.js (imported by package-url.js but not
present in the sources) validates the generic type component as non-empty,
with no leading digit, over the type charset. -/
def validateType (v : Option LC) (throws : Bool) : Except JsErr Bool := do
  if (← validateRequired "type" v throws) = false then return false
  match v with
  | some ty => do
    if (← validateStartsWithoutNumber "type" ty throws) = false then
      return false
    if ty.all isTypeChar then .ok true
    else if throws then
      .error (.error ("Invalid purl: type \"" ++ String.mk ty
        ++ "\" contains an illegal character."))
    else .ok false
  | none => .ok true

/-- Modelled from the spec: validate.js validates the generic name
component as required and a string (non-empty here). -/
def validateName (v : Option LC) (throws : Bool) : Except JsErr Bool :=
  validateRequired "name" v throws

/-- Modelled from the spec: validate.js validates namespace only as a
generic string; in this model every value is a string or absent, so the
check always passes. -/
def validateNamespace (_v : Option LC) (_throws : Bool) : Except JsErr Bool :=
  .ok true

/-- Modelled from the spec: validate.js validates version only as a
generic string, which always passes in this model. -/
def validateVersion (_v : Option LC) (_throws : Bool) : Except JsErr Bool :=
  .ok true

/-- Modelled from the spec: validate.js validates subpath only as a
generic string, which always passes in this model. -/
def validateSubpath (_v : Option LC) (_throws : Bool) : Except JsErr Bool :=
  .ok true

/-! ### Semver (strings.js isSemverString, the suggested semver regexp) -/

/-- ASCII digit. -/
def isDigitC (c : Char) : Bool := 0x30 ≤ c.toNat ∧ c.toNat ≤ 0x39

/-- Character class [0-9a-zA-Z-]. -/
def isAlnumDash (c : Char) : Bool :=
  isDigitC c || (0x41 ≤ c.toNat && c.toNat ≤ 0x5A) ||
  (0x61 ≤ c.toNat && c.toNat ≤ 0x7A) || c = '-'

/-- The regexp group (0|[1-9]\d*): a numeric identifier without leading
zeros. -/
def isNumericId (s : LC) : Bool :=
  match s with
  | [] => false
  | c :: rest => s.all isDigitC && (rest = [] || c ≠ '0')

/-- A prerelease identifier: 0|[1-9]\d*|\d*[a-zA-Z-][0-9a-zA-Z-]*. -/
def isPrereleaseId (s : LC) : Bool :=
  s ≠ [] && s.all isAlnumDash &&
    (if s.all isDigitC then isNumericId s else true)

/-- A build identifier: [0-9a-zA-Z-]+. -/
def isBuildId (s : LC) : Bool := s ≠ [] && s.all isAlnumDash

/-- strings.js isSemverString: the suggested semver validation regexp
major.minor.patch(-prerelease)?(+build)?. -/
def isSemverString (s : LC) : Bool :=
  let sp : LC × Option LC := match firstIdx? '+' s with
    | some i => (s.take i, some (s.drop (i + 1)))
    | none => (s, none)
  let cp : LC × Option LC := match firstIdx? '-' sp.1 with
    | some i => (sp.1.take i, some (sp.1.drop (i + 1)))
    | none => (sp.1, none)
  (match splitOnChar '.' cp.1 with
   | [a, b, c] => isNumericId a && isNumericId b && isNumericId c
   | _ => false) &&
  (match cp.2 with
   | some pre => (splitOnChar '.' pre).all isPrereleaseId
   | none => true) &&
  (match sp.2 with
   | some bu => (splitOnChar '.' bu).all isBuildId
   | none => true)

/-! ### The PackageURL entity and the Type rule table -/

/-- The six canonical component fields of a constructed PackageURL.
The namespace field is called nspace here because namespace is reserved
in Lean; none models the JS undefined. -/
structure PackageURL where
  type : LC
  nspace : Option LC
  name : LC
  version : Option LC
  qualifiers : Option (List (LC × LC))
  subpath : Option LC
deriving DecidableEq, Repr

/-- strings.js lowerName (mutates purl.name). -/
def lowerName (p : PackageURL) : PackageURL := { p with name := jsToLower p.name }

/-- strings.js lowerNamespace (mutates purl.namespace when present). -/
def lowerNamespace (p : PackageURL) : PackageURL :=
  match p.nspace with
  | some ns => { p with nspace := some (jsToLower ns) }
  | none => p

/-- strings.js lowerVersion (mutates purl.version when present). -/
def lowerVersion (p : PackageURL) : PackageURL :=
  match p.version with
  | some v => { p with version := some (jsToLower v) }
  | none => p

/-- strings.js replaceDashesWithUnderscores: replace every '-' by '_'. -/
def replaceDashesWithUnderscores (s : LC) : LC :=
  s.map fun c => if c = '-' then '_' else c

/-- strings.js replaceUnderscoresWithDashes: replace every '_' by '-'. -/
def replaceUnderscoresWithDashes (s : LC) : LC :=
  s.map fun c => if c = '_' then '-' else c

/-- JS String.prototype.includes: substring containment. -/
def jsIncludes (s sub : LC) : Bool :=
  (List.range (s.length + 1)).any fun i => (s.drop i).take sub.length = sub

/-- The condition of Type.normalize.mlflow:
purl.qualifiers?.repository_url?.includes('databricks'). -/
def mlflowDatabricks (q : Option (List (LC × LC))) : Bool :=
  match q with
  | some m =>
    match jsGet m (lc "repository_url") with
    | some v => jsIncludes v (lc "databricks")
    | none => false
  | none => false

/-- The Type.normalize table of package-url.js: per-type normalization,
identity for types without an entry (the default PurlTypNormalizer). -/
def typeNormalize (t : LC) (p : PackageURL) : PackageURL :=
  if t = lc "alpm" then lowerName (lowerNamespace p)
  else if t = lc "apk" then lowerName (lowerNamespace p)
  else if t = lc "bitbucket" then lowerName (lowerNamespace p)
  else if t = lc "bitnami" then lowerName p
  else if t = lc "composer" then lowerName (lowerNamespace p)
  else if t = lc "deb" then lowerName (lowerNamespace p)
  else if t = lc "gitlab" then lowerName (lowerNamespace p)
  else if t = lc "github" then lowerName (lowerNamespace p)
  else if t = lc "hex" then lowerName (lowerNamespace p)
  else if t = lc "huggingface" then lowerVersion p
  else if t = lc "mlflow" then
    if mlflowDatabricks p.qualifiers then lowerName p else p
  else if t = lc "npm" then lowerName (lowerNamespace p)
  else if t = lc "luarocks" then lowerVersion p
  else if t = lc "oci" then lowerName p
  else if t = lc "pub" then
    let p1 := lowerName p
    { p1 with name := replaceDashesWithUnderscores p1.name }
  else if t = lc "pypi" then
    let p1 := lowerName (lowerNamespace p)
    { p1 with name := replaceUnderscoresWithDashes p1.name }
  else if t = lc "qpkg" then lowerNamespace p
  else if t = lc "rpm" then lowerNamespace p
  else p

/-- Truthiness of purl.qualifiers?.channel: the channel qualifier exists
with a non-empty value. -/
def conanChannelTruthy (q : Option (List (LC × LC))) : Bool :=
  match q with
  | some m =>
    match jsGet m (lc "channel") with
    | some v => v ≠ []
    | none => false
  | none => false

/-- Type.validate.conan: a missing/empty namespace forbids a channel
qualifier, a present namespace requires the qualifiers object. -/
def conanValidate (p : PackageURL) (throws : Bool) : Except JsErr Bool :=
  if isNullishOrEmptyStringO p.nspace then
    if conanChannelTruthy p.qualifiers then
      if throws then
        .error (.error "Invalid purl: conan requires a \"namespace\" field when a \"channel\" qualifier is present.")
      else .ok false
    else .ok true
  else if p.qualifiers = none then
    if throws then
      .error (.error "Invalid purl: conan requires a \"qualifiers\" field when a namespace is present.")
    else .ok false
  else .ok true

/-- Type.validate.golang.  The source declares this validator as
golang(purl), without the throws parameter every other validator takes,
yet its body reads throws; under strict mode an invalid version therefore
raises a ReferenceError regardless of the flag the caller passed. -/
def golangValidate (p : PackageURL) (_throws : Bool) : Except JsErr Bool :=
  let lengthNonzero : Bool := match p.version with
    | some v => v.length != 0
    | none => false
  if lengthNonzero ∧
      (p.version.getD []).head? = some 'v' ∧
      isSemverString ((p.version.getD []).drop 1) = false then
    .error (.referenceError "throws is not defined")
  else .ok true

/-- Type.validate.pub: the name may only contain [a-z0-9_]. -/
def pubValidate (p : PackageURL) (throws : Bool) : Except JsErr Bool :=
  if p.name.all fun c =>
      isDigitC c || (0x61 ≤ c.toNat && c.toNat ≤ 0x7A) || c = '_' then
    .ok true
  else if throws then
    .error (.error "Invalid purl: pub \"name\" field may only contain [a-z0-9_] characters")
  else .ok false

/-- The Type.validate table of package-url.js: per-type validation,
true for types without an entry (the default PurlTypeValidator).
The mlflow entry passes the misspelled label 'mflow' to
validateEmptyByType, as the source does. -/
def typeValidate (t : LC) (p : PackageURL) (throws : Bool) : Except JsErr Bool :=
  if t = lc "conan" then conanValidate p throws
  else if t = lc "cran" then
    validateRequiredByType "cran" "version" p.version throws
  else if t = lc "golang" then golangValidate p throws
  else if t = lc "maven" then
    validateRequiredByType "maven" "namespace" p.nspace throws
  else if t = lc "mlflow" then
    validateEmptyByType "mflow" "namespace" p.nspace throws
  else if t = lc "oci" then
    validateEmptyByType "oci" "namespace" p.nspace throws
  else if t = lc "pub" then pubValidate p throws
  else if t = lc "swift" then do
    if (← validateRequiredByType "swift" "namespace" p.nspace throws) = false then
      pure false
    else validateRequiredByType "swift" "version" p.version throws
  else .ok true

/-- The set of type names with an entry in the Type helpers object
(normalize or validate): Type[type] is defined exactly for these. -/
def typeKnown (t : LC) : Bool :=
  [lc "alpm", lc "apk", lc "bitbucket", lc "bitnami", lc "composer",
   lc "conan", lc "cran", lc "deb", lc "gitlab", lc "github", lc "golang",
   lc "hex", lc "huggingface", lc "luarocks", lc "maven", lc "mlflow",
   lc "npm", lc "oci", lc "pub", lc "pypi", lc "qpkg", lc "rpm",
   lc "swift"].any (· = t)

/-! ### The PackageURL constructor, toString, parseString, fromString -/

/-- The type step of the constructor: normalize when the raw value is a
non-empty string, then validate in throwing mode. -/
def constructType (rawType : Option LC) : Except JsErr (Option LC) := do
  let type ← if isNonEmptyStringO rawType then normalizeType rawType
    else pure rawType
  let _ ← validateType type true
  pure type

/-- The namespace step of the constructor. -/
def constructNamespace (rawNamespace : Option LC) : Except JsErr (Option LC) := do
  let nspace ← if isNonEmptyStringO rawNamespace then
      normalizeNamespace rawNamespace
    else pure rawNamespace
  let _ ← validateNamespace nspace true
  pure nspace

/-- The name step of the constructor. -/
def constructName (rawName : Option LC) : Except JsErr (Option LC) := do
  let name ← if isNonEmptyStringO rawName then normalizeName rawName
    else pure rawName
  let _ ← validateName name true
  pure name

/-- The version step of the constructor. -/
def constructVersion (rawVersion : Option LC) : Except JsErr (Option LC) := do
  let version ← if isNonEmptyStringO rawVersion then
      normalizeVersion rawVersion
    else pure rawVersion
  let _ ← validateVersion version true
  pure version

/-- The qualifiers step of the constructor: normalize when the raw value
is an object, then validate the keys in throwing mode. -/
def constructQualifiers (rawQualifiers : Option (List (LC × LC))) :
    Except JsErr (Option (List (LC × LC))) := do
  let qualifiers := match rawQualifiers with
    | some entries => normalizeQualifiers entries
    | none => none
  let _ ← validateQualifiers qualifiers true
  pure qualifiers

/-- The subpath step of the constructor. -/
def constructSubpath (rawSubpath : Option LC) : Except JsErr (Option LC) := do
  let subpath ← if isNonEmptyStringO rawSubpath then
      normalizeSubpath rawSubpath
    else pure rawSubpath
  let _ ← validateSubpath subpath true
  pure subpath

/-- The PackageURL constructor: for each component in order, normalize
when the raw value is a non-empty string (an object for qualifiers),
validate in throwing mode, store the results, then run the type-specific
normalize and validate when the type has an entry in the Type table. -/
def construct (rawType rawNamespace rawName rawVersion : Option LC)
    (rawQualifiers : Option (List (LC × LC))) (rawSubpath : Option LC) :
    Except JsErr PackageURL := do
  let type ← constructType rawType
  let nspace ← constructNamespace rawNamespace
  let name ← constructName rawName
  let version ← constructVersion rawVersion
  let qualifiers ← constructQualifiers rawQualifiers
  let subpath ← constructSubpath rawSubpath
  match type, name with
  | some t, some n =>
    let p : PackageURL := ⟨t, nspace, n, version, qualifiers, subpath⟩
    if typeKnown t then
      let p1 := typeNormalize t p
      let _ ← typeValidate t p1 true
      pure p1
    else pure p
  | _, _ =>
    -- validateType and validateName have already rejected a nullish or
    -- empty type or name, so this branch is unreachable.
    .error (.error "unreachable")

/-- PackageURL.prototype.toString: recompose the canonical string.
Truthiness guards: empty strings are skipped, a qualifiers object is
always emitted. -/
def toStr (p : PackageURL) : LC :=
  let s0 := lc "pkg:" ++ PurlComponentEncoder (some p.type) ++ ['/']
  let s1 := match p.nspace with
    | some ns =>
      if ns.length ≠ 0 then s0 ++ encodeNamespace (some ns) ++ ['/'] else s0
    | none => s0
  let s2 := s1 ++ PurlComponentEncoder (some p.name)
  let s3 := match p.version with
    | some v => if v.length ≠ 0 then s2 ++ '@' :: encodeVersion (some v) else s2
    | none => s2
  let s4 := match p.qualifiers with
    | some m => s3 ++ '?' :: encodeQualifiers m
    | none => s3
  match p.subpath with
  | some sp => if sp.length ≠ 0 then s4 ++ '#' :: encodeSubpath (some sp) else s4
  | none => s4

/-- The raw six-component tuple returned by PackageURL.parseString. -/
structure RawComponents where
  rawType : Option LC
  rawNamespace : Option LC
  rawName : Option LC
  rawVersion : Option LC
  rawQualifiers : Option (List (LC × LC))
  rawSubpath : Option LC
deriving DecidableEq, Repr

/-- PackageURL.parseString: blank input yields six undefined components;
otherwise the remainder after the first ':' has its leading slashes
stripped and is parsed as pkg:remainder by the URL primitive (so the
scheme and authority guards of the source never fire); the type is the
path up to the first '/'; the version delimiter is the last '@' of the
path unless immediately preceded by '/'; the name is the part of the
remaining path after its last '/', the namespace the part before it. -/
def parseString (purlStr : LC) : Except JsErr RawComponents :=
  if isBlank purlStr then .ok ⟨none, none, none, none, none, none⟩
  else
    match firstIdx? ':' purlStr with
    | none => .error (.error "Invalid purl: failed to parse as URL")
    | some colonIndex =>
      let url := jsURLpkgTail (trimLeadingSlashes (purlStr.drop (colonIndex + 1)))
      let pathname := url.pathname
      let firstSlashIndex := firstIdx? '/' pathname
      let rawType := match firstSlashIndex with
        | none => pathname
        | some i => pathname.take i
      if firstSlashIndex = none ∨ firstSlashIndex = some 0 then
        .ok ⟨some rawType, none, none, none, none, none⟩
      else
        let atSignIndex := match lastIdx? '@' pathname with
          | some i =>
            if 1 ≤ i ∧ pathname.getD (i - 1) ' ' = '/' then none else some i
          | none => none
        let beforeVersion :=
          (pathname.take (match atSignIndex with
            | none => pathname.length
            | some i => i)).drop (rawType.length + 1)
        let rawVersion := match atSignIndex with
          | some i => some (pathname.drop (i + 1))
          | none => none
        let nsName : Option LC × LC := match lastIdx? '/' beforeVersion with
          | none => (none, beforeVersion)
          | some j => (some (beforeVersion.take j), beforeVersion.drop (j + 1))
        let rawQualifiers := if url.searchPairs.length ≠ 0 then
            some url.searchPairs
          else none
        let rawSubpath := if url.hash.length ≠ 0 then some (url.hash.drop 1)
          else none
        .ok ⟨some rawType, nsName.1, some nsName.2, rawVersion, rawQualifiers,
          rawSubpath⟩

/-- PackageURL.fromString: parse, then construct. -/
def fromString (purlStr : LC) : Except JsErr PackageURL := do
  let r ← parseString purlStr
  construct r.rawType r.rawNamespace r.rawName r.rawVersion r.rawQualifiers
    r.rawSubpath

/-- The tail of PackageURL.parseString after the URL primitive: compute
the raw components from the parsed URL value (identical to the
corresponding block of parseString, factored for the theory). -/
def parseTail (url : JsUrl) : Except JsErr RawComponents :=
  let pathname := url.pathname
  let firstSlashIndex := firstIdx? '/' pathname
  let rawType := match firstSlashIndex with
    | none => pathname
    | some i => pathname.take i
  if firstSlashIndex = none ∨ firstSlashIndex = some 0 then
    .ok ⟨some rawType, none, none, none, none, none⟩
  else
    let atSignIndex := match lastIdx? '@' pathname with
      | some i =>
        if 1 ≤ i ∧ pathname.getD (i - 1) ' ' = '/' then none else some i
      | none => none
    let beforeVersion :=
      (pathname.take (match atSignIndex with
        | none => pathname.length
        | some i => i)).drop (rawType.length + 1)
    let rawVersion := match atSignIndex with
      | some i => some (pathname.drop (i + 1))
      | none => none
    let nsName : Option LC × LC := match lastIdx? '/' beforeVersion with
      | none => (none, beforeVersion)
      | some j => (some (beforeVersion.take j), beforeVersion.drop (j + 1))
    let rawQualifiers := if url.searchPairs.length ≠ 0 then
        some url.searchPairs
      else none
    let rawSubpath := if url.hash.length ≠ 0 then some (url.hash.drop 1)
      else none
    .ok ⟨some rawType, nsName.1, some nsName.2, rawVersion, rawQualifiers,
      rawSubpath⟩

/-- Auxiliary for the theory: equality of qualifier objects up to the
iteration order of the underlying entry list. -/
def qualsPerm (a b : Option (List (LC × LC))) : Prop :=
  match a, b with
  | some m1, some m2 => List.Perm m1 m2
  | none, none => True
  | _, _ => False

/-- One step of normalizeQualifiers on an already-created object. -/
def nqStep (m : List (LC × LC)) (kv : LC × LC) : List (LC × LC) :=
  if jsTrim kv.2 = [] then m else qSet m (jsToLower kv.1) (jsTrim kv.2)

/-- The canonical-form facts that hold of the name, namespace and version
of a freshly normalized purl: the name is trimmed and non-empty, a present
namespace is a normalizePath fixpoint, a present version is trimmed. -/
def canonFields (q : PackageURL) : Prop :=
  jsTrim q.name = q.name ∧ q.name ≠ [] ∧
  (∀ s, q.nspace = some s → normalizePath none s = s) ∧
  (∀ s, q.version = some s → jsTrim s = s)

/-- The UTF-8 byte sequence of a whole string. -/
def utf8Bytes (s : LC) : List Nat := s.flatMap fun c => utf8Enc c.toNat

/-! ## Lemmas: replaceTriplet and the keep-set characterization of the
encoders -/

theorem replaceTripletGo_nil (p1 p2 p3 rep : Char) (f : Nat) :
    replaceTripletGo p1 p2 p3 rep f [] = [] := by
  cases f <;> rfl

theorem replaceTripletGo_succ (p1 p2 p3 rep : Char) (f : Nat) (a : Char)
    (rest : LC) :
    replaceTripletGo p1 p2 p3 rep (f + 1) (a :: rest) =
      match rest with
      | b :: c :: t =>
        if a = p1 ∧ b = p2 ∧ c = p3 then
          rep :: replaceTripletGo p1 p2 p3 rep f t
        else a :: replaceTripletGo p1 p2 p3 rep f rest
      | _ => a :: rest := by
  match rest with
  | b :: c :: t => rfl
  | [b] => rfl
  | [] => rfl

theorem replaceTripletGo_fuel (p1 p2 p3 rep : Char) :
    ∀ n (s : LC) f g, s.length ≤ n → s.length ≤ f → s.length ≤ g →
      replaceTripletGo p1 p2 p3 rep f s = replaceTripletGo p1 p2 p3 rep g s := by
  intro n
  induction n with
  | zero =>
    intro s f g hn _ _
    have hs : s = [] := by cases s <;> simp_all
    subst hs
    rw [replaceTripletGo_nil, replaceTripletGo_nil]
  | succ n ih =>
    intro s f g hn hf hg
    match s with
    | [] => rw [replaceTripletGo_nil, replaceTripletGo_nil]
    | a :: rest =>
      simp only [List.length_cons] at hn hf hg
      match f, g with
      | f + 1, g + 1 =>
        rw [replaceTripletGo_succ, replaceTripletGo_succ]
        match rest with
        | b :: c :: t =>
          simp only
          have h1 : replaceTripletGo p1 p2 p3 rep f t =
              replaceTripletGo p1 p2 p3 rep g t := by
            apply ih t f g <;> simp_all <;> omega
          have h2 : replaceTripletGo p1 p2 p3 rep f (b :: c :: t) =
              replaceTripletGo p1 p2 p3 rep g (b :: c :: t) := by
            apply ih (b :: c :: t) f g <;> simp_all
          rw [h1, h2]
        | [b] => simp only
        | [] => simp only

theorem replaceTriplet_nil (p1 p2 p3 rep : Char) :
    replaceTriplet p1 p2 p3 rep [] = [] := rfl

theorem replaceTriplet_cons (p1 p2 p3 rep a : Char) (rest : LC) :
    replaceTriplet p1 p2 p3 rep (a :: rest) =
      match rest with
      | b :: c :: t =>
        if a = p1 ∧ b = p2 ∧ c = p3 then
          rep :: replaceTriplet p1 p2 p3 rep t
        else a :: replaceTriplet p1 p2 p3 rep rest
      | _ => a :: rest := by
  show replaceTripletGo p1 p2 p3 rep (rest.length + 1) (a :: rest) = _
  rw [replaceTripletGo_succ]
  match rest with
  | b :: c :: t =>
    simp only [List.length_cons]
    have h1 : replaceTripletGo p1 p2 p3 rep (t.length + 1 + 1) t =
        replaceTripletGo p1 p2 p3 rep t.length t := by
      apply replaceTripletGo_fuel p1 p2 p3 rep (t.length + 2) t <;> omega
    rw [h1]
    rfl
  | [b] => rfl
  | [] => rfl

theorem replaceTriplet_cons_ne (p1 p2 p3 rep a : Char) (s : LC) (h : a ≠ p1) :
    replaceTriplet p1 p2 p3 rep (a :: s) = a :: replaceTriplet p1 p2 p3 rep s := by
  rw [replaceTriplet_cons]
  match s with
  | b :: c :: t => simp [h]
  | [b] => rfl
  | [] => rfl

theorem replaceTriplet_match (p1 p2 p3 rep : Char) (t : LC) :
    replaceTriplet p1 p2 p3 rep (p1 :: p2 :: p3 :: t) =
      rep :: replaceTriplet p1 p2 p3 rep t := by
  rw [replaceTriplet_cons]
  simp

theorem replaceTriplet_skip (p1 p2 p3 rep x y : Char) (t : LC)
    (hxy : ¬(x = p2 ∧ y = p3)) (hx : x ≠ p1) (hy : y ≠ p1) :
    replaceTriplet p1 p2 p3 rep (p1 :: x :: y :: t) =
      p1 :: x :: y :: replaceTriplet p1 p2 p3 rep t := by
  rw [replaceTriplet_cons]
  dsimp only
  rw [if_neg (show ¬(p1 = p1 ∧ x = p2 ∧ y = p3) from fun h => hxy ⟨h.2.1, h.2.2⟩)]
  rw [replaceTriplet_cons_ne p1 p2 p3 rep x (y :: t) hx,
    replaceTriplet_cons_ne p1 p2 p3 rep y t hy]

theorem char_toNat_inj {c d : Char} (h : c.toNat = d.toNat) : c = d := by
  have h1 : Char.ofNat c.toNat = Char.ofNat d.toNat := by rw [h]
  rwa [Char.ofNat_toNat, Char.ofNat_toNat] at h1

theorem char_valid (c : Char) :
    c.toNat < 0xD800 ∨ (0xE000 ≤ c.toNat ∧ c.toNat < 0x110000) := by
  have h : c.toNat < 0xd800 ∨ 0xe000 ≤ c.toNat ∧ c.toNat < 0x110000 := c.valid
  rcases h with h | ⟨h1, h2⟩
  · left; exact h
  · right; exact ⟨h1, h2⟩

theorem hexDigitUpper_ne_pct {b : Nat} (hb : b < 16) : hexDigitUpper b ≠ '%' := by
  interval_cases b <;> decide

theorem hexDigitUpper_inj {a b : Nat} (ha : a < 16) (hb : b < 16)
    (h : hexDigitUpper a = hexDigitUpper b) : a = b := by
  interval_cases a <;> interval_cases b <;> simp_all <;> exact absurd h (by decide)

theorem utf8Enc_single {n : Nat} (h : n < 0x80) : utf8Enc n = [n] := by
  simp [utf8Enc, h]

theorem utf8Enc_byte_lt {n : Nat} (hn : n < 0x110000) :
    ∀ b ∈ utf8Enc n, b < 0x100 := by
  intro b hb
  simp only [utf8Enc] at hb
  split at hb
  · simp at hb; omega
  · split at hb
    · simp at hb
      rcases hb with h | h <;> subst h <;> omega
    · split at hb
      · simp at hb
        rcases hb with h | h | h <;> subst h <;> omega
      · simp at hb
        rcases hb with h | h | h | h <;> subst h <;> omega

theorem utf8Enc_multi_ge {n : Nat} (hn : 0x80 ≤ n) :
    ∀ b ∈ utf8Enc n, 0x80 ≤ b := by
  intro b hb
  simp only [utf8Enc] at hb
  split at hb
  · omega
  · split at hb
    · simp at hb
      rcases hb with h | h <;> subst h <;> omega
    · split at hb
      · simp at hb
        rcases hb with h | h | h <;> subst h <;> omega
      · simp at hb
        rcases hb with h | h | h | h <;> subst h <;> omega

theorem encKeep_nil (K : List Char) : encKeep K [] = [] := rfl

theorem encKeep_cons (K : List Char) (c : Char) (s : LC) :
    encKeep K (c :: s) = encCharKeep K c ++ encKeep K s := by
  simp [encKeep]

theorem encKeep_append (K : List Char) (s t : LC) :
    encKeep K (s ++ t) = encKeep K s ++ encKeep K t := by
  simp [encKeep]

/-- The single generic replacement lemma: restoring the percent triplet of
a single-byte character cB (not itself kept or unreserved) in the output
of encKeep K yields encKeep (cB :: K), provided every kept character is
not '%'. -/
theorem replace_encKeep (B : Nat) (hB : B < 0x80) (cB : Char)
    (hEq : cB.toNat = B) (hcu : isUnreservedURI cB = false) (K : List Char)
    (hKp : ∀ k ∈ K, k ≠ '%') (hcK : cB ∉ K) :
    ∀ s : LC,
      replaceTriplet '%' (hexDigitUpper (B / 16)) (hexDigitUpper (B % 16)) cB
        (encKeep K s) = encKeep (cB :: K) s := by
  have skipBytes :
      ∀ (bs : List Nat), (∀ b ∈ bs, b < 0x100 ∧ b ≠ B) → ∀ r : LC,
        replaceTriplet '%' (hexDigitUpper (B / 16)) (hexDigitUpper (B % 16)) cB
          (bs.flatMap pctTriplet ++ r) =
        bs.flatMap pctTriplet ++
          replaceTriplet '%' (hexDigitUpper (B / 16)) (hexDigitUpper (B % 16))
            cB r := by
    intro bs hbs
    induction bs with
    | nil => intro r; simp
    | cons b bs ih =>
      intro r
      have hb := hbs b (by simp)
      have hbt : ∀ x ∈ bs, x < 0x100 ∧ x ≠ B := fun x hx => hbs x (by simp [hx])
      simp only [List.flatMap_cons, pctTriplet, List.append_assoc,
        List.cons_append, List.nil_append]
      rw [replaceTriplet_skip]
      · rw [ih hbt r]
      · intro ⟨h1, h2⟩
        have e1 : b / 16 = B / 16 :=
          hexDigitUpper_inj (by omega) (by omega) h1
        have e2 : b % 16 = B % 16 :=
          hexDigitUpper_inj (by omega) (by omega) h2
        exact hb.2 (by omega)
      · exact hexDigitUpper_ne_pct (by omega)
      · exact hexDigitUpper_ne_pct (by omega)
  intro s
  induction s with
  | nil => rfl
  | cons c s ih =>
    rw [encKeep_cons, encKeep_cons]
    by_cases hlit : (c ∈ K || isUnreservedURI c) = true
    · have h1 : encCharKeep K c = [c] := by simp [encCharKeep, hlit]
      have hcp : c ≠ '%' := by
        rcases Bool.or_eq_true_iff.mp hlit with h | h
        · exact hKp c (by simpa using h)
        · intro hc; subst hc; exact absurd h (by decide)
      have h2 : encCharKeep (cB :: K) c = [c] := by
        simp only [encCharKeep]
        rw [if_pos]
        rcases Bool.or_eq_true_iff.mp hlit with h | h
        · simp only [List.mem_cons]
          simp at h
          simp [h]
        · simp [h]
      rw [h1, h2]
      simp only [List.singleton_append]
      rw [replaceTriplet_cons_ne _ _ _ _ _ _ hcp, ih]
    · by_cases hcc : c = cB
      · subst hcc
        have h1 : encCharKeep K c = pctTriplet B := by
          simp only [encCharKeep]
          rw [if_neg (by simp_all), hEq, utf8Enc_single hB]
          simp
        have h2 : encCharKeep (c :: K) c = [c] := by
          simp [encCharKeep]
        rw [h1, h2]
        simp only [pctTriplet, List.cons_append, List.nil_append,
          List.singleton_append]
        rw [replaceTriplet_match, ih]
      · have hnotin : c ∉ cB :: K := by
          simp only [List.mem_cons]
          push_neg
          refine ⟨hcc, ?_⟩
          intro hmem
          simp [hmem] at hlit
        have h1 : encCharKeep K c = (utf8Enc c.toNat).flatMap pctTriplet := by
          simp only [encCharKeep]
          rw [if_neg (by simp_all)]
        have h2 : encCharKeep (cB :: K) c = (utf8Enc c.toNat).flatMap pctTriplet := by
          simp only [encCharKeep]
          rw [if_neg]
          simp only [Bool.or_eq_true, decide_eq_true_eq]
          push_neg
          refine ⟨by simpa using hnotin, by simp [hcu]; simp at hlit; exact hlit.2⟩
        rw [h1, h2]
        have hbytes : ∀ b ∈ utf8Enc c.toNat, b < 0x100 ∧ b ≠ B := by
          intro b hb
          constructor
          · apply utf8Enc_byte_lt _ b hb
            rcases char_valid c with h | h <;> omega
          · by_cases hlt : c.toNat < 0x80
            · rw [utf8Enc_single hlt] at hb
              simp at hb
              subst hb
              intro hbB
              exact hcc (char_toNat_inj (hEq ▸ hbB))
            · have := utf8Enc_multi_ge (n := c.toNat) (by omega) b hb
              omega
        rw [skipBytes _ hbytes, ih]

theorem encodeWithColonAndForwardSlash_eq (s : LC) :
    encodeWithColonAndForwardSlash s = encKeep ['/', ':'] s := by
  have e3 : ('3' : Char) = hexDigitUpper (0x3A / 16) := by decide
  have eA : ('A' : Char) = hexDigitUpper (0x3A % 16) := by decide
  have e2 : ('2' : Char) = hexDigitUpper (0x2F / 16) := by decide
  have eF : ('F' : Char) = hexDigitUpper (0x2F % 16) := by decide
  show replaceTriplet '%' '2' 'F' '/'
    (replaceTriplet '%' '3' 'A' ':' (encodeURIComponentJs s)) = _
  rw [e3, eA, e2, eF]
  rw [show encodeURIComponentJs s = encKeep [] s from rfl]
  rw [replace_encKeep 0x3A (by omega) ':' (by decide) (by decide) []
    (by simp) (by simp) s]
  rw [replace_encKeep 0x2F (by omega) '/' (by decide) (by decide) [':']
    (by decide) (by decide) s]

theorem encodeWithColonAndPlusSign_eq (s : LC) :
    encodeWithColonAndPlusSign s = encKeep ['+', ':'] s := by
  have e3 : ('3' : Char) = hexDigitUpper (0x3A / 16) := by decide
  have eA : ('A' : Char) = hexDigitUpper (0x3A % 16) := by decide
  have e2 : ('2' : Char) = hexDigitUpper (0x2B / 16) := by decide
  have eB : ('B' : Char) = hexDigitUpper (0x2B % 16) := by decide
  show replaceTriplet '%' '2' 'B' '+'
    (replaceTriplet '%' '3' 'A' ':' (encodeURIComponentJs s)) = _
  rw [e3, eA, e2, eB]
  rw [show encodeURIComponentJs s = encKeep [] s from rfl]
  rw [replace_encKeep 0x3A (by omega) ':' (by decide) (by decide) []
    (by simp) (by simp) s]
  rw [replace_encKeep 0x2B (by omega) '+' (by decide) (by decide) [':']
    (by decide) (by decide) s]

theorem encodeWithForwardSlash_eq (s : LC) :
    encodeWithForwardSlash s = encKeep ['/'] s := by
  have e2 : ('2' : Char) = hexDigitUpper (0x2F / 16) := by decide
  have eF : ('F' : Char) = hexDigitUpper (0x2F % 16) := by decide
  show replaceTriplet '%' '2' 'F' '/' (encodeURIComponentJs s) = _
  rw [e2, eF]
  rw [show encodeURIComponentJs s = encKeep [] s from rfl]
  rw [replace_encKeep 0x2F (by omega) '/' (by decide) (by decide) []
    (by simp) (by simp) s]

/-- Every character of an encKeep output is a kept character, an
unreserved character, '%', or an upper-case hex digit. -/
theorem encKeep_chars {K : List Char} {s : LC} {c : Char}
    (h : c ∈ encKeep K s) :
    c ∈ K ∨ isUnreservedURI c = true ∨ c = '%' ∨ c ∈ lc "0123456789ABCDEF" := by
  induction s with
  | nil => simp [encKeep] at h
  | cons a s ih =>
    rw [encKeep_cons] at h
    rcases List.mem_append.mp h with h | h
    · simp only [encCharKeep] at h
      split at h
      · simp at h
        subst h
        rename_i hcond
        rcases Bool.or_eq_true_iff.mp hcond with h | h
        · left; simpa using h
        · right; left; exact h
      · rcases List.mem_flatMap.mp h with ⟨b, hbmem, hb⟩
        have hb256 : b < 0x100 := by
          apply utf8Enc_byte_lt _ b hbmem
          rcases char_valid a with hv | hv <;> omega
        simp only [pctTriplet, List.mem_cons] at hb
        rcases hb with hb | hb | hb
        · right; right; left; exact hb
        · subst hb
          right; right; right
          have hd : b / 16 < 16 := by omega
          interval_cases h : b / 16 <;> decide
        · simp at hb
          subst hb
          right; right; right
          have hd : b % 16 < 16 := by omega
          interval_cases h : b % 16 <;> decide
    · exact ih h

/-! ## Claim C3 -/

/-- C3 counterexample: the claim says the encoder for the name component
preserves ':' unencoded and that '/' stays unencoded only in namespace and
subpath.  In the code the name component uses the default
PurlComponentEncoder (plain encodeURIComponent), which encodes ':' as %3A,
and encodeQualifierValue preserves '/' as well. -/
theorem C3_counterexample :
    PurlComponentEncoder (some (lc ":")) = lc "%3A" ∧
    lc "%3A" ≠ lc ":" ∧
    encodeQualifierValue (lc "/") = lc "/" := by decide

/-- C3 (amended): the component encoders used by toString are exactly
percent-encoding with these keep sets — namespace and qualifier values
preserve ':' and '/', version preserves ':' and '+', subpath preserves
'/', and the name (default) encoder preserves nothing extra; '@', '#' and
'?' never occur unencoded in any encoder output; a '%' in the input is
always re-encoded as %25. -/
theorem C3_encoding_asymmetry :
    (∀ s : LC, encodeNamespace (some s) = encKeep ['/', ':'] s) ∧
    (∀ s : LC, encodeVersion (some s) = encKeep ['+', ':'] s) ∧
    (∀ s : LC, encodeQualifierValue s = encKeep ['/', ':'] s) ∧
    (∀ s : LC, encodeSubpath (some s) = encKeep ['/'] s) ∧
    (∀ s : LC, PurlComponentEncoder (some s) = encKeep [] s) ∧
    (∀ (s : LC) (c : Char), c ∈ lc "@#?" →
      c ∉ encodeNamespace (some s) ∧ c ∉ encodeVersion (some s) ∧
      c ∉ encodeQualifierValue s ∧ c ∉ encodeSubpath (some s) ∧
      c ∉ PurlComponentEncoder (some s)) ∧
    (∀ t : LC, encKeep ['/', ':'] ('%' :: t) = lc "%25" ++ encKeep ['/', ':'] t) ∧
    (∀ t : LC, encKeep ['+', ':'] ('%' :: t) = lc "%25" ++ encKeep ['+', ':'] t) ∧
    (∀ t : LC, encKeep ['/'] ('%' :: t) = lc "%25" ++ encKeep ['/'] t) ∧
    (∀ t : LC, encKeep [] ('%' :: t) = lc "%25" ++ encKeep [] t) := by
  have hns : ∀ s : LC, encodeNamespace (some s) = encKeep ['/', ':'] s := by
    intro s
    by_cases h : s = []
    · subst h; rfl
    · simp only [encodeNamespace, List.length_eq_zero]
      rw [if_pos (by simpa using h), encodeWithColonAndForwardSlash_eq]
  have hv : ∀ s : LC, encodeVersion (some s) = encKeep ['+', ':'] s := by
    intro s
    by_cases h : s = []
    · subst h; rfl
    · simp only [encodeVersion, List.length_eq_zero]
      rw [if_pos (by simpa using h), encodeWithColonAndPlusSign_eq]
  have hq : ∀ s : LC, encodeQualifierValue s = encKeep ['/', ':'] s := by
    intro s
    by_cases h : s = []
    · subst h; rfl
    · simp only [encodeQualifierValue, List.length_eq_zero]
      rw [if_pos (by simpa using h), encodeWithColonAndForwardSlash_eq]
  have hsp : ∀ s : LC, encodeSubpath (some s) = encKeep ['/'] s := by
    intro s
    by_cases h : s = []
    · subst h; rfl
    · simp only [encodeSubpath, List.length_eq_zero]
      rw [if_pos (by simpa using h), encodeWithForwardSlash_eq]
  have hname : ∀ s : LC, PurlComponentEncoder (some s) = encKeep [] s := by
    intro s
    by_cases h : s = []
    · subst h; rfl
    · simp only [PurlComponentEncoder, List.length_eq_zero]
      rw [if_pos (by simpa using h)]
      rfl
  refine ⟨hns, hv, hq, hsp, hname, ?_, ?_, ?_, ?_, ?_⟩
  · intro s c hc
    have hcases : c = '@' ∨ c = '#' ∨ c = '?' := by
      simpa [lc] using hc
    have key : ∀ K : List Char, K = ['/', ':'] ∨ K = ['+', ':'] ∨
        K = ['/'] ∨ K = [] → c ∉ encKeep K s := by
      intro K hK hmem
      rcases encKeep_chars hmem with h | h | h | h <;>
        rcases hK with hK | hK | hK | hK <;> subst hK <;>
        rcases hcases with hc' | hc' | hc' <;> subst hc' <;>
        exact absurd h (by decide)
    refine ⟨?_, ?_, ?_, ?_, ?_⟩
    · rw [hns]; exact key _ (by simp)
    · rw [hv]; exact key _ (by simp)
    · rw [hq]; exact key _ (by simp)
    · rw [hsp]; exact key _ (by simp)
    · rw [hname]; exact key _ (by simp)
  · intro t
    rw [encKeep_cons, show encCharKeep ['/', ':'] '%' = lc "%25" from by decide]
  · intro t
    rw [encKeep_cons, show encCharKeep ['+', ':'] '%' = lc "%25" from by decide]
  · intro t
    rw [encKeep_cons, show encCharKeep ['/'] '%' = lc "%25" from by decide]
  · intro t
    rw [encKeep_cons, show encCharKeep [] '%' = lc "%25" from by decide]

/-- C3 witness: the amended characterization evaluated at a concrete
string containing every special character. -/
theorem C3_encoding_asymmetry_witness :
    encodeNamespace (some (lc "a:b/c")) = encKeep ['/', ':'] (lc "a:b/c") ∧
    '@' ∉ encodeVersion (some (lc "x@y")) := by
  refine ⟨C3_encoding_asymmetry.1 (lc "a:b/c"), ?_⟩
  exact (C3_encoding_asymmetry.2.2.2.2.2.1 (lc "x@y") '@' (by decide)).2.1

/-! ## Claim C6 -/

/-- C6 (code bug): the golang type validator is declared without the
throws parameter every other validator takes, while its body reads
throws; on a version that starts with 'v' and is not followed by a valid
semver string it therefore raises a ReferenceError regardless of the
flag, instead of returning false (flag false) or raising the documented
Error (flag true).  For contrast, a validator with the parameter (cran)
returns false in non-throwing mode. -/
theorem C6_golang_throws_bug :
    typeValidate (lc "golang")
      ⟨lc "golang", none, lc "x", some (lc "vabc"), none, none⟩ false =
        .error (.referenceError "throws is not defined") ∧
    typeValidate (lc "golang")
      ⟨lc "golang", none, lc "x", some (lc "vabc"), none, none⟩ true =
        .error (.referenceError "throws is not defined") ∧
    typeValidate (lc "cran")
      ⟨lc "cran", none, lc "x", none, none, none⟩ false = .ok false := by
  decide

/-! ## Claim C7 -/

/-- C7 counterexample: with a non-empty namespace and a qualifiers map
that has no channel entry, conan construction succeeds, although the
claim requires a channel qualifier whenever a namespace is present. -/
theorem C7_counterexample :
    construct (some (lc "conan")) (some (lc "ns")) (some (lc "n")) none
      (some [(lc "steak", lc "x")]) none =
      .ok ⟨lc "conan", some (lc "ns"), lc "n", none,
        some [(lc "steak", lc "x")], none⟩ ∧
    jsGet [(lc "steak", lc "x")] (lc "channel") = none := by decide

/-- C7 (amended): conan validation fails exactly when the namespace is
absent or empty while a channel qualifier with a non-empty value is
present, or when the namespace is present and non-empty while the
qualifiers object is absent — the presence of any qualifier (not
specifically channel) satisfies the namespace-side requirement.  On
failure the validator raises when the flag is true and returns false
when it is false. -/
theorem C7_conan_validation (p : PackageURL) (throws : Bool) :
    ((p.nspace = none ∨ p.nspace = some []) →
      (conanValidate p throws = .ok true ↔
        ¬∃ m v, p.qualifiers = some m ∧ jsGet m (lc "channel") = some v ∧
          v ≠ [])) ∧
    ((∃ ns, p.nspace = some ns ∧ ns ≠ []) →
      (conanValidate p throws = .ok true ↔ p.qualifiers ≠ none)) ∧
    (conanValidate p throws ≠ .ok true →
      (throws = false → conanValidate p throws = .ok false) ∧
      (throws = true → ∃ msg, conanValidate p throws = .error (.error msg))) := by
  have hnullish : isNullishOrEmptyStringO p.nspace = true ↔
      (p.nspace = none ∨ p.nspace = some []) := by
    cases h : p.nspace with
    | none => simp [isNullishOrEmptyStringO]
    | some ns => cases ns <;> simp [isNullishOrEmptyStringO]
  have hchannel : conanChannelTruthy p.qualifiers = true ↔
      (∃ m v, p.qualifiers = some m ∧ jsGet m (lc "channel") = some v ∧
        v ≠ []) := by
    cases hq : p.qualifiers with
    | none => simp [conanChannelTruthy]
    | some m =>
      simp only [conanChannelTruthy]
      cases hg : jsGet m (lc "channel") with
      | none => simp [hg]
      | some v =>
        simp only [hg]
        constructor
        · intro hv
          exact ⟨m, v, rfl, hg, by simpa using hv⟩
        · rintro ⟨m', v', hm', hget, hne⟩
          cases hm'
          rw [hg] at hget
          cases hget
          simpa using hne
  refine ⟨?_, ?_, ?_⟩
  · intro hns
    rw [← hnullish] at hns
    rw [← hchannel]
    simp only [conanValidate, hns, if_true]
    cases hct : conanChannelTruthy p.qualifiers <;> cases throws <;> simp
  · rintro ⟨ns, hns, hne⟩
    have h1 : isNullishOrEmptyStringO p.nspace = false := by
      simp [isNullishOrEmptyStringO, hns, hne]
    simp only [conanValidate, h1, Bool.false_eq_true, if_false]
    cases hq : p.qualifiers with
    | none => cases throws <;> simp
    | some m => simp
  · intro hfail
    simp only [conanValidate] at hfail ⊢
    constructor
    · intro ht; subst ht
      split at hfail
      · split at hfail
        · simp
          rename_i h1 h2
          simp [h1, h2]
        · simp_all
      · split at hfail
        · rename_i h1 h2
          simp [h1, h2]
        · simp_all
    · intro ht; subst ht
      split at hfail
      · split at hfail
        · rename_i h1 h2
          exact ⟨"Invalid purl: conan requires a \"namespace\" field when a \"channel\" qualifier is present.",
            by simp [h1, h2]⟩
        · simp_all
      · split at hfail
        · rename_i h1 h2
          exact ⟨"Invalid purl: conan requires a \"qualifiers\" field when a namespace is present.",
            by simp [h1, h2]⟩
        · simp_all

/-- C7 witness: the amended statement applied to a concrete conan purl
with namespace and a non-channel qualifier. -/
theorem C7_conan_validation_witness :
    conanValidate ⟨lc "conan", some (lc "ns"), lc "n", none,
      some [(lc "steak", lc "x")], none⟩ true = .ok true := by
  have h := (C7_conan_validation ⟨lc "conan", some (lc "ns"), lc "n", none,
    some [(lc "steak", lc "x")], none⟩ true).2.1 ⟨lc "ns", rfl, by decide⟩
  exact h.mpr (by decide)

/-! ## Claim C8 -/

/-- C8 counterexample: parseString of the empty string does not fail;
it returns six absent components. -/
theorem C8_counterexample :
    parseString (lc "") = .ok ⟨none, none, none, none, none, none⟩ := by
  decide

/-- C8 (amended): for every string input that is empty or whitespace-only,
parseString succeeds with all six components absent (the EmptyInput
failure only arises later, from fromString's constructor call). -/
theorem C8_blank_input (s : LC) (h : isBlank s = true) :
    parseString s = .ok ⟨none, none, none, none, none, none⟩ := by
  simp [parseString, h]

/-- C8 witness: the amended statement at a whitespace-only input. -/
theorem C8_blank_input_witness :
    parseString (lc "  ") = .ok ⟨none, none, none, none, none, none⟩ :=
  C8_blank_input (lc "  ") (by decide)

/-! ## Claim C5 (counterexample) -/

/-- C5 counterexample: in pkg:t/a@1/@x the last '@' of the path
t/a@1/@x is immediately preceded by '/', but an earlier '@' (after a) is
not; the claim demands that this earlier '@' serve as the version
delimiter (version 1/@x), yet parseString reports no version at all and
instead splits the whole remainder into namespace a@1 and name @x. -/
theorem C5_counterexample :
    parseString (lc "pkg:t/a@1/@x") =
      .ok ⟨some (lc "t"), some (lc "a@1"), some (lc "@x"), none, none, none⟩ ∧
    (lc "t/a@1/@x").getD 3 ' ' = '@' ∧
    (lc "t/a@1/@x").getD 2 ' ' ≠ '/' := by decide

/-! ## Claim C2 (counterexample) -/

/-- C2 counterexample: a live instance built from the raw name a%2541b
stores the canonical name a%41b; re-constructing from the stored fields
percent-decodes again and yields the different name aAb, so re-normalizing
canonical values is not a no-op.  A second failure mode needs no '%' at
all: the raw subpath ./a stores the subpath /a (the collapsing loop
filters out the '.' segment and then prefixes '/' to the last segment
unconditionally), and re-constructing from the stored /a yields the
different subpath a (the early-return path strips the leading slash). -/
theorem C2_counterexample :
    (construct (some (lc "gem")) none (some (lc "a%2541b")) none none none =
      .ok ⟨lc "gem", none, lc "a%41b", none, none, none⟩ ∧
    construct (some (lc "gem")) none (some (lc "a%41b")) none none none =
      .ok ⟨lc "gem", none, lc "aAb", none, none, none⟩ ∧
    lc "a%41b" ≠ lc "aAb") ∧
    (construct (some (lc "gem")) none (some (lc "x")) none none
        (some (lc "./a")) =
      .ok ⟨lc "gem", none, lc "x", none, none, some (lc "/a")⟩ ∧
    construct (some (lc "gem")) none (some (lc "x")) none none
        (some (lc "/a")) =
      .ok ⟨lc "gem", none, lc "x", none, none, some (lc "a")⟩ ∧
    lc "/a" ≠ lc "a") := by decide

/-! ## Claim C1 (counterexample) -/

/-- C1 counterexample: the constructor accepts the tuple
(gem, "", x) and stores the empty-string namespace, but toString omits
empty components, so re-parsing yields an absent namespace: the
round-tripped instance differs field-for-field from the original. -/
theorem C1_counterexample :
    construct (some (lc "gem")) (some (lc "")) (some (lc "x")) none none none =
      .ok ⟨lc "gem", some [], lc "x", none, none, none⟩ ∧
    fromString (toStr ⟨lc "gem", some [], lc "x", none, none, none⟩) =
      .ok ⟨lc "gem", none, lc "x", none, none, none⟩ ∧
    some ([] : LC) ≠ (none : Option LC) := by decide

/-! ## Qualifier-map lemmas -/

theorem qSet_ne_nil (m : List (LC × LC)) (k v : LC) : qSet m k v ≠ [] := by
  cases m with
  | nil => simp [qSet]
  | cons kv t =>
    rcases kv with ⟨k1, v1⟩
    simp only [qSet]
    split <;> simp

theorem mem_qSet (m : List (LC × LC)) (k v : LC) :
    ∀ kv ∈ qSet m k v, kv = (k, v) ∨ kv ∈ m := by
  induction m with
  | nil => simp [qSet]
  | cons hd t ih =>
    rcases hd with ⟨k1, v1⟩
    intro kv hkv
    simp only [qSet] at hkv
    split at hkv
    · rename_i he
      subst he
      rcases List.mem_cons.mp hkv with h | h
      · left; simpa using h
      · right; simp [h]
    · rcases List.mem_cons.mp hkv with h | h
      · right; simp [h]
      · rcases ih kv h with h' | h'
        · left; exact h'
        · right; simp [h']

theorem jsGet_qSet_self (m : List (LC × LC)) (k v : LC) :
    jsGet (qSet m k v) k = some v := by
  induction m with
  | nil => simp [qSet, jsGet]
  | cons hd t ih =>
    rcases hd with ⟨k1, v1⟩
    simp only [qSet]
    split
    · rename_i he; subst he; simp [jsGet]
    · rename_i he; simp [jsGet, he, ih]

theorem jsGet_qSet_other (m : List (LC × LC)) (k v k' : LC) (h : k' ≠ k) :
    jsGet (qSet m k v) k' = jsGet m k' := by
  induction m with
  | nil =>
    simp only [qSet, jsGet]
    rw [if_neg (fun he => h he.symm)]
  | cons hd t ih =>
    rcases hd with ⟨k1, v1⟩
    simp only [qSet]
    split
    · rename_i he; subst he
      simp only [jsGet]
      split
      · rename_i he2; exact absurd he2.symm (by simpa using h)
      · rfl
    · simp only [jsGet]
      split
      · rfl
      · exact ih

theorem qSet_keys (m : List (LC × LC)) (k v : LC) :
    (qSet m k v).map (·.1) =
      if k ∈ m.map (·.1) then m.map (·.1) else m.map (·.1) ++ [k] := by
  induction m with
  | nil => simp [qSet]
  | cons hd t ih =>
    rcases hd with ⟨k1, v1⟩
    simp only [qSet]
    split
    · rename_i he; subst he; simp
    · rename_i he
      simp only [List.map_cons]
      rw [ih]
      by_cases hmem : k ∈ t.map (·.1)
      · rw [if_pos hmem, if_pos (by simp [hmem])]
      · have hne : k ∉ k1 :: List.map (fun x => x.1) t := by
          simp only [List.mem_cons]
          push_neg
          exact ⟨fun hh => he hh.symm, hmem⟩
        rw [if_neg hmem, if_neg hne]
        simp

theorem qSet_append_of_notMem (m : List (LC × LC)) (k v : LC)
    (h : k ∉ m.map (·.1)) : qSet m k v = m ++ [(k, v)] := by
  induction m with
  | nil => simp [qSet]
  | cons hd t ih =>
    rcases hd with ⟨k1, v1⟩
    simp only [List.map_cons, List.mem_cons] at h
    push_neg at h
    simp only [qSet]
    rw [if_neg (fun he => h.1 he.symm)]
    simp [ih h.2]

theorem normalizeQualifiers_formula (raw : List (LC × LC)) :
    ∀ acc : Option (List (LC × LC)),
      raw.foldl
        (fun acc kv =>
          if jsTrim kv.2 = [] then acc
          else some (qSet (acc.getD []) (jsToLower kv.1) (jsTrim kv.2))) acc =
      if (∀ kv ∈ raw, jsTrim kv.2 = []) ∧ acc = none then none
      else some (raw.foldl nqStep (acc.getD [])) := by
  induction raw with
  | nil =>
    intro acc
    cases acc <;> simp
  | cons kv t ih =>
    intro acc
    by_cases hkv : jsTrim kv.2 = []
    · have hstep : nqStep (acc.getD []) kv = acc.getD [] := by
        simp [nqStep, hkv]
      simp only [List.foldl_cons, hkv, if_pos, ih acc, hstep]
      by_cases hall : ∀ kv2 ∈ t, jsTrim kv2.2 = []
      · have hall2 : ∀ kv2 ∈ kv :: t, jsTrim kv2.2 = [] := by
          intro kv2 h2
          rcases List.mem_cons.mp h2 with h3 | h3
          · subst h3; exact hkv
          · exact hall kv2 h3
        cases acc with
        | none => rw [if_pos ⟨hall, rfl⟩, if_pos ⟨hall2, rfl⟩]
        | some m => rw [if_neg (by simp), if_neg (by simp)]
      · rw [if_neg (fun h => hall h.1),
          if_neg (fun h => hall (fun kv2 h2 => h.1 kv2 (by simp [h2])))]
    · have hcond : ¬((∀ kv2 ∈ kv :: t, jsTrim kv2.2 = []) ∧ acc = none) := by
        intro h
        exact hkv (h.1 kv (by simp))
      rw [if_neg hcond]
      simp only [List.foldl_cons, if_neg hkv]
      rw [ih (some (qSet (acc.getD []) (jsToLower kv.1) (jsTrim kv.2)))]
      rw [if_neg (by simp)]
      have hstep : nqStep (acc.getD []) kv =
          qSet (acc.getD []) (jsToLower kv.1) (jsTrim kv.2) := by
        simp [nqStep, hkv]
      rw [hstep]
      rfl

theorem normalizeQualifiers_eq (raw : List (LC × LC)) :
    normalizeQualifiers raw =
      if (∀ kv ∈ raw, jsTrim kv.2 = []) then none
      else some (raw.foldl nqStep []) := by
  have h := normalizeQualifiers_formula raw none
  simp only [normalizeQualifiers]
  rw [h]
  by_cases hall : ∀ kv ∈ raw, jsTrim kv.2 = []
  · rw [if_pos ⟨hall, rfl⟩, if_pos hall]
  · rw [if_neg (fun h => hall h.1), if_neg hall]
    rfl

theorem foldl_nqStep_mem (raw : List (LC × LC)) :
    ∀ (acc : List (LC × LC)) (kv : LC × LC), kv ∈ raw.foldl nqStep acc →
      kv ∈ acc ∨ ∃ kv0 ∈ raw, kv.1 = jsToLower kv0.1 ∧ kv.2 = jsTrim kv0.2 ∧
        kv.2 ≠ [] := by
  induction raw with
  | nil => intro acc kv h; left; simpa using h
  | cons hd t ih =>
    intro acc kv h
    simp only [List.foldl_cons] at h
    rcases ih (nqStep acc hd) kv h with h1 | h1
    · simp only [nqStep] at h1
      split at h1
      · left; exact h1
      · rcases mem_qSet _ _ _ kv h1 with h2 | h2
        · right
          refine ⟨hd, by simp, ?_⟩
          rename_i htr
          subst h2
          exact ⟨rfl, rfl, htr⟩
        · left; exact h2
    · rcases h1 with ⟨kv0, hkv0, hp⟩
      right; exact ⟨kv0, by simp [hkv0], hp⟩

theorem jsGet_nqStep_preserved (raw : List (LC × LC)) :
    ∀ (acc : List (LC × LC)) (k : LC), (jsGet acc k).isSome →
      (jsGet (raw.foldl nqStep acc) k).isSome := by
  induction raw with
  | nil => intro acc k h; simpa using h
  | cons hd t ih =>
    intro acc k h
    simp only [List.foldl_cons]
    apply ih
    simp only [nqStep]
    split
    · exact h
    · by_cases hk : k = jsToLower hd.1
      · subst hk; rw [jsGet_qSet_self]; rfl
      · rw [jsGet_qSet_other _ _ _ _ hk]; exact h

theorem foldl_nqStep_get (raw : List (LC × LC)) :
    ∀ (acc : List (LC × LC)) (kv0 : LC × LC), kv0 ∈ raw →
      jsTrim kv0.2 ≠ [] →
      (jsGet (raw.foldl nqStep acc) (jsToLower kv0.1)).isSome := by
  induction raw with
  | nil => intro acc kv0 h; simp at h
  | cons hd t ih =>
    intro acc kv0 hmem htr
    rcases List.mem_cons.mp hmem with h | h
    · subst h
      simp only [List.foldl_cons]
      apply jsGet_nqStep_preserved
      simp only [nqStep, if_neg htr]
      rw [jsGet_qSet_self]
      rfl
    · exact ih _ kv0 h htr

theorem foldl_nqStep_eq_nil (raw : List (LC × LC)) :
    ∀ acc : List (LC × LC), raw.foldl nqStep acc = [] →
      acc = [] ∧ ∀ kv ∈ raw, jsTrim kv.2 = [] := by
  induction raw with
  | nil => intro acc h; simpa using h
  | cons hd t ih =>
    intro acc h
    simp only [List.foldl_cons] at h
    rcases ih (nqStep acc hd) h with ⟨h1, h2⟩
    simp only [nqStep] at h1
    split at h1
    · rename_i htr
      exact ⟨h1, fun kv hkv => by
        rcases List.mem_cons.mp hkv with h3 | h3
        · subst h3; exact htr
        · exact h2 kv h3⟩
    · exact absurd h1 (qSet_ne_nil _ _ _)

theorem foldl_nqStep_canonical (m : List (LC × LC)) :
    ∀ acc : List (LC × LC),
      (∀ kv ∈ m, jsToLower kv.1 = kv.1) →
      (∀ kv ∈ m, jsTrim kv.2 = kv.2 ∧ kv.2 ≠ []) →
      (∀ kv ∈ m, kv.1 ∉ acc.map (·.1)) →
      (m.map (·.1)).Nodup →
      m.foldl nqStep acc = acc ++ m := by
  induction m with
  | nil => intro acc _ _ _ _; simp
  | cons hd t ih =>
    intro acc hkeys hvals hdisj hnodup
    have hv := hvals hd (by simp)
    have hk := hkeys hd (by simp)
    simp only [List.foldl_cons, nqStep, hv.1, if_neg hv.2, hk]
    rw [qSet_append_of_notMem _ _ _ (hdisj hd (by simp))]
    rw [List.map_cons] at hnodup
    have hnd := List.nodup_cons.mp hnodup
    have step := ih (acc ++ [(hd.1, hd.2)])
      (fun kv h => hkeys kv (by simp [h]))
      (fun kv h => hvals kv (by simp [h]))
      (fun kv h => by
        simp only [List.map_append, List.mem_append]
        push_neg
        refine ⟨hdisj kv (by simp [h]), ?_⟩
        simp only [List.map_cons, List.map_nil, List.mem_singleton]
        intro he
        exact hnd.1 (he ▸ List.mem_map_of_mem (fun x => x.1) h))
      hnd.2
    rw [step]
    simp

/-! ## Constructor inversion lemmas -/

theorem constructType_ok {rt ty : Option LC} (h : constructType rt = .ok ty) :
    ∃ r d, rt = some r ∧ r ≠ [] ∧ decodePct r = some d ∧
      ty = some (jsToLower (jsTrim d)) ∧ (validateType ty true).isOk := by
  cases hrt : rt with
  | none =>
    subst hrt
    have hbad : (constructType (none : Option LC)).isOk = false := by decide
    rw [h] at hbad
    simp [Except.isOk, Except.toBool] at hbad
  | some r =>
    subst hrt
    cases hr : decide (r = []) with
    | true =>
      have hr' : r = [] := of_decide_eq_true hr
      subst hr'
      have hbad : (constructType (some ([] : LC))).isOk = false := by decide
      rw [h] at hbad
      simp [Except.isOk, Except.toBool] at hbad
    | false =>
      have hr' : r ≠ [] := of_decide_eq_false hr
      simp only [constructType, isNonEmptyStringO] at h
      rw [if_pos (by simpa using hr')] at h
      simp only [normalizeType, decodeE] at h
      cases hd : decodePct r with
      | none =>
        rw [hd] at h
        simp [Bind.bind, Except.bind] at h
      | some d =>
        rw [hd] at h
        simp only [Bind.bind, Except.bind, Pure.pure, Except.pure] at h
        cases hv : validateType (some (jsToLower (jsTrim d))) true with
        | error e => rw [hv] at h; simp at h
        | ok b =>
          rw [hv] at h
          simp only [Except.ok.injEq] at h
          subst h
          exact ⟨r, d, rfl, hr', hd, rfl, by simp [hv, Except.isOk, Except.toBool]⟩

theorem constructName_ok {rn nm : Option LC} (h : constructName rn = .ok nm) :
    ∃ r d, rn = some r ∧ r ≠ [] ∧ decodePct r = some d ∧
      nm = some (jsTrim d) ∧ jsTrim d ≠ [] := by
  cases hrn : rn with
  | none =>
    subst hrn
    have hbad : (constructName (none : Option LC)).isOk = false := by decide
    rw [h] at hbad
    simp [Except.isOk, Except.toBool] at hbad
  | some r =>
    subst hrn
    cases hr : decide (r = []) with
    | true =>
      have hr' : r = [] := of_decide_eq_true hr
      subst hr'
      have hbad : (constructName (some ([] : LC))).isOk = false := by decide
      rw [h] at hbad
      simp [Except.isOk, Except.toBool] at hbad
    | false =>
      have hr' : r ≠ [] := of_decide_eq_false hr
      simp only [constructName, isNonEmptyStringO] at h
      rw [if_pos (by simpa using hr')] at h
      simp only [normalizeName, decodeE] at h
      cases hd : decodePct r with
      | none =>
        rw [hd] at h
        simp [Bind.bind, Except.bind] at h
      | some d =>
        rw [hd] at h
        simp only [Bind.bind, Except.bind, Pure.pure, Except.pure] at h
        cases htr : decide (jsTrim d = []) with
        | true =>
          have htr' : jsTrim d = [] := of_decide_eq_true htr
          rw [show validateName (some (jsTrim d)) true =
            .error (.error "Invalid purl: \"name\" is a required field.") from by
              simp [validateName, validateRequired, isNullishOrEmptyStringO, htr']] at h
          simp at h
        | false =>
          have htr' : jsTrim d ≠ [] := of_decide_eq_false htr
          rw [show validateName (some (jsTrim d)) true = .ok true from by
            simp [validateName, validateRequired, isNullishOrEmptyStringO, htr']] at h
          simp only [Except.ok.injEq] at h
          subst h
          exact ⟨r, d, rfl, hr', hd, rfl, htr'⟩

theorem constructNamespace_ok {rns ns : Option LC}
    (h : constructNamespace rns = .ok ns) :
    (rns = none ∧ ns = none) ∨ (rns = some [] ∧ ns = some []) ∨
      (∃ r d, rns = some r ∧ r ≠ [] ∧ decodePct r = some d ∧
        ns = some (normalizePath none d)) := by
  cases hrns : rns with
  | none =>
    subst hrns
    left
    refine ⟨rfl, ?_⟩
    have : constructName (none : Option LC) = constructName none := rfl
    simp only [constructNamespace, isNonEmptyStringO] at h
    simp [Bind.bind, Except.bind, Pure.pure, Except.pure, validateNamespace] at h
    exact h.symm
  | some r =>
    subst hrns
    cases hr : decide (r = []) with
    | true =>
      have hr' : r = [] := of_decide_eq_true hr
      subst hr'
      right; left
      refine ⟨rfl, ?_⟩
      simp only [constructNamespace, isNonEmptyStringO] at h
      simp [Bind.bind, Except.bind, Pure.pure, Except.pure, validateNamespace] at h
      exact h.symm
    | false =>
      have hr' : r ≠ [] := of_decide_eq_false hr
      right; right
      simp only [constructNamespace, isNonEmptyStringO] at h
      rw [if_pos (by simpa using hr')] at h
      simp only [normalizeNamespace, decodeE] at h
      cases hd : decodePct r with
      | none =>
        rw [hd] at h
        simp [Bind.bind, Except.bind] at h
      | some d =>
        rw [hd] at h
        simp [Bind.bind, Except.bind, Pure.pure, Except.pure,
          validateNamespace] at h
        exact ⟨r, d, rfl, hr', hd, h.symm⟩

theorem constructVersion_ok {rv v : Option LC}
    (h : constructVersion rv = .ok v) :
    (rv = none ∧ v = none) ∨ (rv = some [] ∧ v = some []) ∨
      (∃ r d, rv = some r ∧ r ≠ [] ∧ decodePct r = some d ∧
        v = some (jsTrim d)) := by
  cases hrv : rv with
  | none =>
    subst hrv
    left
    refine ⟨rfl, ?_⟩
    simp only [constructVersion, isNonEmptyStringO] at h
    simp [Bind.bind, Except.bind, Pure.pure, Except.pure, validateVersion] at h
    exact h.symm
  | some r =>
    subst hrv
    cases hr : decide (r = []) with
    | true =>
      have hr' : r = [] := of_decide_eq_true hr
      subst hr'
      right; left
      refine ⟨rfl, ?_⟩
      simp only [constructVersion, isNonEmptyStringO] at h
      simp [Bind.bind, Except.bind, Pure.pure, Except.pure, validateVersion] at h
      exact h.symm
    | false =>
      have hr' : r ≠ [] := of_decide_eq_false hr
      right; right
      simp only [constructVersion, isNonEmptyStringO] at h
      rw [if_pos (by simpa using hr')] at h
      simp only [normalizeVersion, decodeE] at h
      cases hd : decodePct r with
      | none =>
        rw [hd] at h
        simp [Bind.bind, Except.bind] at h
      | some d =>
        rw [hd] at h
        simp [Bind.bind, Except.bind, Pure.pure, Except.pure,
          validateVersion] at h
        exact ⟨r, d, rfl, hr', hd, h.symm⟩

theorem constructSubpath_ok {rsp sp : Option LC}
    (h : constructSubpath rsp = .ok sp) :
    (rsp = none ∧ sp = none) ∨ (rsp = some [] ∧ sp = some []) ∨
      (∃ r d, rsp = some r ∧ r ≠ [] ∧ decodePct r = some d ∧
        sp = some (normalizePath (some subpathFilter) d)) := by
  cases hrsp : rsp with
  | none =>
    subst hrsp
    left
    refine ⟨rfl, ?_⟩
    simp only [constructSubpath, isNonEmptyStringO] at h
    simp [Bind.bind, Except.bind, Pure.pure, Except.pure, validateSubpath] at h
    exact h.symm
  | some r =>
    subst hrsp
    cases hr : decide (r = []) with
    | true =>
      have hr' : r = [] := of_decide_eq_true hr
      subst hr'
      right; left
      refine ⟨rfl, ?_⟩
      simp only [constructSubpath, isNonEmptyStringO] at h
      simp [Bind.bind, Except.bind, Pure.pure, Except.pure, validateSubpath] at h
      exact h.symm
    | false =>
      have hr' : r ≠ [] := of_decide_eq_false hr
      right; right
      simp only [constructSubpath, isNonEmptyStringO] at h
      rw [if_pos (by simpa using hr')] at h
      simp only [normalizeSubpath, decodeE] at h
      cases hd : decodePct r with
      | none =>
        rw [hd] at h
        simp [Bind.bind, Except.bind] at h
      | some d =>
        rw [hd] at h
        simp [Bind.bind, Except.bind, Pure.pure, Except.pure,
          validateSubpath] at h
        exact ⟨r, d, rfl, hr', hd, h.symm⟩

theorem constructQualifiers_ok {rq q : Option (List (LC × LC))}
    (h : constructQualifiers rq = .ok q) :
    ((rq = none ∧ q = none) ∨
      (∃ e, rq = some e ∧ q = normalizeQualifiers e)) ∧
    (validateQualifiers q true).isOk := by
  cases hrq : rq with
  | none =>
    subst hrq
    simp only [constructQualifiers] at h
    simp only [Bind.bind, Except.bind] at h
    cases hv : validateQualifiers none true with
    | error e => rw [hv] at h; simp at h
    | ok b =>
      rw [hv] at h
      simp only [Pure.pure, Except.pure, Except.ok.injEq] at h
      subst h
      exact ⟨Or.inl ⟨rfl, rfl⟩, by simp [hv, Except.isOk, Except.toBool]⟩
  | some e =>
    subst hrq
    simp only [constructQualifiers] at h
    simp only [Bind.bind, Except.bind] at h
    cases hv : validateQualifiers (normalizeQualifiers e) true with
    | error e2 => rw [hv] at h; simp at h
    | ok b =>
      rw [hv] at h
      simp only [Pure.pure, Except.pure, Except.ok.injEq] at h
      subst h
      exact ⟨Or.inr ⟨e, rfl, rfl⟩, by simp [hv, Except.isOk, Except.toBool]⟩

theorem construct_ok_inv {rt rns rn rv : Option LC}
    {rq : Option (List (LC × LC))} {rsp : Option LC} {p : PackageURL}
    (h : construct rt rns rn rv rq rsp = .ok p) :
    ∃ t ns n v q sp,
      constructType rt = .ok (some t) ∧
      constructNamespace rns = .ok ns ∧
      constructName rn = .ok (some n) ∧
      constructVersion rv = .ok v ∧
      constructQualifiers rq = .ok q ∧
      constructSubpath rsp = .ok sp ∧
      ((typeKnown t = true ∧
        p = typeNormalize t ⟨t, ns, n, v, q, sp⟩ ∧
        (typeValidate t p true).isOk) ∨
       (typeKnown t = false ∧ p = ⟨t, ns, n, v, q, sp⟩)) := by
  simp only [construct, Bind.bind, Except.bind] at h
  cases h1 : constructType rt with
  | error e => rw [h1] at h; simp at h
  | ok ty =>
    rw [h1] at h
    cases h2 : constructNamespace rns with
    | error e => rw [h2] at h; simp at h
    | ok ns =>
      rw [h2] at h
      cases h3 : constructName rn with
      | error e => rw [h3] at h; simp at h
      | ok nm =>
        rw [h3] at h
        cases h4 : constructVersion rv with
        | error e => rw [h4] at h; simp at h
        | ok v =>
          rw [h4] at h
          cases h5 : constructQualifiers rq with
          | error e => rw [h5] at h; simp at h
          | ok q =>
            rw [h5] at h
            cases h6 : constructSubpath rsp with
            | error e => rw [h6] at h; simp at h
            | ok sp =>
              rw [h6] at h
              cases ty with
              | none => simp at h
              | some t =>
                cases nm with
                | none => simp at h
                | some n =>
                  refine ⟨t, ns, n, v, q, sp, rfl, rfl, rfl, rfl, rfl, rfl, ?_⟩
                  simp only at h
                  cases hk : typeKnown t with
                  | false =>
                    rw [hk] at h
                    simp only [Bool.false_eq_true, if_false, Pure.pure,
                      Except.pure, Except.ok.injEq] at h
                    exact Or.inr ⟨rfl, h.symm⟩
                  | true =>
                    rw [hk] at h
                    simp only [if_true] at h
                    cases hv : typeValidate t
                        (typeNormalize t ⟨t, ns, n, v, q, sp⟩) true with
                    | error e => rw [hv] at h; simp at h
                    | ok b =>
                      rw [hv] at h
                      simp only [Pure.pure, Except.pure, Except.ok.injEq] at h
                      subst h
                      exact Or.inl ⟨rfl, rfl,
                        by simp [hv, Except.isOk, Except.toBool]⟩

/-! ## Claim C9 -/

/-- C9 (confirmed): normalizeQualifiers drops exactly the entries whose
value trims to the empty string (yielding an absent component when every
entry is dropped), and every retained entry has a lowercased key and the
trimmed, non-empty value of some input entry; every input entry with a
non-empty trimmed value is represented under its lowercased key. -/
theorem C9_qualifiers_normalization :
    (∀ raw : List (LC × LC),
      (normalizeQualifiers raw = none ↔ ∀ kv ∈ raw, jsTrim kv.2 = [])) ∧
    (∀ (raw m : List (LC × LC)), normalizeQualifiers raw = some m →
      m ≠ [] ∧
      (∀ kv ∈ m, kv.2 ≠ [] ∧
        ∃ kv0 ∈ raw, kv.1 = jsToLower kv0.1 ∧ kv.2 = jsTrim kv0.2) ∧
      (∀ kv0 ∈ raw, jsTrim kv0.2 ≠ [] →
        (jsGet m (jsToLower kv0.1)).isSome)) := by
  constructor
  · intro raw
    rw [normalizeQualifiers_eq]
    by_cases hall : ∀ kv ∈ raw, jsTrim kv.2 = []
    · simp [hall]
    · simp [hall]
  · intro raw m h
    rw [normalizeQualifiers_eq] at h
    by_cases hall : ∀ kv ∈ raw, jsTrim kv.2 = []
    · rw [if_pos hall] at h; cases h
    · rw [if_neg hall] at h
      simp only [Option.some.injEq] at h
      subst h
      refine ⟨?_, ?_, ?_⟩
      · intro hnil
        exact hall (foldl_nqStep_eq_nil raw [] hnil).2
      · intro kv hkv
        rcases foldl_nqStep_mem raw [] kv hkv with h1 | h1
        · simp at h1
        · rcases h1 with ⟨kv0, hkv0, he1, he2, hne⟩
          exact ⟨hne, kv0, hkv0, he1, he2⟩
      · intro kv0 hkv0 htr
        exact foldl_nqStep_get raw [] kv0 hkv0 htr

/-- C9 witness: the characterization applied to a concrete entry list
with one kept (uppercased, untrimmed) entry and one dropped entry. -/
theorem C9_qualifiers_normalization_witness :
    normalizeQualifiers [(lc "A", lc " v "), (lc "b", lc "  ")] =
      some [(lc "a", lc "v")] ∧
    ([(lc "a", lc "v")] : List (LC × LC)) ≠ [] := by
  refine ⟨by decide, ?_⟩
  exact (C9_qualifiers_normalization.2 [(lc "A", lc " v "), (lc "b", lc "  ")]
    [(lc "a", lc "v")] (by decide)).1

/-! ## Type-table field-preservation lemmas -/

theorem lowerName_parts (p : PackageURL) :
    (lowerName p).type = p.type ∧ (lowerName p).nspace = p.nspace ∧
    (lowerName p).version = p.version ∧
    (lowerName p).qualifiers = p.qualifiers ∧
    (lowerName p).subpath = p.subpath := ⟨rfl, rfl, rfl, rfl, rfl⟩

theorem lowerNamespace_parts (p : PackageURL) :
    (lowerNamespace p).type = p.type ∧ (lowerNamespace p).name = p.name ∧
    (lowerNamespace p).version = p.version ∧
    (lowerNamespace p).qualifiers = p.qualifiers ∧
    (lowerNamespace p).subpath = p.subpath := by
  cases h : p.nspace <;> simp [lowerNamespace, h]

theorem lowerVersion_parts (p : PackageURL) :
    (lowerVersion p).type = p.type ∧ (lowerVersion p).name = p.name ∧
    (lowerVersion p).nspace = p.nspace ∧
    (lowerVersion p).qualifiers = p.qualifiers ∧
    (lowerVersion p).subpath = p.subpath := by
  cases h : p.version <;> simp [lowerVersion, h]

theorem typeNormalize_type (t : LC) (p : PackageURL) :
    (typeNormalize t p).type = p.type := by
  rcases p with ⟨ty, ns, nm, ver, q, sp⟩
  cases ns <;> cases ver <;>
    simp only [typeNormalize, apply_ite PackageURL.type, lowerName,
      lowerNamespace, lowerVersion] <;>
    simp

theorem typeNormalize_qualifiers (t : LC) (p : PackageURL) :
    (typeNormalize t p).qualifiers = p.qualifiers := by
  rcases p with ⟨ty, ns, nm, ver, q, sp⟩
  cases ns <;> cases ver <;>
    simp only [typeNormalize, apply_ite PackageURL.qualifiers, lowerName,
      lowerNamespace, lowerVersion] <;>
    simp

theorem typeNormalize_subpath (t : LC) (p : PackageURL) :
    (typeNormalize t p).subpath = p.subpath := by
  rcases p with ⟨ty, ns, nm, ver, q, sp⟩
  cases ns <;> cases ver <;>
    simp only [typeNormalize, apply_ite PackageURL.subpath, lowerName,
      lowerNamespace, lowerVersion] <;>
    simp

theorem typeNormalize_mlflow (p : PackageURL) :
    typeNormalize (lc "mlflow") p =
      if mlflowDatabricks p.qualifiers then lowerName p else p := by
  simp only [typeNormalize]
  rw [if_neg (by decide), if_neg (by decide), if_neg (by decide),
    if_neg (by decide), if_neg (by decide), if_neg (by decide),
    if_neg (by decide), if_neg (by decide), if_neg (by decide),
    if_neg (by decide)]
  simp

/-! ## Claim C10 -/

/-- C10 (confirmed): for a constructed mlflow purl, the stored name is
the lowercased generic-normalized name exactly when the qualifiers carry
a repository_url whose value contains the substring databricks; otherwise
the generic-normalized name (and its letter case) is kept as is. -/
theorem C10_mlflow_databricks (rt rns rn rv : Option LC)
    (rq : Option (List (LC × LC))) (rsp : Option LC) (p : PackageURL)
    (hok : construct rt rns rn rv rq rsp = .ok p)
    (hty : p.type = lc "mlflow") :
    ∃ r d, rn = some r ∧ decodePct r = some d ∧
      p.name = (if mlflowDatabricks p.qualifiers then jsToLower (jsTrim d)
        else jsTrim d) := by
  rcases construct_ok_inv hok with
    ⟨t, ns, n, v, q, sp, h1, h2, h3, h4, h5, h6, hbr⟩
  rcases constructName_ok h3 with ⟨r, d, hrn, hrne, hd, hnm, htr⟩
  have hn : n = jsTrim d := by simpa using hnm
  subst hn
  rcases hbr with ⟨hk, hp, hv'⟩ | ⟨hk, hp⟩
  · have ht : t = lc "mlflow" := by
      rw [hp, typeNormalize_type] at hty
      exact hty
    subst ht
    refine ⟨r, d, hrn, hd, ?_⟩
    rw [hp, typeNormalize_qualifiers, typeNormalize_mlflow]
    cases hdb : mlflowDatabricks
        (PackageURL.mk (lc "mlflow") ns (jsTrim d) v q sp).qualifiers <;>
      simp [hdb, lowerName]
  · exfalso
    have ht : t = lc "mlflow" := by rw [hp] at hty; exact hty
    subst ht
    rw [show typeKnown (lc "mlflow") = true from by decide] at hk
    cases hk

/-- C10 witness: a databricks-backed mlflow purl gets a lowercased name. -/
theorem C10_mlflow_databricks_witness :
    ∃ r d, some (lc "MyModel") = some r ∧ decodePct r = some d ∧
      (PackageURL.mk (lc "mlflow") none (lc "mymodel") none
        (some [(lc "repository_url", lc "https://databricks.example")])
        none).name =
      (if mlflowDatabricks (some [(lc "repository_url",
          lc "https://databricks.example")]) then jsToLower (jsTrim d)
        else jsTrim d) := by
  have h := C10_mlflow_databricks (some (lc "mlflow")) none
    (some (lc "MyModel")) none
    (some [(lc "repository_url", lc "https://databricks.example")]) none
    ⟨lc "mlflow", none, lc "mymodel", none,
      some [(lc "repository_url", lc "https://databricks.example")], none⟩
    (by decide) (by decide)
  exact h

/-! ## Character and string lemmas -/

theorem char_toNat_ofNat {n : Nat} (h : n < 0xD800) :
    (Char.ofNat n).toNat = n := by
  have hv : n.isValidChar := Or.inl h
  simp [Char.ofNat, hv, Char.toNat, Char.ofNatAux, UInt32.toNat,
    BitVec.toNat_ofNatLt]

theorem lowerChar_upper {c : Char} (h : 0x41 ≤ c.toNat ∧ c.toNat ≤ 0x5A) :
    lowerChar c = Char.ofNat (c.toNat + 0x20) := by
  simp only [lowerChar]
  rw [if_pos h]

theorem lowerChar_other {c : Char} (h : ¬(0x41 ≤ c.toNat ∧ c.toNat ≤ 0x5A)) :
    lowerChar c = c := by
  simp only [lowerChar]
  rw [if_neg h]

theorem lowerChar_idem (c : Char) : lowerChar (lowerChar c) = lowerChar c := by
  by_cases h : 0x41 ≤ c.toNat ∧ c.toNat ≤ 0x5A
  · have ht : (Char.ofNat (c.toNat + 0x20)).toNat = c.toNat + 0x20 :=
      char_toNat_ofNat (by omega)
    rw [lowerChar_upper h, lowerChar_other (by rw [ht]; omega)]
  · rw [lowerChar_other h, lowerChar_other h]

theorem jsToLower_idem (s : LC) : jsToLower (jsToLower s) = jsToLower s := by
  simp only [jsToLower, List.map_map]
  apply List.map_congr_left
  intro c _
  exact lowerChar_idem c

theorem isWsChar_false_of_range {c : Char} (h1 : 0x21 ≤ c.toNat)
    (h2 : c.toNat ≤ 0x7E) : isWsChar c = false := by
  simp only [isWsChar, Bool.or_eq_false_iff, decide_eq_false_iff_not]
  omega

theorem lowerChar_ws (c : Char) : isWsChar (lowerChar c) = isWsChar c := by
  by_cases h : 0x41 ≤ c.toNat ∧ c.toNat ≤ 0x5A
  · have ht : (Char.ofNat (c.toNat + 0x20)).toNat = c.toNat + 0x20 :=
      char_toNat_ofNat (by omega)
    rw [lowerChar_upper h,
      isWsChar_false_of_range (c := Char.ofNat (c.toNat + 0x20))
        (by rw [ht]; omega) (by rw [ht]; omega),
      isWsChar_false_of_range (by omega) (by omega)]
  · rw [lowerChar_other h]

theorem dropWhile_map_comm (f : Char → Char) (p : Char → Bool)
    (h : ∀ c, p (f c) = p c) (s : LC) :
    (s.map f).dropWhile p = (s.dropWhile p).map f := by
  induction s with
  | nil => rfl
  | cons a t ih =>
    simp only [List.map_cons, List.dropWhile_cons, h a]
    split <;> simp [ih]

theorem jsTrim_toLower_comm (s : LC) :
    jsTrim (jsToLower s) = jsToLower (jsTrim s) := by
  simp only [jsTrim, jsToLower]
  rw [dropWhile_map_comm lowerChar isWsChar lowerChar_ws s, ← List.map_reverse,
    dropWhile_map_comm lowerChar isWsChar lowerChar_ws, ← List.map_reverse]

theorem dropWhile_dropWhile (p : Char → Bool) (l : LC) :
    (l.dropWhile p).dropWhile p = l.dropWhile p := by
  induction l with
  | nil => rfl
  | cons a t ih =>
    rw [List.dropWhile_cons]
    split
    · exact ih
    · rename_i h
      rw [List.dropWhile_cons, if_neg h]

theorem trimEnd_prefix (p : Char → Bool) (y : LC) :
    (y.reverse.dropWhile p).reverse ++ (y.reverse.takeWhile p).reverse = y := by
  rw [← List.reverse_append, List.takeWhile_append_dropWhile, List.reverse_reverse]

theorem length_dropWhile_le (p : Char → Bool) (l : LC) :
    (l.dropWhile p).length ≤ l.length := by
  induction l with
  | nil => simp
  | cons a t ih =>
    rw [List.dropWhile_cons]
    split
    · exact Nat.le_succ_of_le ih
    · simp

theorem dropWhile_trimEnd_fix (p : Char → Bool) (y : LC)
    (hfix : y.dropWhile p = y) :
    ((y.reverse.dropWhile p).reverse).dropWhile p =
      (y.reverse.dropWhile p).reverse := by
  have hz := trimEnd_prefix p y
  cases ht : (y.reverse.dropWhile p).reverse with
  | nil => rfl
  | cons a u =>
    rw [List.dropWhile_cons]
    rw [ht] at hz
    have hy : y = a :: (u ++ (y.reverse.takeWhile p).reverse) := by
      conv_lhs => rw [← hz]
      rw [List.cons_append]
    have hpa : ¬ p a = true := by
      intro hpa
      have h2 : List.dropWhile p (u ++ (y.reverse.takeWhile p).reverse) = y := by
        conv_lhs at hfix => rw [hy, List.dropWhile_cons, if_pos hpa]
        exact hfix
      have hlen := congrArg List.length h2
      have hle := length_dropWhile_le p (u ++ (y.reverse.takeWhile p).reverse)
      have hylen := congrArg List.length hy
      simp only [List.length_cons] at hylen
      omega
    rw [if_neg hpa]

theorem jsTrim_idem (s : LC) : jsTrim (jsTrim s) = jsTrim s := by
  simp only [jsTrim]
  rw [dropWhile_trimEnd_fix isWsChar (s.dropWhile isWsChar)
    (dropWhile_dropWhile isWsChar s), List.reverse_reverse,
    dropWhile_dropWhile]

/-! ## UTF-16 order: injectivity and order instances for the sort -/

theorem utf16Units_bmp {c : Char} (h : c.toNat < 0x10000) :
    utf16Units c = [c.toNat] := by simp [utf16Units, h]

theorem utf16Units_supp {c : Char} (h : ¬ c.toNat < 0x10000) :
    utf16Units c = [0xD800 + (c.toNat - 0x10000) / 0x400,
      0xDC00 + (c.toNat - 0x10000) % 0x400] := by simp [utf16Units, h]

theorem utf16Units_ne_nil (c : Char) : utf16Units c ≠ [] := by
  by_cases h : c.toNat < 0x10000
  · rw [utf16Units_bmp h]; simp
  · rw [utf16Units_supp h]; simp

theorem utf16_head_eq {a b : Char} {s t : LC}
    (h : utf16Units a ++ utf16Str s = utf16Units b ++ utf16Str t) :
    a = b ∧ utf16Str s = utf16Str t := by
  by_cases ha : a.toNat < 0x10000 <;> by_cases hb : b.toNat < 0x10000
  · rw [utf16Units_bmp ha, utf16Units_bmp hb] at h
    simp only [List.cons_append, List.nil_append, List.cons.injEq] at h
    exact ⟨char_toNat_inj h.1, h.2⟩
  · exfalso
    rw [utf16Units_bmp ha, utf16Units_supp hb] at h
    simp only [List.cons_append, List.nil_append, List.cons.injEq] at h
    have hq : (b.toNat - 0x10000) / 0x400 < 0x400 := by
      rcases char_valid b with h1 | ⟨h1, h2⟩ <;> omega
    rcases char_valid a with h1 | ⟨h1, h2⟩ <;> omega
  · exfalso
    rw [utf16Units_supp ha, utf16Units_bmp hb] at h
    simp only [List.cons_append, List.nil_append, List.cons.injEq] at h
    have hq : (a.toNat - 0x10000) / 0x400 < 0x400 := by
      rcases char_valid a with h1 | ⟨h1, h2⟩ <;> omega
    rcases char_valid b with h1 | ⟨h1, h2⟩ <;> omega
  · rw [utf16Units_supp ha, utf16Units_supp hb] at h
    simp only [List.cons_append, List.nil_append, List.cons.injEq] at h
    refine ⟨char_toNat_inj ?_, h.2.2⟩
    have h1 := h.1
    have h2 := h.2.1
    omega

theorem utf16Str_inj : ∀ {s t : LC}, utf16Str s = utf16Str t → s = t := by
  intro s
  induction s with
  | nil =>
    intro t h
    cases t with
    | nil => rfl
    | cons b u =>
      exfalso
      simp only [utf16Str, List.flatMap_nil, List.flatMap_cons] at h
      exact utf16Units_ne_nil b (List.append_eq_nil.mp h.symm).1
  | cons a s ih =>
    intro t h
    cases t with
    | nil =>
      exfalso
      simp only [utf16Str, List.flatMap_nil, List.flatMap_cons] at h
      exact utf16Units_ne_nil a (List.append_eq_nil.mp h).1
    | cons b u =>
      simp only [utf16Str, List.flatMap_cons] at h
      obtain ⟨hab, ht⟩ := utf16_head_eq h
      rw [hab, ih ht]

instance : IsTotal LC jsStrLe := ⟨fun a b => le_total (utf16Str a) (utf16Str b)⟩

instance : IsTrans LC jsStrLe := ⟨fun _ _ _ h1 h2 => le_trans h1 h2⟩

instance : IsAntisymm LC jsStrLe :=
  ⟨fun _ _ h1 h2 => utf16Str_inj (le_antisymm h1 h2)⟩

theorem jsSortKeys_sorted (ks : List LC) : (jsSortKeys ks).Sorted jsStrLe :=
  List.sorted_insertionSort jsStrLe ks

theorem jsSortKeys_perm (ks : List LC) : List.Perm (jsSortKeys ks) ks :=
  List.perm_insertionSort jsStrLe ks

theorem jsSortKeys_congr {k1 k2 : List LC} (h : List.Perm k1 k2) :
    jsSortKeys k1 = jsSortKeys k2 :=
  List.eq_of_perm_of_sorted
    (((jsSortKeys_perm k1).trans h).trans (jsSortKeys_perm k2).symm)
    (jsSortKeys_sorted k1) (jsSortKeys_sorted k2)

/-! ## Qualifier maps: lookup under permutation, query emission -/

theorem jsGet_eq_none (m : List (LC × LC)) (k : LC) :
    jsGet m k = none ↔ k ∉ m.map (·.1) := by
  induction m with
  | nil => simp [jsGet]
  | cons hd t ih =>
    rcases hd with ⟨k1, v1⟩
    by_cases he : k1 = k
    · subst he
      simp [jsGet]
    · simp only [jsGet, List.map_cons, List.mem_cons]
      rw [if_neg he, ih]
      constructor
      · intro h hk
        rcases hk with hk | hk
        · exact he hk.symm
        · exact h hk
      · intro h hk
        exact h (Or.inr hk)

theorem jsGet_some_mem {m : List (LC × LC)} {k v : LC}
    (h : jsGet m k = some v) : (k, v) ∈ m := by
  induction m with
  | nil => simp [jsGet] at h
  | cons hd t ih =>
    rcases hd with ⟨k1, v1⟩
    simp only [jsGet] at h
    split at h
    · rename_i he; subst he
      simp only [Option.some.injEq] at h
      subst h
      exact List.mem_cons_self _ _
    · exact List.mem_cons_of_mem _ (ih h)

theorem mem_jsGet {m : List (LC × LC)} (hnd : (m.map (·.1)).Nodup)
    {k v : LC} (h : (k, v) ∈ m) : jsGet m k = some v := by
  induction m with
  | nil => simp at h
  | cons hd t ih =>
    rcases hd with ⟨k1, v1⟩
    simp only [List.map_cons, List.nodup_cons] at hnd
    rcases List.mem_cons.mp h with h1 | h1
    · rw [Prod.mk.injEq] at h1
      simp [jsGet, h1.1, h1.2]
    · have hne : k1 ≠ k := fun he =>
        hnd.1 (List.mem_map.mpr ⟨(k, v), h1, he.symm⟩)
      simp only [jsGet]
      rw [if_neg hne]
      exact ih hnd.2 h1

theorem jsGet_perm {m1 m2 : List (LC × LC)} (hp : List.Perm m1 m2)
    (hnd : (m1.map (·.1)).Nodup) (k : LC) : jsGet m1 k = jsGet m2 k := by
  have hnd2 : (m2.map (·.1)).Nodup := ((hp.map (·.1)).nodup_iff).mp hnd
  cases h1 : jsGet m1 k with
  | none =>
    symm
    rw [jsGet_eq_none] at h1 ⊢
    intro hk
    exact h1 (((hp.map (·.1)).mem_iff).mpr hk)
  | some v =>
    exact (mem_jsGet hnd2 (hp.mem_iff.mp (jsGet_some_mem h1))).symm

theorem encodeQualifiers_perm {m1 m2 : List (LC × LC)} (hp : List.Perm m1 m2)
    (hnd : (m1.map (·.1)).Nodup) : encodeQualifiers m1 = encodeQualifiers m2 := by
  simp only [encodeQualifiers]
  rw [jsSortKeys_congr (hp.map (·.1))]
  congr 1
  apply List.map_congr_left
  intro k _
  rw [jsGet_perm hp hnd k]

theorem mlflowDatabricks_perm {m1 m2 : List (LC × LC)} (hp : List.Perm m1 m2)
    (hnd : (m1.map (·.1)).Nodup) :
    mlflowDatabricks (some m1) = mlflowDatabricks (some m2) := by
  simp only [mlflowDatabricks]
  rw [jsGet_perm hp hnd]

/-! ## normalizeQualifiers under distinct lowercased keys -/

theorem foldl_nqStep_filterMap :
    ∀ (e acc : List (LC × LC)),
      ((e.map fun kv => jsToLower kv.1).Nodup) →
      (∀ kv ∈ e, jsTrim kv.2 ≠ [] → jsToLower kv.1 ∉ acc.map (·.1)) →
      e.foldl nqStep acc = acc ++ e.filterMap fun kv =>
        if jsTrim kv.2 = [] then none
        else some (jsToLower kv.1, jsTrim kv.2) := by
  intro e
  induction e with
  | nil => intro acc _ _; simp
  | cons hd t ih =>
    intro acc hnd hdisj
    simp only [List.map_cons, List.nodup_cons] at hnd
    simp only [List.foldl_cons, List.filterMap_cons]
    by_cases hkeep : jsTrim hd.2 = []
    · simp only [nqStep, if_pos hkeep]
      exact ih acc hnd.2 fun kv hkv => hdisj kv (List.mem_cons_of_mem _ hkv)
    · simp only [nqStep, if_neg hkeep]
      rw [qSet_append_of_notMem _ _ _
        (hdisj hd (List.mem_cons_self _ _) hkeep)]
      rw [ih (acc ++ [(jsToLower hd.1, jsTrim hd.2)]) hnd.2 ?_]
      · simp
      · intro kv hkv hne
        simp only [List.map_append, List.mem_append]
        rintro (h | h)
        · exact hdisj kv (List.mem_cons_of_mem _ hkv) hne h
        · simp only [List.map_cons, List.map_nil, List.mem_singleton] at h
          exact hnd.1 (h ▸ List.mem_map.mpr ⟨kv, hkv, rfl⟩)

theorem nq_keys_sublist (e : List (LC × LC)) :
    List.Sublist ((e.filterMap fun kv => if jsTrim kv.2 = [] then none
      else some (jsToLower kv.1, jsTrim kv.2)).map (·.1))
      (e.map fun kv => jsToLower kv.1) := by
  induction e with
  | nil => simp
  | cons hd t ih =>
    simp only [List.filterMap_cons, List.map_cons]
    by_cases hc : jsTrim hd.2 = []
    · rw [if_pos hc]
      exact ih.cons _
    · rw [if_neg hc]
      simp only [List.map_cons]
      exact ih.cons₂ _

theorem normalizeQualifiers_nodub (e : List (LC × LC))
    (hnd : (e.map fun kv => jsToLower kv.1).Nodup) :
    ∀ m, normalizeQualifiers e = some m →
      m = (e.filterMap fun kv => if jsTrim kv.2 = [] then none
        else some (jsToLower kv.1, jsTrim kv.2)) ∧
      (m.map (·.1)).Nodup := by
  intro m hm
  rw [normalizeQualifiers_eq] at hm
  split at hm
  · simp at hm
  · simp only [Option.some.injEq] at hm
    subst hm
    constructor
    · rw [foldl_nqStep_filterMap e [] hnd (by simp)]
      simp
    · rw [foldl_nqStep_filterMap e [] hnd (by simp)]
      simp only [List.nil_append]
      exact List.Nodup.sublist (nq_keys_sublist e) hnd

theorem normalizeQualifiers_perm {e1 e2 : List (LC × LC)}
    (hp : List.Perm e2 e1)
    (hnd : (e1.map fun kv => jsToLower kv.1).Nodup) :
    (normalizeQualifiers e2 = none ∧ normalizeQualifiers e1 = none) ∨
    ∃ m2 m1, normalizeQualifiers e2 = some m2 ∧
      normalizeQualifiers e1 = some m1 ∧ List.Perm m2 m1 ∧
      (m1.map (·.1)).Nodup := by
  have hnd2 : (e2.map fun kv => jsToLower kv.1).Nodup :=
    ((hp.map fun kv => jsToLower kv.1).nodup_iff).mpr hnd
  by_cases hall : ∀ kv ∈ e1, jsTrim kv.2 = []
  · left
    constructor
    · rw [normalizeQualifiers_eq, if_pos fun kv hkv => hall kv (hp.mem_iff.mp hkv)]
    · rw [normalizeQualifiers_eq, if_pos hall]
  · right
    have hall2 : ¬ ∀ kv ∈ e2, jsTrim kv.2 = [] := fun h =>
      hall fun kv hkv => h kv (hp.mem_iff.mpr hkv)
    obtain ⟨m2, hm2⟩ : ∃ m2, normalizeQualifiers e2 = some m2 := by
      rw [normalizeQualifiers_eq, if_neg hall2]
      exact ⟨_, rfl⟩
    obtain ⟨m1, hm1⟩ : ∃ m1, normalizeQualifiers e1 = some m1 := by
      rw [normalizeQualifiers_eq, if_neg hall]
      exact ⟨_, rfl⟩
    obtain ⟨he2, _⟩ := normalizeQualifiers_nodub e2 hnd2 m2 hm2
    obtain ⟨he1, hnd1⟩ := normalizeQualifiers_nodub e1 hnd m1 hm1
    refine ⟨m2, m1, hm2, hm1, ?_, hnd1⟩
    rw [he1, he2]
    exact hp.filterMap _

/-! ## typeNormalize and toStr congruence in the qualifiers argument -/

theorem typeNormalize_name_congr (t : LC) (p1 p2 : PackageURL)
    (hn : p1.name = p2.name) (hns : p1.nspace = p2.nspace)
    (hv : p1.version = p2.version)
    (hdb : mlflowDatabricks p1.qualifiers = mlflowDatabricks p2.qualifiers) :
    (typeNormalize t p1).name = (typeNormalize t p2).name := by
  rcases p1 with ⟨t1, ns1, n1, v1, q1, s1⟩
  rcases p2 with ⟨t2, ns2, n2, v2, q2, s2⟩
  simp only at hn hns hv hdb
  subst hn
  subst hns
  subst hv
  cases ns1 <;> cases v1 <;>
    simp only [typeNormalize, apply_ite PackageURL.name, lowerName,
      lowerNamespace, lowerVersion] <;>
    simp [hdb]

theorem typeNormalize_nspace_congr (t : LC) (p1 p2 : PackageURL)
    (hn : p1.name = p2.name) (hns : p1.nspace = p2.nspace)
    (hv : p1.version = p2.version)
    (hdb : mlflowDatabricks p1.qualifiers = mlflowDatabricks p2.qualifiers) :
    (typeNormalize t p1).nspace = (typeNormalize t p2).nspace := by
  rcases p1 with ⟨t1, ns1, n1, v1, q1, s1⟩
  rcases p2 with ⟨t2, ns2, n2, v2, q2, s2⟩
  simp only at hn hns hv hdb
  subst hn
  subst hns
  subst hv
  cases ns1 <;> cases v1 <;>
    simp only [typeNormalize, apply_ite PackageURL.nspace, lowerName,
      lowerNamespace, lowerVersion] <;>
    simp [hdb]

theorem typeNormalize_version_congr (t : LC) (p1 p2 : PackageURL)
    (hn : p1.name = p2.name) (hns : p1.nspace = p2.nspace)
    (hv : p1.version = p2.version)
    (hdb : mlflowDatabricks p1.qualifiers = mlflowDatabricks p2.qualifiers) :
    (typeNormalize t p1).version = (typeNormalize t p2).version := by
  rcases p1 with ⟨t1, ns1, n1, v1, q1, s1⟩
  rcases p2 with ⟨t2, ns2, n2, v2, q2, s2⟩
  simp only at hn hns hv hdb
  subst hn
  subst hns
  subst hv
  cases ns1 <;> cases v1 <;>
    simp only [typeNormalize, apply_ite PackageURL.version, lowerName,
      lowerNamespace, lowerVersion] <;>
    simp [hdb]

theorem toStr_congr (p1 p2 : PackageURL)
    (ht : p1.type = p2.type) (hns : p1.nspace = p2.nspace)
    (hn : p1.name = p2.name) (hv : p1.version = p2.version)
    (hsp : p1.subpath = p2.subpath)
    (hq : match p1.qualifiers, p2.qualifiers with
      | none, none => True
      | some m1, some m2 => encodeQualifiers m1 = encodeQualifiers m2
      | _, _ => False) :
    toStr p1 = toStr p2 := by
  rcases p1 with ⟨t1, ns1, n1, v1, q1, s1⟩
  rcases p2 with ⟨t2, ns2, n2, v2, q2, s2⟩
  simp only at ht hns hn hv hsp hq
  subst ht
  subst hns
  subst hn
  subst hv
  subst hsp
  cases q1 with
  | none =>
    cases q2 with
    | none => rfl
    | some m2 => exact hq.elim
  | some m1 =>
    cases q2 with
    | none => exact hq.elim
    | some m2 =>
      simp only at hq
      simp only [toStr, hq]

theorem ex_pre_suf (a b tail : LC) :
    ∃ pre suf, (a ++ '?' :: b) ++ tail = pre ++ '?' :: (b ++ suf) :=
  ⟨a, tail, by rw [List.append_assoc, List.cons_append]⟩

theorem ex_pre_suf_nil (a b : LC) :
    ∃ pre suf, a ++ '?' :: b = pre ++ '?' :: (b ++ suf) :=
  ⟨a, [], by rw [List.append_nil]⟩

theorem toStr_query_part (p : PackageURL) (m : List (LC × LC))
    (hm : p.qualifiers = some m) :
    ∃ pre suf, toStr p = pre ++ '?' :: (encodeQualifiers m ++ suf) := by
  rcases p with ⟨t, ns, n, v, q, sp⟩
  simp only at hm
  subst hm
  cases sp with
  | none =>
    simp only [toStr]
    exact ex_pre_suf_nil _ _
  | some s =>
    simp only [toStr]
    by_cases hs : s.length ≠ 0
    · rw [if_pos hs]
      exact ex_pre_suf _ _ _
    · rw [if_neg hs]
      exact ex_pre_suf_nil _ _

theorem construct_toStr_perm
    {rt rns rn rv rsp : Option LC} {e1 e2 : List (LC × LC)}
    {p1 p2 : PackageURL}
    (hp : List.Perm e2 e1)
    (hnd : (e1.map fun kv => jsToLower kv.1).Nodup)
    (h1 : construct rt rns rn rv (some e1) rsp = .ok p1)
    (h2 : construct rt rns rn rv (some e2) rsp = .ok p2) :
    toStr p2 = toStr p1 := by
  obtain ⟨t, ns, n, v, q, sp, hT, hNS, hN, hV, hQ, hSP, hcase⟩ :=
    construct_ok_inv h1
  obtain ⟨t', ns', n', v', q', sp', hT', hNS', hN', hV', hQ', hSP', hcase'⟩ :=
    construct_ok_inv h2
  rw [hT] at hT'
  rw [hNS] at hNS'
  rw [hN] at hN'
  rw [hV] at hV'
  rw [hSP] at hSP'
  simp only [Except.ok.injEq, Option.some.injEq] at hT' hNS' hN' hV' hSP'
  subst hT'
  subst hNS'
  subst hN'
  subst hV'
  subst hSP'
  obtain ⟨hq1, _⟩ := constructQualifiers_ok hQ
  obtain ⟨hq2, _⟩ := constructQualifiers_ok hQ'
  rcases hq1 with ⟨he, _⟩ | ⟨e, hee, hqe⟩
  · exact absurd he (by simp)
  rcases hq2 with ⟨he, _⟩ | ⟨e', hee', hqe'⟩
  · exact absurd he (by simp)
  simp only [Option.some.injEq] at hee hee'
  subst hee
  subst hee'
  rcases normalizeQualifiers_perm hp hnd with ⟨hn2, hn1⟩ |
    ⟨m2, m1, hm2, hm1, hperm, hnd1⟩
  · have hq0 : q = none := hqe.trans hn1
    have hq0' : q' = none := hqe'.trans hn2
    rcases hcase with ⟨hk, hp1, _⟩ | ⟨hk, hp1⟩ <;>
      rcases hcase' with ⟨hk', hp2, _⟩ | ⟨hk', hp2⟩
    · rw [hp1, hp2, hq0, hq0']
    · simp [hk] at hk'
    · simp [hk] at hk'
    · rw [hp1, hp2, hq0, hq0']
  · have hq0 : q = some m1 := hqe.trans hm1
    have hq0' : q' = some m2 := hqe'.trans hm2
    have hnd2 : (m2.map (·.1)).Nodup := ((hperm.map (·.1)).nodup_iff).mpr hnd1
    have hdb : mlflowDatabricks q' = mlflowDatabricks q := by
      rw [hq0, hq0']
      exact mlflowDatabricks_perm hperm hnd2
    have henc : encodeQualifiers m2 = encodeQualifiers m1 :=
      encodeQualifiers_perm hperm hnd2
    rcases hcase with ⟨hk, hp1, _⟩ | ⟨hk, hp1⟩ <;>
      rcases hcase' with ⟨hk', hp2, _⟩ | ⟨hk', hp2⟩
    · rw [hp1, hp2]
      refine toStr_congr _ _ ?_ ?_ ?_ ?_ ?_ ?_
      · rw [typeNormalize_type, typeNormalize_type]
      · exact typeNormalize_nspace_congr t _ _ rfl rfl rfl hdb
      · exact typeNormalize_name_congr t _ _ rfl rfl rfl hdb
      · exact typeNormalize_version_congr t _ _ rfl rfl rfl hdb
      · rw [typeNormalize_subpath, typeNormalize_subpath]
      · rw [typeNormalize_qualifiers, typeNormalize_qualifiers]
        dsimp only
        rw [hq0, hq0']
        exact henc
    · simp [hk] at hk'
    · simp [hk] at hk'
    · rw [hp1, hp2]
      refine toStr_congr _ _ rfl rfl rfl rfl rfl ?_
      dsimp only
      rw [hq0, hq0']
      exact henc

/-- C4 counterexample: toString is NOT independent of the iteration order
of the input qualifiers object when two keys coincide after lowercasing:
{A:'1', a:'2'} and {a:'2', A:'1'} hold the same entries, yet the purls
constructed from the two orders serialize differently, because the
normalizer folds both keys onto the single lowercased key 'a' and the
last entry in iteration order wins. -/
theorem C4_counterexample :
    ∃ p1 p2 : PackageURL,
      construct (some (lc "t")) none (some (lc "a")) none
        (some [(lc "A", lc "1"), (lc "a", lc "2")]) none = .ok p1 ∧
      construct (some (lc "t")) none (some (lc "a")) none
        (some [(lc "a", lc "2"), (lc "A", lc "1")]) none = .ok p2 ∧
      List.Perm [(lc "A", lc "1"), (lc "a", lc "2")]
        [(lc "a", lc "2"), (lc "A", lc "1")] ∧
      toStr p1 ≠ toStr p2 := by
  refine ⟨⟨lc "t", none, lc "a", none, some [(lc "a", lc "2")], none⟩,
    ⟨lc "t", none, lc "a", none, some [(lc "a", lc "1")], none⟩,
    ?_, ?_, ?_, ?_⟩ <;> decide

/-- C4: for every purl constructed with a non-empty qualifiers mapping,
toString emits the qualifier portion as k=v&k=v over the stored keys
sorted by the default Array.prototype.sort order (lexicographic on UTF-16
code units), and the output does not depend on the iteration order of the
input mapping provided no two input keys coincide after lowercasing. -/
theorem C4_qualifier_sorted_emission
    (rt rns rn rv rsp : Option LC) (e1 : List (LC × LC)) (p1 : PackageURL)
    (h1 : construct rt rns rn rv (some e1) rsp = .ok p1)
    (m : List (LC × LC)) (hm : p1.qualifiers = some m) (_hne : m ≠ []) :
    (jsSortKeys (m.map (·.1))).Sorted jsStrLe ∧
    List.Perm (jsSortKeys (m.map (·.1))) (m.map (·.1)) ∧
    encodeQualifiers m = List.intercalate ['&']
      ((jsSortKeys (m.map (·.1))).map fun k =>
        k ++ '=' :: encodeQualifierValue ((jsGet m k).getD [])) ∧
    (∃ pre suf, toStr p1 = pre ++ '?' :: (encodeQualifiers m ++ suf)) ∧
    ∀ (e2 : List (LC × LC)) (p2 : PackageURL), List.Perm e2 e1 →
      ((e1.map fun kv => jsToLower kv.1).Nodup) →
      construct rt rns rn rv (some e2) rsp = .ok p2 →
      toStr p2 = toStr p1 := by
  refine ⟨jsSortKeys_sorted _, jsSortKeys_perm _, rfl,
    toStr_query_part p1 m hm, ?_⟩
  intro e2 p2 hp hnd h2
  exact construct_toStr_perm hp hnd h1 h2

/-- Witness for C4 at a concrete input: pkg:t/a with qualifiers
{b:'1', a:'2'}. -/
theorem C4_qualifier_sorted_emission_witness :
    construct (some (lc "t")) none (some (lc "a")) none
        (some [(lc "b", lc "1"), (lc "a", lc "2")]) none =
      .ok ⟨lc "t", none, lc "a", none,
        some [(lc "b", lc "1"), (lc "a", lc "2")], none⟩ ∧
    ([(lc "b", lc "1"), (lc "a", lc "2")] : List (LC × LC)) ≠ [] ∧
    ((jsSortKeys ([(lc "b", lc "1"), (lc "a", lc "2")].map (·.1))).Sorted
        jsStrLe ∧
      List.Perm
        (jsSortKeys ([(lc "b", lc "1"), (lc "a", lc "2")].map (·.1)))
        ([(lc "b", lc "1"), (lc "a", lc "2")].map (·.1)) ∧
      encodeQualifiers [(lc "b", lc "1"), (lc "a", lc "2")] =
        List.intercalate ['&']
          ((jsSortKeys ([(lc "b", lc "1"), (lc "a", lc "2")].map (·.1))).map
            fun k => k ++ '=' :: encodeQualifierValue
              ((jsGet [(lc "b", lc "1"), (lc "a", lc "2")] k).getD [])) ∧
      (∃ pre suf,
        toStr ⟨lc "t", none, lc "a", none,
          some [(lc "b", lc "1"), (lc "a", lc "2")], none⟩ =
          pre ++ '?' :: (encodeQualifiers
            [(lc "b", lc "1"), (lc "a", lc "2")] ++ suf)) ∧
      ∀ (e2 : List (LC × LC)) (p2 : PackageURL),
        List.Perm e2 [(lc "b", lc "1"), (lc "a", lc "2")] →
        (([(lc "b", lc "1"), (lc "a", lc "2")].map fun kv =>
          jsToLower kv.1).Nodup) →
        construct (some (lc "t")) none (some (lc "a")) none (some e2) none =
          .ok p2 →
        toStr p2 = toStr ⟨lc "t", none, lc "a", none,
          some [(lc "b", lc "1"), (lc "a", lc "2")], none⟩) :=
  ⟨by decide, by decide,
    C4_qualifier_sorted_emission (some (lc "t")) none (some (lc "a")) none
      none [(lc "b", lc "1"), (lc "a", lc "2")]
      ⟨lc "t", none, lc "a", none,
        some [(lc "b", lc "1"), (lc "a", lc "2")], none⟩
      (by decide) [(lc "b", lc "1"), (lc "a", lc "2")] rfl (by decide)⟩

/-! ## lastIdx? characterization -/

theorem lastIdx?_eq_none_iff (c : Char) (s : LC) :
    lastIdx? c s = none ↔ c ∉ s := by
  induction s with
  | nil => simp [lastIdx?]
  | cons x t ih =>
    simp only [lastIdx?]
    cases h : lastIdx? c t with
    | some i =>
      have hct : c ∈ t := by
        by_contra hct
        rw [ih.mpr hct] at h
        exact Option.noConfusion h
      simp [hct, List.mem_cons]
    | none =>
      have hct : c ∉ t := ih.mp h
      by_cases hx : x = c
      · simp [hx, List.mem_cons]
      · rw [if_neg hx]
        simp only [List.mem_cons]
        constructor
        · intro _ hmem
          rcases hmem with he | he
          · exact hx he.symm
          · exact hct he
        · intro _
          trivial

theorem lastIdx?_append_cons (c : Char) (a b : LC) (hb : c ∉ b) :
    lastIdx? c (a ++ c :: b) = some a.length := by
  induction a with
  | nil =>
    simp only [List.nil_append, lastIdx?]
    rw [(lastIdx?_eq_none_iff c b).mpr hb]
    simp
  | cons x a ih =>
    simp only [List.cons_append, lastIdx?, List.append_eq, ih,
      List.length_cons]

theorem drop_append_cons (a b : LC) (c : Char) :
    (a ++ c :: b).drop (a.length + 1) = b := by
  have h1 : a ++ c :: b = (a ++ [c]) ++ b := by simp
  have hl : (a ++ [c]).length = a.length + 1 := by simp
  rw [h1, ← hl, List.drop_left]

theorem getD_append_last (a b : LC) (c d : Char) (ha : a ≠ []) :
    (a ++ c :: b).getD (a.length - 1) d = (a.getLast?).getD d := by
  have hlt : a.length - 1 < a.length := by
    cases a with
    | nil => exact absurd rfl ha
    | cons x t => simp
  rw [List.getD_append _ _ _ _ hlt, List.getD_eq_getElem?_getD,
    ← List.getLast?_eq_getElem?]

/-- C5: version extraction of parseString characterized declaratively:
writing the URL pathname as a ++ '@' :: b with '@' not in b (so this '@'
is the last one of the whole path, with no backtracking to any earlier
'@'), the version is b exactly when a does not end in '/', and is absent
when a ends in '/' or when the path has no '@' at all. -/
theorem C5_version_last_at (purlStr P : LC) (ci fsi : Nat)
    (r : RawComponents)
    (hnb : isBlank purlStr = false)
    (hc : firstIdx? ':' purlStr = some ci)
    (hP : P = (jsURLpkgTail (trimLeadingSlashes (purlStr.drop (ci + 1)))).pathname)
    (hfs : firstIdx? '/' P = some fsi) (hfs0 : fsi ≠ 0)
    (hok : parseString purlStr = .ok r) :
    (∀ a b, P = a ++ '@' :: b → '@' ∉ b →
      (a.getLast? = some '/' → r.rawVersion = none) ∧
      (a.getLast? ≠ some '/' → r.rawVersion = some b)) ∧
    ('@' ∉ P → r.rawVersion = none) := by
  obtain ⟨rT, rNS, rN, rV, rQ, rSP⟩ := r
  subst hP
  unfold parseString at hok
  rw [hnb] at hok
  rw [if_neg (by simp)] at hok
  rw [hc] at hok
  dsimp only at hok
  rw [hfs] at hok
  rw [if_neg (by simp [hfs0])] at hok
  simp only [Except.ok.injEq, RawComponents.mk.injEq] at hok
  obtain ⟨_, _, _, hV, _, _⟩ := hok
  rw [← hV]
  constructor
  · intro a b hab hb
    rw [hab, lastIdx?_append_cons '@' a b hb]
    dsimp only
    cases a with
    | nil =>
      refine ⟨fun h => by simp at h, fun _ => ?_⟩
      rw [if_neg (by simp)]
      simp
    | cons x a2 =>
      have hsome : ((x :: a2).getLast?).isSome := by
        rw [List.getLast?_isSome]
        simp
      obtain ⟨y, hy⟩ := Option.isSome_iff_exists.mp hsome
      rw [getD_append_last _ _ _ _ (by simp), hy]
      by_cases hys : y = '/'
      · subst hys
        rw [if_pos ⟨by simp, rfl⟩]
        exact ⟨fun _ => rfl, fun h => absurd rfl h⟩
      · rw [if_neg (by simp [hys])]
        refine ⟨fun h => ?_, fun _ => ?_⟩
        · exact absurd (Option.some.inj h) hys
        · dsimp only
          rw [drop_append_cons]
  · intro h
    rw [(lastIdx?_eq_none_iff '@' _).mpr h]

/-- Witness for C5 at the concrete input pkg:npm/a@1. -/
theorem C5_version_last_at_witness :
    isBlank (lc "pkg:npm/a@1") = false ∧
    firstIdx? ':' (lc "pkg:npm/a@1") = some 3 ∧
    lc "npm/a@1" =
      (jsURLpkgTail (trimLeadingSlashes ((lc "pkg:npm/a@1").drop (3 + 1)))).pathname ∧
    firstIdx? '/' (lc "npm/a@1") = some 3 ∧
    (3 : Nat) ≠ 0 ∧
    parseString (lc "pkg:npm/a@1") =
      .ok ⟨some (lc "npm"), none, some (lc "a"), some (lc "1"), none, none⟩ ∧
    ((∀ a b, lc "npm/a@1" = a ++ '@' :: b → '@' ∉ b →
      (a.getLast? = some '/' →
        (⟨some (lc "npm"), none, some (lc "a"), some (lc "1"), none,
          none⟩ : RawComponents).rawVersion = none) ∧
      (a.getLast? ≠ some '/' →
        (⟨some (lc "npm"), none, some (lc "a"), some (lc "1"), none,
          none⟩ : RawComponents).rawVersion = some b)) ∧
     ('@' ∉ lc "npm/a@1" →
        (⟨some (lc "npm"), none, some (lc "a"), some (lc "1"), none,
          none⟩ : RawComponents).rawVersion = none)) :=
  ⟨by decide, by decide, by decide, by decide, by decide, by decide,
    C5_version_last_at (lc "pkg:npm/a@1") (lc "npm/a@1") 3 3
      ⟨some (lc "npm"), none, some (lc "a"), some (lc "1"), none, none⟩
      (by decide) (by decide) (by decide) (by decide) (by decide) (by decide)⟩

/-! ## decodePct is the identity on percent-free strings -/

theorem decodePctGo_cons_ne (f : Nat) (c : Char) (t : LC) (hc : c ≠ '%') :
    decodePctGo (f + 1) (c :: t) = (c :: ·) <$> decodePctGo f t := by
  conv_lhs => unfold decodePctGo
  split
  · rename_i heq
    simp at heq
  · rename_i heq hno
    omega
  · rename_i fuel h1 h2 t2 heq1 heq
    injection heq with hch _
    exact absurd hch hc
  · rename_i n heq1 heq
    injection heq with hch _
    exact absurd hch hc
  · rename_i n hd heq1 heq
    injection heq with hch _
    exact absurd hch hc
  · rename_i fuel c2 t2 hno1 hno2 hno3 hfuel heq
    injection heq with hc2 ht2
    subst hc2
    subst ht2
    have hf2 : fuel = f := by omega
    subst hf2
    rfl

theorem decodePctGo_no_pct :
    ∀ (f : Nat) (s : LC), s.length ≤ f → '%' ∉ s →
      decodePctGo f s = some s := by
  intro f
  induction f with
  | zero =>
    intro s hf _
    cases s with
    | nil => rfl
    | cons a t => simp at hf
  | succ f ih =>
    intro s hf hp
    cases s with
    | nil => rfl
    | cons c t =>
      have hc : c ≠ '%' := fun he => hp (he ▸ List.mem_cons_self _ _)
      have ht : '%' ∉ t := fun hm => hp (List.mem_cons_of_mem _ hm)
      have hlen : t.length ≤ f := by
        simp only [List.length_cons] at hf
        omega
      rw [decodePctGo_cons_ne f c t hc, ih t hlen ht]
      rfl

theorem decodePct_no_pct {s : LC} (hp : '%' ∉ s) : decodePct s = some s :=
  decodePctGo_no_pct s.length s (le_refl _) hp

theorem decodeE_no_pct {s : LC} (hp : '%' ∉ s) : decodeE s = .ok s := by
  simp [decodeE, decodePct_no_pct hp]

/-! ## Canonical-form string lemmas for the stored components -/

theorem map_idem_of {f : Char → Char} (hf : ∀ c, f (f c) = f c) (s : LC) :
    (s.map f).map f = s.map f := by
  rw [List.map_map]
  exact List.map_congr_left fun c _ => hf c

theorem map_comm_of {f g : Char → Char} (h : ∀ c, f (g c) = g (f c)) (s : LC) :
    (s.map g).map f = (s.map f).map g := by
  rw [List.map_map, List.map_map]
  exact List.map_congr_left fun c _ => h c

theorem jsTrim_map_comm {f : Char → Char}
    (hws : ∀ c, isWsChar (f c) = isWsChar c) (s : LC) :
    jsTrim (s.map f) = (jsTrim s).map f := by
  simp only [jsTrim]
  rw [dropWhile_map_comm f isWsChar hws s, ← List.map_reverse,
    dropWhile_map_comm f isWsChar hws, ← List.map_reverse]

theorem dashToU_ws (c : Char) :
    isWsChar (if c = '-' then '_' else c) = isWsChar c := by
  by_cases h : c = '-'
  · subst h
    decide
  · rw [if_neg h]

theorem uToDash_ws (c : Char) :
    isWsChar (if c = '_' then '-' else c) = isWsChar c := by
  by_cases h : c = '_'
  · subst h
    decide
  · rw [if_neg h]

theorem dashToU_idem (c : Char) :
    (fun c => if c = '-' then '_' else c)
      ((fun c => if c = '-' then '_' else c) c) =
    (fun c => if c = '-' then '_' else c) c := by
  by_cases h : c = '-'
  · subst h
    decide
  · simp [h]

theorem uToDash_idem (c : Char) :
    (fun c => if c = '_' then '-' else c)
      ((fun c => if c = '_' then '-' else c) c) =
    (fun c => if c = '_' then '-' else c) c := by
  by_cases h : c = '_'
  · subst h
    decide
  · simp [h]

theorem lowerChar_dashToU (c : Char) :
    lowerChar (if c = '-' then '_' else c) =
      (if lowerChar c = '-' then '_' else lowerChar c) := by
  by_cases h : c = '-'
  · subst h
    decide
  · rw [if_neg h]
    by_cases h2 : lowerChar c = '-'
    · exfalso
      by_cases h3 : 0x41 ≤ c.toNat ∧ c.toNat ≤ 0x5A
      · have ht : (Char.ofNat (c.toNat + 0x20)).toNat = c.toNat + 0x20 :=
          char_toNat_ofNat (by omega)
        rw [lowerChar_upper h3] at h2
        have h2n := congrArg Char.toNat h2
        rw [ht] at h2n
        have h45 : ('-').toNat = 45 := rfl
        omega
      · rw [lowerChar_other h3] at h2
        exact h h2
    · rw [if_neg h2]

theorem lowerChar_uToDash (c : Char) :
    lowerChar (if c = '_' then '-' else c) =
      (if lowerChar c = '_' then '-' else lowerChar c) := by
  by_cases h : c = '_'
  · subst h
    decide
  · rw [if_neg h]
    by_cases h2 : lowerChar c = '_'
    · exfalso
      by_cases h3 : 0x41 ≤ c.toNat ∧ c.toNat ≤ 0x5A
      · have ht : (Char.ofNat (c.toNat + 0x20)).toNat = c.toNat + 0x20 :=
          char_toNat_ofNat (by omega)
        rw [lowerChar_upper h3] at h2
        have h2n := congrArg Char.toNat h2
        rw [ht] at h2n
        have h95 : ('_').toNat = 95 := rfl
        omega
      · rw [lowerChar_other h3] at h2
        exact h h2
    · rw [if_neg h2]

theorem replaceDashes_toLower_comm (s : LC) :
    replaceDashesWithUnderscores (jsToLower s) =
      jsToLower (replaceDashesWithUnderscores s) := by
  simp only [replaceDashesWithUnderscores, jsToLower]
  exact map_comm_of (fun c => (lowerChar_dashToU c).symm) s

theorem replaceUnderscores_toLower_comm (s : LC) :
    replaceUnderscoresWithDashes (jsToLower s) =
      jsToLower (replaceUnderscoresWithDashes s) := by
  simp only [replaceUnderscoresWithDashes, jsToLower]
  exact map_comm_of (fun c => (lowerChar_uToDash c).symm) s

theorem replaceDashes_idem (s : LC) :
    replaceDashesWithUnderscores (replaceDashesWithUnderscores s) =
      replaceDashesWithUnderscores s :=
  map_idem_of dashToU_idem s

theorem replaceUnderscores_idem (s : LC) :
    replaceUnderscoresWithDashes (replaceUnderscoresWithDashes s) =
      replaceUnderscoresWithDashes s :=
  map_idem_of uToDash_idem s

/-! ## normalizePath: fixpoints of the slash-collapsing -/

theorem splitOnChar_ne_nil (sep : Char) (s : LC) : splitOnChar sep s ≠ [] := by
  cases s with
  | nil => simp [splitOnChar]
  | cons c t =>
    simp only [splitOnChar]
    cases hs : splitOnChar sep t with
    | nil => simp
    | cons h hs2 =>
      by_cases hc : c = sep
      · simp [hc]
      · simp [hc]

theorem splitOnChar_cons_sep (sep : Char) (t : LC) :
    splitOnChar sep (sep :: t) = [] :: splitOnChar sep t := by
  simp only [splitOnChar]
  cases hs : splitOnChar sep t with
  | nil => exact absurd hs (splitOnChar_ne_nil sep t)
  | cons h hs2 => simp

theorem splitOnChar_cons_ne (sep c : Char) (t h : LC) (hs2 : List LC)
    (hc : c ≠ sep) (hs : splitOnChar sep t = h :: hs2) :
    splitOnChar sep (c :: t) = (c :: h) :: hs2 := by
  simp only [splitOnChar, hs]
  simp [hc]

theorem splitOnChar_no_sep (sep : Char) (s : LC) :
    ∀ seg ∈ splitOnChar sep s, sep ∉ seg := by
  induction s with
  | nil =>
    intro seg hseg
    simp [splitOnChar] at hseg
    simp [hseg]
  | cons c t ih =>
    intro seg hseg
    by_cases hc : c = sep
    · subst hc
      rw [splitOnChar_cons_sep] at hseg
      rcases List.mem_cons.mp hseg with he | he
      · simp [he]
      · exact ih seg he
    · cases hs : splitOnChar sep t with
      | nil => exact absurd hs (splitOnChar_ne_nil sep t)
      | cons h hs2 =>
        rw [splitOnChar_cons_ne sep c t h hs2 hc hs] at hseg
        rcases List.mem_cons.mp hseg with he | he
        · subst he
          intro hm
          rcases List.mem_cons.mp hm with he2 | he2
          · exact hc he2.symm
          · exact ih h (hs ▸ List.mem_cons_self h hs2) he2
        · exact ih seg (hs ▸ List.mem_cons_of_mem h he)

theorem splitOnChar_no_sep_id (sep : Char) (a : LC) (h : sep ∉ a) :
    splitOnChar sep a = [a] := by
  induction a with
  | nil => rfl
  | cons c t ih =>
    have hct : sep ∉ t := fun hm => h (List.mem_cons_of_mem _ hm)
    have hc : c ≠ sep := fun he => h (he ▸ List.mem_cons_self _ _)
    exact splitOnChar_cons_ne sep c t t [] hc (ih hct)

theorem splitOnChar_append_sep (sep : Char) (a r : LC) (h : sep ∉ a) :
    splitOnChar sep (a ++ sep :: r) = a :: splitOnChar sep r := by
  induction a with
  | nil =>
    rw [List.nil_append]
    exact splitOnChar_cons_sep sep r
  | cons c a2 ih =>
    have hct : sep ∉ a2 := fun hm => h (List.mem_cons_of_mem _ hm)
    have hc : c ≠ sep := fun he => h (he ▸ List.mem_cons_self _ _)
    rw [List.cons_append]
    exact splitOnChar_cons_ne sep c (a2 ++ sep :: r) a2 (splitOnChar sep r)
      hc (ih hct)

theorem intercalate_cons2 (sep : Char) (a : LC) (L : List LC) (h : L ≠ []) :
    List.intercalate [sep] (a :: L) = a ++ sep :: List.intercalate [sep] L := by
  cases L with
  | nil => exact absurd rfl h
  | cons b L2 =>
    simp [List.intercalate, List.intersperse]

theorem splitOnChar_intercalate (sep : Char) :
    ∀ L : List LC, (∀ seg ∈ L, sep ∉ seg) → L ≠ [] →
      splitOnChar sep (List.intercalate [sep] L) = L := by
  intro L
  induction L with
  | nil => intro _ h; exact absurd rfl h
  | cons a L2 ih =>
    intro hno _
    cases L2 with
    | nil =>
      have h1 : List.intercalate [sep] [a] = a := by
        simp [List.intercalate]
      rw [h1]
      exact splitOnChar_no_sep_id sep a (hno a (List.mem_cons_self _ _))
    | cons b L3 =>
      rw [intercalate_cons2 sep a (b :: L3) (by simp),
        splitOnChar_append_sep sep a _ (hno a (List.mem_cons_self _ _)),
        ih (fun seg hs => hno seg (List.mem_cons_of_mem _ hs)) (by simp)]

theorem pathSegments_joinSlash (L : List LC)
    (h : ∀ seg ∈ L, seg ≠ [] ∧ '/' ∉ seg) :
    pathSegments (joinSlash L) = L := by
  cases L with
  | nil => rfl
  | cons a L2 =>
    simp only [pathSegments, joinSlash]
    rw [splitOnChar_intercalate '/' (a :: L2)
      (fun seg hs => (h seg hs).2) (by simp)]
    exact List.filter_eq_self.mpr fun seg hs => by
      simp [(h seg hs).1]




theorem map_intercalate (f : Char → Char) (sep : Char) :
    ∀ L : List LC, (List.intercalate [sep] L).map f =
      List.intercalate [f sep] (L.map (List.map f)) := by
  intro L
  induction L with
  | nil => simp [List.intercalate]
  | cons a L2 ih =>
    cases L2 with
    | nil => simp [List.intercalate]
    | cons b L3 =>
      rw [intercalate_cons2 sep a _ (by simp), List.map_append, List.map_cons,
        ih, List.map_cons,
        ← intercalate_cons2 (f sep) (a.map f) _ (by simp)]
      rfl

theorem lowerChar_slash_iff (c : Char) : lowerChar c = '/' ↔ c = '/' := by
  constructor
  · intro h
    by_cases h3 : 0x41 ≤ c.toNat ∧ c.toNat ≤ 0x5A
    · exfalso
      have ht : (Char.ofNat (c.toNat + 0x20)).toNat = c.toNat + 0x20 :=
        char_toNat_ofNat (by omega)
      rw [lowerChar_upper h3] at h
      have hn := congrArg Char.toNat h
      rw [ht] at hn
      have h47 : ('/').toNat = 47 := rfl
      omega
    · rwa [lowerChar_other h3] at h
  · intro h
    subst h
    decide

theorem jsToLower_joinSlash (L : List LC) :
    jsToLower (joinSlash L) = joinSlash (L.map jsToLower) := by
  simp only [joinSlash, jsToLower]
  rw [map_intercalate lowerChar '/' L,
    show lowerChar '/' = '/' from by decide]
  rfl


theorem firstIdx?_eq_none_iff (c : Char) (s : LC) :
    firstIdx? c s = none ↔ c ∉ s := by
  induction s with
  | nil => simp [firstIdx?]
  | cons x t ih =>
    simp only [firstIdx?, List.mem_cons]
    by_cases hx : x = c
    · simp [hx]
    · rw [if_neg hx]
      cases ht : firstIdx? c t with
      | some i =>
        have : c ∈ t := by
          by_contra hct
          rw [ih.mpr hct] at ht
          exact Option.noConfusion ht
        simp [ht, this]
      | none =>
        have hct : c ∉ t := ih.mp ht
        simp [ht, hct]
        exact fun h => hx h.symm

theorem firstIdx?_append_cons (c : Char) (a b : LC) (ha : c ∉ a) :
    firstIdx? c (a ++ c :: b) = some a.length := by
  induction a with
  | nil => simp [firstIdx?]
  | cons x a2 ih =>
    have hx : x ≠ c := fun he => ha (he ▸ List.mem_cons_self _ _)
    have ha2 : c ∉ a2 := fun hm => ha (List.mem_cons_of_mem _ hm)
    simp only [List.cons_append, firstIdx?, List.append_eq]
    rw [if_neg hx, ih ha2]
    rfl

theorem dropWhile_id_of_head {p : Char → Bool} {s : LC}
    (h : match s with | [] => True | x :: _ => p x = false) :
    s.dropWhile p = s := by
  cases s with
  | nil => rfl
  | cons x t =>
    simp only at h
    rw [List.dropWhile_cons, h]
    simp

theorem head_dropWhile (p : Char → Bool) (l : LC) :
    match l.dropWhile p with | [] => True | x :: _ => p x = false := by
  induction l with
  | nil => simp [List.dropWhile]
  | cons a t ih =>
    rw [List.dropWhile_cons]
    by_cases hp : p a
    · rw [if_pos hp]
      exact ih
    · rw [if_neg hp]
      simpa using hp

theorem firstIdx?_spec (c : Char) : ∀ {s : LC} {i : Nat},
    firstIdx? c s = some i →
    ∃ a b : LC, a.length = i ∧ c ∉ a ∧ s = a ++ c :: b := by
  intro s
  induction s with
  | nil => intro i h; simp [firstIdx?] at h
  | cons x t ih =>
    intro i h
    simp only [firstIdx?] at h
    by_cases hx : x = c
    · rw [if_pos hx] at h
      simp only [Option.some.injEq] at h
      subst h
      subst hx
      exact ⟨[], t, rfl, by simp, rfl⟩
    · rw [if_neg hx] at h
      cases ht : firstIdx? c t with
      | none => rw [ht] at h; simp at h
      | some j =>
        rw [ht] at h
        simp only [Option.map_some, Option.some.injEq] at h
        subst h
        obtain ⟨a, b, h1, h2, h3⟩ := ih ht
        refine ⟨x :: a, b, by simp [h1], ?_, by rw [h3]; rfl⟩
        simp only [List.mem_cons]
        intro hm
        rcases hm with hm | hm
        · exact hx hm.symm
        · exact h2 hm

theorem npGo_noslash {f : Option (LC → Bool)} {rest : LC}
    (h : '/' ∉ rest) (fuel : Nat) (c : LC) :
    npGo f fuel c rest =
      if rest.length ≠ 0 ∧ npAccept f rest = true
      then c ++ '/' :: rest else c := by
  cases fuel with
  | zero => rfl
  | succ fuel =>
    simp only [npGo]
    rw [(firstIdx?_eq_none_iff '/' rest).mpr h]

theorem npGo_step {f : Option (LC → Bool)} {rest : LC} {i : Nat}
    (h : firstIdx? '/' rest = some i) (fuel : Nat) (c : LC) :
    npGo f (fuel + 1) c rest =
      npGo f fuel
        (if npAccept f (rest.take i) = true
         then (if c.length = 0 then rest.take i else c ++ '/' :: rest.take i)
         else c)
        ((rest.drop (i + 1)).dropWhile (· = '/')) := by
  simp only [npGo, h]

theorem joinSlash_cons2 (z : LC) {t : List LC} (h : t ≠ []) :
    joinSlash (z :: t) = z ++ '/' :: joinSlash t :=
  intercalate_cons2 '/' z t h

theorem joinSlash_singleton (z : LC) : joinSlash [z] = z := by
  simp [joinSlash, List.intercalate]

theorem joinSlash_append_singleton {L : List LC} (h : L ≠ []) (z : LC) :
    joinSlash (L ++ [z]) = joinSlash L ++ '/' :: z := by
  induction L with
  | nil => exact absurd rfl h
  | cons a t ih =>
    cases t with
    | nil => simp [joinSlash_singleton, joinSlash_cons2]
    | cons b t2 =>
      rw [List.cons_append, joinSlash_cons2 a (by simp),
        joinSlash_cons2 a (List.cons_ne_nil b t2), ih (by simp)]
      simp

theorem joinSlash_drop_slashes {t : List LC} (hne : t ≠ [])
    (h : ∀ x ∈ t, x ≠ [] ∧ '/' ∉ x) :
    (joinSlash t).dropWhile (· = '/') = joinSlash t := by
  apply dropWhile_id_of_head
  cases t with
  | nil => exact absurd rfl hne
  | cons w t2 =>
    have hw := h w (List.mem_cons_self _ _)
    cases hwc : w with
    | nil => exact absurd hwc hw.1
    | cons x w2 =>
      have hx : x ≠ '/' := fun he =>
        hw.2 (hwc ▸ (he ▸ List.mem_cons_self x w2))
      cases t2 with
      | nil =>
        simp only [joinSlash_singleton]
        simpa using hx
      | cons b t3 =>
        rw [joinSlash_cons2 (x :: w2) (by simp), List.cons_append]
        simpa using hx

theorem npGo_allacc (f : Option (LC → Bool)) :
    ∀ (segs : List LC), segs ≠ [] →
    (∀ x ∈ segs, x ≠ [] ∧ '/' ∉ x ∧ npAccept f x = true) →
    ∀ (c : LC) (fuel : Nat), (joinSlash segs).length ≤ fuel → c ≠ [] →
    npGo f fuel c (joinSlash segs) = c ++ '/' :: joinSlash segs := by
  intro segs
  induction segs with
  | nil => intro h; exact absurd rfl h
  | cons z t ih =>
    intro _ hprops c fuel hfuel hc
    have hz := hprops z (List.mem_cons_self _ _)
    cases t with
    | nil =>
      rw [joinSlash_singleton] at hfuel ⊢
      rw [npGo_noslash hz.2.1 fuel c,
        if_pos ⟨by simpa using hz.1, hz.2.2⟩]
    | cons w t2 =>
      have htne : w :: t2 ≠ [] := by simp
      rw [joinSlash_cons2 z htne] at hfuel ⊢
      have hlen : (z ++ '/' :: joinSlash (w :: t2)).length =
          z.length + 1 + (joinSlash (w :: t2)).length := by
        simp
        omega
      cases fuel with
      | zero =>
        exfalso
        have hz1 : 1 ≤ z.length := by
          cases hzc : z with
          | nil => exact absurd hzc hz.1
          | cons _ _ => simp
        omega
      | succ fuel =>
        rw [npGo_step (firstIdx?_append_cons '/' z (joinSlash (w :: t2))
          hz.2.1) fuel c]
        rw [List.take_left]
        rw [if_pos hz.2.2]
        rw [if_neg (by simpa using hc)]
        have hdrop : (z ++ '/' :: joinSlash (w :: t2)).drop (z.length + 1) =
            joinSlash (w :: t2) := drop_append_cons z _ '/'
        rw [hdrop, joinSlash_drop_slashes htne
          (fun x hx => ⟨(hprops x (List.mem_cons_of_mem _ hx)).1,
            (hprops x (List.mem_cons_of_mem _ hx)).2.1⟩)]
        rw [ih htne (fun x hx => hprops x (List.mem_cons_of_mem _ hx))
          (c ++ '/' :: z) fuel (by omega) (by simp)]
        simp

theorem normalizePath_noslash_fix (f : Option (LC → Bool)) {s : LC}
    (h : '/' ∉ s) : normalizePath f s = s := by
  have h1 : s.dropWhile (· = '/') = s := by
    apply dropWhile_id_of_head
    cases s with
    | nil => trivial
    | cons x t =>
      have : x ≠ '/' := fun he => h (he ▸ List.mem_cons_self _ _)
      simpa using this
  simp only [normalizePath, h1, (firstIdx?_eq_none_iff '/' s).mpr h]

theorem normalizePath_fix (f : Option (LC → Bool)) (L : List LC)
    (hL : ∀ seg ∈ L, seg ≠ [] ∧ '/' ∉ seg ∧ npAccept f seg = true) :
    normalizePath f (joinSlash L) = joinSlash L := by
  cases L with
  | nil => rfl
  | cons z t =>
    have hz := hL z (List.mem_cons_self _ _)
    cases t with
    | nil =>
      rw [joinSlash_singleton]
      exact normalizePath_noslash_fix f hz.2.1
    | cons w t2 =>
      have htne : w :: t2 ≠ [] := by simp
      rw [joinSlash_cons2 z htne]
      have hdw : (z ++ '/' :: joinSlash (w :: t2)).dropWhile (· = '/') =
          z ++ '/' :: joinSlash (w :: t2) := by
        apply dropWhile_id_of_head
        cases hzc : z with
        | nil => exact absurd hzc hz.1
        | cons x z2 =>
          have hx : x ≠ '/' := fun he =>
            hz.2.1 (hzc ▸ (he ▸ List.mem_cons_self x z2))
          rw [List.cons_append]
          simpa using hx
      have hfi := firstIdx?_append_cons '/' z (joinSlash (w :: t2)) hz.2.1
      simp only [normalizePath, hdw, hfi]
      have hlen : (z ++ '/' :: joinSlash (w :: t2)).length =
          z.length + 1 + (joinSlash (w :: t2)).length := by
        simp
        omega
      rw [hlen, show z.length + 1 + (joinSlash (w :: t2)).length =
        z.length + (joinSlash (w :: t2)).length + 1 from by omega]
      rw [npGo_step hfi (z.length + (joinSlash (w :: t2)).length) []]
      rw [List.take_left]
      rw [if_pos hz.2.2]
      rw [if_pos (by simp)]
      have hdrop : (z ++ '/' :: joinSlash (w :: t2)).drop (z.length + 1) =
          joinSlash (w :: t2) := drop_append_cons z _ '/'
      rw [hdrop, joinSlash_drop_slashes htne
        (fun x hx => ⟨(hL x (List.mem_cons_of_mem _ hx)).1,
          (hL x (List.mem_cons_of_mem _ hx)).2.1⟩)]
      rw [npGo_allacc f (w :: t2) htne
        (fun x hx => hL x (List.mem_cons_of_mem _ hx)) z
        (z.length + (joinSlash (w :: t2)).length) (by omega) hz.1]

theorem pathSegments_cons_sep (t : LC) :
    pathSegments ('/' :: t) = pathSegments t := by
  simp only [pathSegments, splitOnChar_cons_sep]
  simp

theorem pathSegments_dropWhile (s : LC) :
    pathSegments (s.dropWhile (· = '/')) = pathSegments s := by
  induction s with
  | nil => rfl
  | cons x t ih =>
    rw [List.dropWhile_cons]
    by_cases hx : x = '/'
    · rw [if_pos (by simpa using hx), ih, hx, pathSegments_cons_sep]
    · rw [if_neg (by simpa using hx)]

theorem pathSegments_append_sep {a : LC} (b : LC) (ha : '/' ∉ a)
    (hne : a ≠ []) : pathSegments (a ++ '/' :: b) = a :: pathSegments b := by
  simp only [pathSegments, splitOnChar_append_sep '/' a b ha, List.filter_cons]
  simp [hne]

theorem pathSegments_props (s : LC) :
    ∀ seg ∈ pathSegments s, seg ≠ [] ∧ '/' ∉ seg := fun seg h =>
  ⟨by simpa using List.of_mem_filter h,
    splitOnChar_no_sep '/' s seg (List.mem_of_mem_filter h)⟩

theorem npGo_none_eq : ∀ (fuel : Nat) (rest c : LC), rest.length ≤ fuel →
    (∀ x t, rest = x :: t → x ≠ '/') → c ≠ [] →
    npGo none fuel c rest =
      if pathSegments rest = [] then c
      else c ++ '/' :: joinSlash (pathSegments rest) := by
  intro fuel
  induction fuel with
  | zero =>
    intro rest c hle _ _
    have hr : rest = [] := by
      cases rest with
      | nil => rfl
      | cons x t => simp at hle
    subst hr
    have hps : pathSegments ([] : LC) = [] := by decide
    simp only [npGo]
    rw [if_neg (by simp), hps, if_pos rfl]
  | succ fuel ih =>
    intro rest c hle hh hc
    cases hfi : firstIdx? '/' rest with
    | none =>
      have hns := (firstIdx?_eq_none_iff '/' rest).mp hfi
      rw [npGo_noslash hns (fuel + 1) c]
      cases rest with
      | nil =>
        have hps : pathSegments ([] : LC) = [] := by decide
        rw [if_neg (by simp), hps, if_pos rfl]
      | cons x t =>
        rw [if_pos ⟨by simp, rfl⟩]
        have hps : pathSegments (x :: t) = [x :: t] := by
          simp only [pathSegments, splitOnChar_no_sep_id '/' (x :: t) hns]
          simp
        rw [hps, if_neg (by simp), joinSlash_singleton]
    | some i =>
      obtain ⟨a, b, hlen, hnm, hdec⟩ := firstIdx?_spec '/' hfi
      subst hdec
      have hane : a ≠ [] := by
        intro hanil
        subst hanil
        exact hh '/' b rfl rfl
      have htake : (a ++ '/' :: b).take i = a := by
        rw [← hlen]
        exact List.take_left a _
      have hdrop : (a ++ '/' :: b).drop (i + 1) = b := by
        rw [← hlen]
        exact drop_append_cons a b '/'
      simp only [List.length_append, List.length_cons] at hle
      rw [npGo_step hfi fuel c, htake, hdrop]
      rw [if_pos (show npAccept none a = true from rfl),
        if_neg (by simpa using hc)]
      have hle2 : (b.dropWhile (· = '/')).length ≤ fuel := by
        have h1 := length_dropWhile_le (· = '/') b
        omega
      have hh2 : ∀ x t, b.dropWhile (· = '/') = x :: t → x ≠ '/' := by
        intro x t hxt
        have h1 := head_dropWhile (· = '/') b
        rw [hxt] at h1
        simpa using h1
      rw [ih (b.dropWhile (· = '/')) (c ++ '/' :: a) hle2 hh2 (by simp)]
      rw [pathSegments_dropWhile]
      rw [pathSegments_append_sep b hnm hane]
      have hrhs : (if a :: pathSegments b = [] then c
          else c ++ '/' :: joinSlash (a :: pathSegments b)) =
          c ++ '/' :: joinSlash (a :: pathSegments b) := if_neg (by simp)
      rw [hrhs]
      cases hpb : pathSegments b with
      | nil =>
        rw [if_pos rfl, joinSlash_singleton]
      | cons q qs =>
        rw [if_neg (by simp)]
        conv_rhs => rw [joinSlash_cons2 a (List.cons_ne_nil q qs)]
        simp

theorem npGo_none_entry {rest : LC} {i : Nat}
    (hfi : firstIdx? '/' rest = some i) (fuel : Nat)
    (hle : rest.length ≤ fuel)
    (hh : ∀ x t, rest = x :: t → x ≠ '/') :
    npGo none fuel [] rest = joinSlash (pathSegments rest) := by
  obtain ⟨a, b, hlen, hnm, hdec⟩ := firstIdx?_spec '/' hfi
  subst hdec
  have hane : a ≠ [] := by
    intro hanil
    subst hanil
    exact hh '/' b rfl rfl
  have htake : (a ++ '/' :: b).take i = a := by
    rw [← hlen]
    exact List.take_left a _
  have hdrop : (a ++ '/' :: b).drop (i + 1) = b := by
    rw [← hlen]
    exact drop_append_cons a b '/'
  simp only [List.length_append, List.length_cons] at hle
  cases fuel with
  | zero =>
    exfalso
    omega
  | succ fuel =>
    rw [npGo_step hfi fuel [], htake, hdrop]
    rw [if_pos (show npAccept none a = true from rfl), if_pos (by simp)]
    have hle2 : (b.dropWhile (· = '/')).length ≤ fuel := by
      have h1 := length_dropWhile_le (· = '/') b
      omega
    have hh2 : ∀ x t, b.dropWhile (· = '/') = x :: t → x ≠ '/' := by
      intro x t hxt
      have h1 := head_dropWhile (· = '/') b
      rw [hxt] at h1
      simpa using h1
    rw [npGo_none_eq fuel (b.dropWhile (· = '/')) a hle2 hh2 hane]
    rw [pathSegments_dropWhile]
    rw [pathSegments_append_sep b hnm hane]
    cases hpb : pathSegments b with
    | nil =>
      rw [if_pos rfl, joinSlash_singleton]
    | cons q qs =>
      rw [if_neg (by simp)]
      conv_rhs => rw [joinSlash_cons2 a (List.cons_ne_nil q qs)]

theorem normalizePath_none_eq (s : LC) :
    normalizePath none s = joinSlash (pathSegments s) := by
  simp only [normalizePath]
  cases hfi : firstIdx? '/' (s.dropWhile (· = '/')) with
  | none =>
    have hns := (firstIdx?_eq_none_iff '/' _).mp hfi
    rw [← pathSegments_dropWhile s]
    cases hdw : s.dropWhile (· = '/') with
    | nil => rfl
    | cons x t =>
      rw [hdw] at hns
      have hps : pathSegments (x :: t) = [x :: t] := by
        simp only [pathSegments, splitOnChar_no_sep_id '/' (x :: t) hns]
        simp
      rw [hps, joinSlash_singleton]
  | some i =>
    have hh : ∀ x t, s.dropWhile (· = '/') = x :: t → x ≠ '/' := by
      intro x t hxt
      have h1 := head_dropWhile (· = '/') s
      rw [hxt] at h1
      simpa using h1
    rw [npGo_none_entry hfi _ le_rfl hh, pathSegments_dropWhile]

theorem normalizePath_idem_none (s : LC) :
    normalizePath none (normalizePath none s) = normalizePath none s := by
  rw [normalizePath_none_eq s]
  exact normalizePath_fix none (pathSegments s) fun seg hs =>
    ⟨(pathSegments_props s seg hs).1, (pathSegments_props s seg hs).2, rfl⟩

theorem npGo_structure (f : Option (LC → Bool)) :
    ∀ (fuel : Nat) (rest c : LC), rest.length ≤ fuel →
    (∀ x t, rest = x :: t → x ≠ '/') →
    (c = [] ∨ goodSegs f c) →
    npGo f fuel c rest = c ∨ (∃ z, npGo f fuel c rest = '/' :: z) ∨
      goodSegs f (npGo f fuel c rest) := by
  intro fuel
  induction fuel with
  | zero =>
    intro rest c hle _ _
    have hr : rest = [] := by
      cases rest with
      | nil => rfl
      | cons x t => simp at hle
    subst hr
    left
    simp only [npGo]
    rw [if_neg (by simp)]
  | succ fuel ih =>
    intro rest c hle hh hc
    cases hfi : firstIdx? '/' rest with
    | none =>
      have hns := (firstIdx?_eq_none_iff '/' rest).mp hfi
      rw [npGo_noslash hns (fuel + 1) c]
      by_cases hcond : rest.length ≠ 0 ∧ npAccept f rest = true
      · rw [if_pos hcond]
        rcases hc with rfl | ⟨segs, hne, hp, he⟩
        · exact Or.inr (Or.inl ⟨rest, by simp⟩)
        · refine Or.inr (Or.inr ⟨segs ++ [rest], by simp, ?_, ?_⟩)
          · intro x hx
            rcases List.mem_append.mp hx with hx | hx
            · exact hp x hx
            · rw [List.mem_singleton] at hx
              subst hx
              exact ⟨fun hxe => hcond.1 (by simp [hxe]), hns, hcond.2⟩
          · rw [he, joinSlash_append_singleton hne]
      · rw [if_neg hcond]
        exact Or.inl rfl
    | some i =>
      obtain ⟨a, b, hlen, hnm, hdec⟩ := firstIdx?_spec '/' hfi
      subst hdec
      have hane : a ≠ [] := by
        intro hanil
        subst hanil
        exact hh '/' b rfl rfl
      have htake : (a ++ '/' :: b).take i = a := by
        rw [← hlen]
        exact List.take_left a _
      have hdrop : (a ++ '/' :: b).drop (i + 1) = b := by
        rw [← hlen]
        exact drop_append_cons a b '/'
      simp only [List.length_append, List.length_cons] at hle
      rw [npGo_step hfi fuel c, htake, hdrop]
      have hle2 : (b.dropWhile (· = '/')).length ≤ fuel := by
        have h1 := length_dropWhile_le (· = '/') b
        omega
      have hh2 : ∀ x t, b.dropWhile (· = '/') = x :: t → x ≠ '/' := by
        intro x t hxt
        have h1 := head_dropWhile (· = '/') b
        rw [hxt] at h1
        simpa using h1
      by_cases hacc : npAccept f a = true
      · rw [if_pos hacc]
        have hg : goodSegs f
            (if c.length = 0 then a else c ++ '/' :: a) := by
          by_cases hcz : c.length = 0
          · rw [if_pos hcz]
            refine ⟨[a], by simp, ?_, (joinSlash_singleton _).symm⟩
            intro x hx
            rw [List.mem_singleton] at hx
            subst hx
            exact ⟨hane, hnm, hacc⟩
          · rw [if_neg hcz]
            rcases hc with rfl | ⟨segs, hne, hp, he⟩
            · simp at hcz
            · refine ⟨segs ++ [a], by simp, ?_, ?_⟩
              · intro x hx
                rcases List.mem_append.mp hx with hx | hx
                · exact hp x hx
                · rw [List.mem_singleton] at hx
                  subst hx
                  exact ⟨hane, hnm, hacc⟩
              · rw [he, joinSlash_append_singleton hne]
        rcases ih (b.dropWhile (· = '/')) _ hle2 hh2 (Or.inr hg)
          with h | h | h
        · rw [h]
          exact Or.inr (Or.inr hg)
        · exact Or.inr (Or.inl h)
        · exact Or.inr (Or.inr h)
      · rw [if_neg hacc]
        exact ih (b.dropWhile (· = '/')) c hle2 hh2 hc

theorem normalizePath_structure (f : Option (LC → Bool)) (s : LC) :
    '/' ∉ normalizePath f s ∨ (∃ z, normalizePath f s = '/' :: z) ∨
      goodSegs f (normalizePath f s) := by
  simp only [normalizePath]
  cases hfi : firstIdx? '/' (s.dropWhile (· = '/')) with
  | none =>
    exact Or.inl ((firstIdx?_eq_none_iff '/' _).mp hfi)
  | some i =>
    have hh : ∀ x t, s.dropWhile (· = '/') = x :: t → x ≠ '/' := by
      intro x t hxt
      have h1 := head_dropWhile (· = '/') s
      rw [hxt] at h1
      simpa using h1
    rcases npGo_structure f (s.dropWhile (· = '/')).length
      (s.dropWhile (· = '/')) [] le_rfl hh (Or.inl rfl) with h | h | h
    · rw [h]
      exact Or.inl (by simp)
    · exact Or.inr (Or.inl h)
    · exact Or.inr (Or.inr h)

theorem normalizePath_out_fix {f : Option (LC → Bool)} {d s : LC}
    (hd : normalizePath f d = s) (hh : ∀ z, s ≠ '/' :: z) : normalizePath f s = s := by
  rcases normalizePath_structure f d with h | ⟨z, h⟩ | ⟨segs, hne, hp, he⟩
  · rw [hd] at h
    exact normalizePath_noslash_fix f h
  · rw [hd] at h
    exact absurd h (hh z)
  · rw [hd] at he
    rw [he]
    exact normalizePath_fix f segs hp

theorem normalizePath_none_toLower_fix {x : LC} (hx : normalizePath none x = x) :
    normalizePath none (jsToLower x) = jsToLower x := by
  rw [← hx, normalizePath_none_eq x, jsToLower_joinSlash]
  apply normalizePath_fix
  intro seg hseg
  obtain ⟨seg0, hs0, he⟩ := List.mem_map.mp hseg
  subst he
  have hp := pathSegments_props x seg0 hs0
  refine ⟨?_, ?_, rfl⟩
  · intro he2
    apply hp.1
    cases seg0
    · rfl
    · simp [jsToLower] at he2
  · intro hm
    obtain ⟨c, hcm, hce⟩ := List.mem_map.mp hm
    have hcs : c = '/' := (lowerChar_slash_iff c).mp hce
    exact hp.2 (hcs ▸ hcm)


/-! ## Stored qualifiers are a fixpoint of normalizeQualifiers -/

theorem qSet_keys_nodup {m : List (LC × LC)} (h : (m.map (·.1)).Nodup)
    (k v : LC) : ((qSet m k v).map (·.1)).Nodup := by
  rw [qSet_keys]
  split
  · exact h
  · rename_i hk
    rw [List.nodup_append]
    refine ⟨h, List.nodup_singleton k, ?_⟩
    intro a ha hb
    rw [List.mem_singleton] at hb
    subst hb
    exact hk ha

theorem foldl_nqStep_nodup (raw : List (LC × LC)) :
    ∀ acc, ((acc.map (·.1)).Nodup) →
      (((raw.foldl nqStep acc).map (·.1)).Nodup) := by
  induction raw with
  | nil => intro acc h; simpa using h
  | cons hd t ih =>
    intro acc h
    simp only [List.foldl_cons]
    apply ih
    simp only [nqStep]
    split
    · exact h
    · exact qSet_keys_nodup h _ _

theorem normalizeQualifiers_canonical {e m : List (LC × LC)}
    (hm : normalizeQualifiers e = some m) :
    normalizeQualifiers m = some m := by
  rw [normalizeQualifiers_eq] at hm
  split at hm
  · simp at hm
  · rename_i hall
    simp only [Option.some.injEq] at hm
    subst hm
    have hmem : ∀ kv ∈ e.foldl nqStep [], jsToLower kv.1 = kv.1 ∧
        (jsTrim kv.2 = kv.2 ∧ kv.2 ≠ []) := by
      intro kv hkv
      rcases foldl_nqStep_mem e [] kv hkv with h1 | ⟨kv0, _, hk, hv, hne⟩
      · simp at h1
      · refine ⟨?_, ?_, hne⟩
        · rw [hk]
          exact jsToLower_idem _
        · rw [hv]
          exact jsTrim_idem _
    have hnodup := foldl_nqStep_nodup e [] (by simp)
    rw [normalizeQualifiers_eq]
    rw [if_neg ?hall2]
    · rw [foldl_nqStep_canonical _ [] (fun kv hkv => (hmem kv hkv).1)
        (fun kv hkv => (hmem kv hkv).2) (by simp) hnodup]
      simp
    case hall2 =>
      intro hall2
      cases hme : e.foldl nqStep [] with
      | nil =>
        obtain ⟨_, h2⟩ := foldl_nqStep_eq_nil e [] hme
        exact hall h2
      | cons kv0 t0 =>
        have h1 := hall2 kv0 (hme ▸ List.mem_cons_self _ _)
        have h2 := hmem kv0 (hme ▸ List.mem_cons_self _ _)
        rw [h2.2.1] at h1
        exact h2.2.2 h1

/-! ## Projections of the per-type normalizers -/

theorem lowerName_name (p : PackageURL) :
    (lowerName p).name = jsToLower p.name := rfl

theorem lowerName_nspace (p : PackageURL) :
    (lowerName p).nspace = p.nspace := rfl

theorem lowerName_version (p : PackageURL) :
    (lowerName p).version = p.version := rfl

theorem lowerNamespace_name (p : PackageURL) :
    (lowerNamespace p).name = p.name := (lowerNamespace_parts p).2.1

theorem lowerNamespace_nspace (p : PackageURL) :
    (lowerNamespace p).nspace = Option.map jsToLower p.nspace := by
  cases h : p.nspace <;> simp [lowerNamespace, h]

theorem lowerNamespace_version (p : PackageURL) :
    (lowerNamespace p).version = p.version := (lowerNamespace_parts p).2.2.1

theorem lowerVersion_name (p : PackageURL) :
    (lowerVersion p).name = p.name := (lowerVersion_parts p).2.1

theorem lowerVersion_nspace (p : PackageURL) :
    (lowerVersion p).nspace = p.nspace := (lowerVersion_parts p).2.2.1

theorem lowerVersion_version (p : PackageURL) :
    (lowerVersion p).version = Option.map jsToLower p.version := by
  cases h : p.version <;> simp [lowerVersion, h]

theorem typeNormalize_eq_alpm (q : PackageURL) :
    typeNormalize (lc "alpm") q = lowerName (lowerNamespace q) := rfl

theorem typeNormalize_eq_apk (q : PackageURL) :
    typeNormalize (lc "apk") q = lowerName (lowerNamespace q) := rfl

theorem typeNormalize_eq_bitbucket (q : PackageURL) :
    typeNormalize (lc "bitbucket") q = lowerName (lowerNamespace q) := rfl

theorem typeNormalize_eq_bitnami (q : PackageURL) :
    typeNormalize (lc "bitnami") q = lowerName q := rfl

theorem typeNormalize_eq_composer (q : PackageURL) :
    typeNormalize (lc "composer") q = lowerName (lowerNamespace q) := rfl

theorem typeNormalize_eq_deb (q : PackageURL) :
    typeNormalize (lc "deb") q = lowerName (lowerNamespace q) := rfl

theorem typeNormalize_eq_gitlab (q : PackageURL) :
    typeNormalize (lc "gitlab") q = lowerName (lowerNamespace q) := rfl

theorem typeNormalize_eq_github (q : PackageURL) :
    typeNormalize (lc "github") q = lowerName (lowerNamespace q) := rfl

theorem typeNormalize_eq_hex (q : PackageURL) :
    typeNormalize (lc "hex") q = lowerName (lowerNamespace q) := rfl

theorem typeNormalize_eq_huggingface (q : PackageURL) :
    typeNormalize (lc "huggingface") q = lowerVersion q := rfl

theorem typeNormalize_eq_npm (q : PackageURL) :
    typeNormalize (lc "npm") q = lowerName (lowerNamespace q) := rfl

theorem typeNormalize_eq_luarocks (q : PackageURL) :
    typeNormalize (lc "luarocks") q = lowerVersion q := rfl

theorem typeNormalize_eq_oci (q : PackageURL) :
    typeNormalize (lc "oci") q = lowerName q := rfl

theorem typeNormalize_eq_qpkg (q : PackageURL) :
    typeNormalize (lc "qpkg") q = lowerNamespace q := rfl

theorem typeNormalize_eq_rpm (q : PackageURL) :
    typeNormalize (lc "rpm") q = lowerNamespace q := rfl

theorem typeNormalize_eq_conan (q : PackageURL) :
    typeNormalize (lc "conan") q = q := rfl

theorem typeNormalize_eq_cran (q : PackageURL) :
    typeNormalize (lc "cran") q = q := rfl

theorem typeNormalize_eq_golang (q : PackageURL) :
    typeNormalize (lc "golang") q = q := rfl

theorem typeNormalize_eq_maven (q : PackageURL) :
    typeNormalize (lc "maven") q = q := rfl

theorem typeNormalize_eq_swift (q : PackageURL) :
    typeNormalize (lc "swift") q = q := rfl

theorem typeNormalize_eq_pub (q : PackageURL) :
    typeNormalize (lc "pub") q =
      { lowerName q with
        name := replaceDashesWithUnderscores (lowerName q).name } := rfl

theorem typeNormalize_eq_pypi (q : PackageURL) :
    typeNormalize (lc "pypi") q =
      { lowerName (lowerNamespace q) with
        name := replaceUnderscoresWithDashes
          (lowerName (lowerNamespace q)).name } := rfl

theorem typeKnown_cases {t : LC} (h : typeKnown t = true) :
    t = lc "alpm" ∨
    t = lc "apk" ∨
    t = lc "bitbucket" ∨
    t = lc "bitnami" ∨
    t = lc "composer" ∨
    t = lc "conan" ∨
    t = lc "cran" ∨
    t = lc "deb" ∨
    t = lc "gitlab" ∨
    t = lc "github" ∨
    t = lc "golang" ∨
    t = lc "hex" ∨
    t = lc "huggingface" ∨
    t = lc "luarocks" ∨
    t = lc "maven" ∨
    t = lc "mlflow" ∨
    t = lc "npm" ∨
    t = lc "oci" ∨
    t = lc "pub" ∨
    t = lc "pypi" ∨
    t = lc "qpkg" ∨
    t = lc "rpm" ∨
    t = lc "swift" := by
  simp only [typeKnown, List.any_eq_true, List.mem_cons,
    List.not_mem_nil, or_false, decide_eq_true_eq] at h
  rcases h with ⟨x, hx, he⟩
  subst he
  tauto

theorem jsTrim_replD_comm (s : LC) :
    jsTrim (replaceDashesWithUnderscores s) =
      replaceDashesWithUnderscores (jsTrim s) :=
  jsTrim_map_comm dashToU_ws s

theorem jsTrim_replU_comm (s : LC) :
    jsTrim (replaceUnderscoresWithDashes s) =
      replaceUnderscoresWithDashes (jsTrim s) :=
  jsTrim_map_comm uToDash_ws s

theorem trim_fix_lower {s : LC} (h : jsTrim s = s) :
    jsTrim (jsToLower s) = jsToLower s := by
  rw [jsTrim_toLower_comm, h]

theorem trim_fix_replD {s : LC} (h : jsTrim s = s) :
    jsTrim (replaceDashesWithUnderscores s) =
      replaceDashesWithUnderscores s := by
  rw [jsTrim_replD_comm, h]

theorem trim_fix_replU {s : LC} (h : jsTrim s = s) :
    jsTrim (replaceUnderscoresWithDashes s) =
      replaceUnderscoresWithDashes s := by
  rw [jsTrim_replU_comm, h]

theorem map_ne_nil {f : Char → Char} {s : LC} (h : s ≠ []) : s.map f ≠ [] := by
  cases s
  · exact absurd rfl h
  · simp

theorem canonFields_lowerName {q : PackageURL} (h : canonFields q) :
    canonFields (lowerName q) := by
  obtain ⟨h1, h2, h3, h4⟩ := h
  exact ⟨trim_fix_lower h1, map_ne_nil h2, h3, h4⟩

theorem canonFields_lowerNamespace {q : PackageURL} (h : canonFields q) :
    canonFields (lowerNamespace q) := by
  obtain ⟨h1, h2, h3, h4⟩ := h
  refine ⟨by rw [lowerNamespace_name]; exact h1,
    by rw [lowerNamespace_name]; exact h2, ?_,
    by rw [lowerNamespace_version]; exact h4⟩
  intro s hs
  rw [lowerNamespace_nspace] at hs
  cases hq : q.nspace with
  | none => rw [hq] at hs; simp at hs
  | some s0 =>
    rw [hq] at hs
    simp at hs
    subst hs
    exact normalizePath_none_toLower_fix (h3 s0 hq)

theorem canonFields_lowerVersion {q : PackageURL} (h : canonFields q) :
    canonFields (lowerVersion q) := by
  obtain ⟨h1, h2, h3, h4⟩ := h
  refine ⟨by rw [lowerVersion_name]; exact h1,
    by rw [lowerVersion_name]; exact h2,
    by rw [lowerVersion_nspace]; exact h3, ?_⟩
  intro s hs
  rw [lowerVersion_version] at hs
  cases hq : q.version with
  | none => rw [hq] at hs; simp at hs
  | some s0 =>
    rw [hq] at hs
    simp at hs
    subst hs
    exact trim_fix_lower (h4 s0 hq)

theorem canonFields_pub {q : PackageURL} (h : canonFields q) :
    canonFields { lowerName q with
      name := replaceDashesWithUnderscores (lowerName q).name } := by
  obtain ⟨h1, h2, h3, h4⟩ := canonFields_lowerName h
  exact ⟨trim_fix_replD h1, map_ne_nil h2, h3, h4⟩

theorem canonFields_pypi {q : PackageURL} (h : canonFields q) :
    canonFields { lowerName (lowerNamespace q) with
      name := replaceUnderscoresWithDashes
        (lowerName (lowerNamespace q)).name } := by
  obtain ⟨h1, h2, h3, h4⟩ := canonFields_lowerName (canonFields_lowerNamespace h)
  exact ⟨trim_fix_replU h1, map_ne_nil h2, h3, h4⟩

theorem canonFields_mlflow (q : PackageURL) (h : canonFields q) :
    canonFields (typeNormalize (lc "mlflow") q) := by
  rw [typeNormalize_mlflow]
  by_cases hdb : mlflowDatabricks q.qualifiers
  · rw [if_pos hdb]
    exact canonFields_lowerName h
  · rw [if_neg hdb]
    exact h

theorem lowerName_idem (q : PackageURL) :
    lowerName (lowerName q) = lowerName q := by
  simp [lowerName, jsToLower_idem]

theorem lowerNamespace_idem (q : PackageURL) :
    lowerNamespace (lowerNamespace q) = lowerNamespace q := by
  rcases q with ⟨t, ns, n, v, qq, sp⟩
  cases ns <;> simp [lowerNamespace, jsToLower_idem]

theorem lowerVersion_idem (q : PackageURL) :
    lowerVersion (lowerVersion q) = lowerVersion q := by
  rcases q with ⟨t, ns, n, v, qq, sp⟩
  cases v <;> simp [lowerVersion, jsToLower_idem]

theorem lowerNameNs_idem (q : PackageURL) :
    lowerName (lowerNamespace (lowerName (lowerNamespace q))) =
      lowerName (lowerNamespace q) := by
  rcases q with ⟨t, ns, n, v, qq, sp⟩
  cases ns <;> simp [lowerName, lowerNamespace, jsToLower_idem]

theorem jsToLower_replaceDashes (s : LC) :
    jsToLower (replaceDashesWithUnderscores s) =
      replaceDashesWithUnderscores (jsToLower s) :=
  (replaceDashes_toLower_comm s).symm

theorem jsToLower_replaceUnderscores (s : LC) :
    jsToLower (replaceUnderscoresWithDashes s) =
      replaceUnderscoresWithDashes (jsToLower s) :=
  (replaceUnderscores_toLower_comm s).symm

theorem pub_idem (q : PackageURL) :
    typeNormalize (lc "pub") (typeNormalize (lc "pub") q) =
      typeNormalize (lc "pub") q := by
  rw [typeNormalize_eq_pub, typeNormalize_eq_pub]
  rcases q with ⟨t, ns, n, v, qq, sp⟩
  simp [lowerName, jsToLower_replaceDashes, jsToLower_idem,
    replaceDashes_idem]

theorem pypi_idem (q : PackageURL) :
    typeNormalize (lc "pypi") (typeNormalize (lc "pypi") q) =
      typeNormalize (lc "pypi") q := by
  rw [typeNormalize_eq_pypi, typeNormalize_eq_pypi]
  rcases q with ⟨t, ns, n, v, qq, sp⟩
  cases ns <;>
    simp [lowerName, lowerNamespace, jsToLower_replaceUnderscores,
      jsToLower_idem, replaceUnderscores_idem]

theorem mlflow_idem (q : PackageURL) :
    typeNormalize (lc "mlflow") (typeNormalize (lc "mlflow") q) =
      typeNormalize (lc "mlflow") q := by
  rw [typeNormalize_mlflow, typeNormalize_mlflow]
  by_cases hdb : mlflowDatabricks q.qualifiers
  · rw [if_pos hdb]
    have hq : mlflowDatabricks (lowerName q).qualifiers =
        mlflowDatabricks q.qualifiers := rfl
    rw [hq, if_pos hdb]
    exact lowerName_idem q
  · rw [if_neg hdb, if_neg hdb]

theorem typeNormalize_canonFields {t : LC} (hk : typeKnown t = true)
    (q : PackageURL) (h : canonFields q) :
    canonFields (typeNormalize t q) := by
  rcases typeKnown_cases hk with rfl | rfl | rfl | rfl | rfl | rfl | rfl | rfl | rfl | rfl | rfl | rfl | rfl | rfl | rfl | rfl | rfl | rfl | rfl | rfl | rfl | rfl | rfl
  · rw [typeNormalize_eq_alpm]
    exact canonFields_lowerName (canonFields_lowerNamespace h)
  · rw [typeNormalize_eq_apk]
    exact canonFields_lowerName (canonFields_lowerNamespace h)
  · rw [typeNormalize_eq_bitbucket]
    exact canonFields_lowerName (canonFields_lowerNamespace h)
  · rw [typeNormalize_eq_bitnami]
    exact canonFields_lowerName h
  · rw [typeNormalize_eq_composer]
    exact canonFields_lowerName (canonFields_lowerNamespace h)
  · rw [typeNormalize_eq_conan]
    exact h
  · rw [typeNormalize_eq_cran]
    exact h
  · rw [typeNormalize_eq_deb]
    exact canonFields_lowerName (canonFields_lowerNamespace h)
  · rw [typeNormalize_eq_gitlab]
    exact canonFields_lowerName (canonFields_lowerNamespace h)
  · rw [typeNormalize_eq_github]
    exact canonFields_lowerName (canonFields_lowerNamespace h)
  · rw [typeNormalize_eq_golang]
    exact h
  · rw [typeNormalize_eq_hex]
    exact canonFields_lowerName (canonFields_lowerNamespace h)
  · rw [typeNormalize_eq_huggingface]
    exact canonFields_lowerVersion h
  · rw [typeNormalize_eq_luarocks]
    exact canonFields_lowerVersion h
  · rw [typeNormalize_eq_maven]
    exact h
  · exact canonFields_mlflow q h
  · rw [typeNormalize_eq_npm]
    exact canonFields_lowerName (canonFields_lowerNamespace h)
  · rw [typeNormalize_eq_oci]
    exact canonFields_lowerName h
  · rw [typeNormalize_eq_pub]
    exact canonFields_pub h
  · rw [typeNormalize_eq_pypi]
    exact canonFields_pypi h
  · rw [typeNormalize_eq_qpkg]
    exact canonFields_lowerNamespace h
  · rw [typeNormalize_eq_rpm]
    exact canonFields_lowerNamespace h
  · rw [typeNormalize_eq_swift]
    exact h

theorem typeNormalize_idem {t : LC} (hk : typeKnown t = true)
    (q : PackageURL) :
    typeNormalize t (typeNormalize t q) = typeNormalize t q := by
  rcases typeKnown_cases hk with rfl | rfl | rfl | rfl | rfl | rfl | rfl | rfl | rfl | rfl | rfl | rfl | rfl | rfl | rfl | rfl | rfl | rfl | rfl | rfl | rfl | rfl | rfl
  · rw [typeNormalize_eq_alpm, typeNormalize_eq_alpm]
    exact lowerNameNs_idem q
  · rw [typeNormalize_eq_apk, typeNormalize_eq_apk]
    exact lowerNameNs_idem q
  · rw [typeNormalize_eq_bitbucket, typeNormalize_eq_bitbucket]
    exact lowerNameNs_idem q
  · rw [typeNormalize_eq_bitnami, typeNormalize_eq_bitnami]
    exact lowerName_idem q
  · rw [typeNormalize_eq_composer, typeNormalize_eq_composer]
    exact lowerNameNs_idem q
  · rw [typeNormalize_eq_conan, typeNormalize_eq_conan]
  · rw [typeNormalize_eq_cran, typeNormalize_eq_cran]
  · rw [typeNormalize_eq_deb, typeNormalize_eq_deb]
    exact lowerNameNs_idem q
  · rw [typeNormalize_eq_gitlab, typeNormalize_eq_gitlab]
    exact lowerNameNs_idem q
  · rw [typeNormalize_eq_github, typeNormalize_eq_github]
    exact lowerNameNs_idem q
  · rw [typeNormalize_eq_golang, typeNormalize_eq_golang]
  · rw [typeNormalize_eq_hex, typeNormalize_eq_hex]
    exact lowerNameNs_idem q
  · rw [typeNormalize_eq_huggingface, typeNormalize_eq_huggingface]
    exact lowerVersion_idem q
  · rw [typeNormalize_eq_luarocks, typeNormalize_eq_luarocks]
    exact lowerVersion_idem q
  · rw [typeNormalize_eq_maven, typeNormalize_eq_maven]
  · exact mlflow_idem q
  · rw [typeNormalize_eq_npm, typeNormalize_eq_npm]
    exact lowerNameNs_idem q
  · rw [typeNormalize_eq_oci, typeNormalize_eq_oci]
    exact lowerName_idem q
  · exact pub_idem q
  · exact pypi_idem q
  · rw [typeNormalize_eq_qpkg, typeNormalize_eq_qpkg]
    exact lowerNamespace_idem q
  · rw [typeNormalize_eq_rpm, typeNormalize_eq_rpm]
    exact lowerNamespace_idem q
  · rw [typeNormalize_eq_swift, typeNormalize_eq_swift]

/-! ## Re-running the constructor steps on canonical values -/

theorem except_isOk_exists {e : Except JsErr Bool} (h : e.isOk) :
    ∃ b, e = .ok b := by
  cases e with
  | ok b => exact ⟨b, rfl⟩
  | error er => simp [Except.isOk, Except.toBool] at h

theorem constructQualifiers_canonical {rq q : Option (List (LC × LC))}
    (h : constructQualifiers rq = .ok q) :
    constructQualifiers q = .ok q := by
  obtain ⟨hcases, hval⟩ := constructQualifiers_ok h
  obtain ⟨b, hb⟩ := except_isOk_exists hval
  rcases hcases with ⟨_, hq⟩ | ⟨e, _, hq⟩
  · subst hq
    rfl
  · cases hn : normalizeQualifiers e with
    | none =>
      rw [hn] at hq
      subst hq
      rfl
    | some m =>
      rw [hn] at hq
      subst hq
      simp only [constructQualifiers]
      rw [normalizeQualifiers_canonical hn]
      simp [Bind.bind, Except.bind, hb, Pure.pure, Except.pure]

theorem constructType_id {t : LC} (hne : t ≠ []) (hp : '%' ∉ t)
    (hfix : jsToLower (jsTrim t) = t)
    (hval : (validateType (some t) true).isOk) :
    constructType (some t) = .ok (some t) := by
  obtain ⟨b, hb⟩ := except_isOk_exists hval
  simp [constructType, isNonEmptyStringO, hne, normalizeType,
    decodeE_no_pct hp, hfix, Bind.bind, Except.bind, Pure.pure, Except.pure,
    hb]

theorem constructName_id {n : LC} (hne : n ≠ []) (hp : '%' ∉ n)
    (hfix : jsTrim n = n) :
    constructName (some n) = .ok (some n) := by
  simp [constructName, isNonEmptyStringO, hne, normalizeName,
    decodeE_no_pct hp, hfix, Bind.bind, Except.bind, Pure.pure, Except.pure,
    validateName, validateRequired, isNullishOrEmptyStringO]

theorem constructNamespace_id_deg (ns : Option LC)
    (h : ns = none ∨ ns = some []) :
    constructNamespace ns = .ok ns := by
  rcases h with h | h <;> subst h <;> rfl

theorem constructNamespace_id {ns : LC} (hne : ns ≠ []) (hp : '%' ∉ ns)
    (hfix : normalizePath none ns = ns) :
    constructNamespace (some ns) = .ok (some ns) := by
  simp [constructNamespace, isNonEmptyStringO, hne, normalizeNamespace,
    decodeE_no_pct hp, hfix, Bind.bind, Except.bind, Pure.pure, Except.pure,
    validateNamespace]

theorem constructVersion_id_deg (v : Option LC)
    (h : v = none ∨ v = some []) :
    constructVersion v = .ok v := by
  rcases h with h | h <;> subst h <;> rfl

theorem constructVersion_id {v : LC} (hne : v ≠ []) (hp : '%' ∉ v)
    (hfix : jsTrim v = v) :
    constructVersion (some v) = .ok (some v) := by
  simp [constructVersion, isNonEmptyStringO, hne, normalizeVersion,
    decodeE_no_pct hp, hfix, Bind.bind, Except.bind, Pure.pure, Except.pure,
    validateVersion]

theorem constructSubpath_id_deg (sp : Option LC)
    (h : sp = none ∨ sp = some []) :
    constructSubpath sp = .ok sp := by
  rcases h with h | h <;> subst h <;> rfl

theorem constructSubpath_id {sp : LC} (hne : sp ≠ []) (hp : '%' ∉ sp)
    (hfix : normalizePath (some subpathFilter) sp = sp) :
    constructSubpath (some sp) = .ok (some sp) := by
  simp [constructSubpath, isNonEmptyStringO, hne, normalizeSubpath,
    decodeE_no_pct hp, hfix, Bind.bind, Except.bind, Pure.pure, Except.pure,
    validateSubpath]

theorem validateType_isOk_ne {t : LC}
    (h : (validateType (some t) true).isOk) : t ≠ [] := by
  intro he
  subst he
  have h0 : (validateType (some ([] : LC)) true).isOk = false := by decide
  rw [h0] at h
  exact Bool.noConfusion h

/-- C2 (amended): reconstructing a live purl from its six stored fields is
the identity whenever the stored string fields contain no '%' character
and the stored subpath does not begin with '/'.  Percent-decoding runs
again on the stored values, so a stored '%' decodes further; and the
collapsing loop of normalizePath prefixes '/' to the last segment when
every earlier segment was filtered out, so a stored subpath beginning
with '/' collapses differently when re-normalized. -/
theorem C2_canonical_reconstruct
    (rt rns rn rv : Option LC) (rq : Option (List (LC × LC))) (rsp : Option LC)
    (p : PackageURL)
    (h : construct rt rns rn rv rq rsp = .ok p)
    (hpt : '%' ∉ p.type) (hpn : '%' ∉ p.name)
    (hpns : ∀ s, p.nspace = some s → '%' ∉ s)
    (hpv : ∀ s, p.version = some s → '%' ∉ s)
    (hpsp : ∀ s, p.subpath = some s → '%' ∉ s)
    (hpss : ∀ s z, p.subpath = some s → s ≠ '/' :: z) :
    construct (some p.type) p.nspace (some p.name) p.version p.qualifiers
      p.subpath = .ok p := by
  obtain ⟨t, ns, n, v, q, sp, hT, hNS, hN, hV, hQ, hSP, hcase⟩ :=
    construct_ok_inv h
  obtain ⟨rT, dT, _, _, _, htyEq, htyVal⟩ := constructType_ok hT
  obtain ⟨rN2, dN, _, _, _, hnEq, hnNe⟩ := constructName_ok hN
  have hteq : t = jsToLower (jsTrim dT) := Option.some.inj htyEq
  have hneq : n = jsTrim dN := Option.some.inj hnEq
  have htne : t ≠ [] := validateType_isOk_ne htyVal
  have htfix : jsToLower (jsTrim t) = t := by
    rw [hteq]
    calc jsToLower (jsTrim (jsToLower (jsTrim dT)))
        = jsToLower (jsToLower (jsTrim (jsTrim dT))) := by
          rw [jsTrim_toLower_comm]
      _ = jsToLower (jsToLower (jsTrim dT)) := by rw [jsTrim_idem]
      _ = jsToLower (jsTrim dT) := jsToLower_idem _
  have hcanon : canonFields ⟨t, ns, n, v, q, sp⟩ := by
    refine ⟨?_, ?_, ?_, ?_⟩
    · rw [hneq]
      exact jsTrim_idem dN
    · rw [hneq]
      exact hnNe
    · intro s hs
      simp only at hs
      rcases constructNamespace_ok hNS with ⟨_, hns⟩ | ⟨_, hns⟩ |
        ⟨r2, d2, _, _, _, hns⟩ <;> rw [hns] at hs
      · exact absurd hs (by simp)
      · rw [← Option.some.inj hs]
        rfl
      · rw [← Option.some.inj hs]
        exact normalizePath_idem_none d2
    · intro s hs
      simp only at hs
      rcases constructVersion_ok hV with ⟨_, hv2⟩ | ⟨_, hv2⟩ |
        ⟨r2, d2, _, _, _, hv2⟩ <;> rw [hv2] at hs
      · exact absurd hs (by simp)
      · rw [← Option.some.inj hs]
        rfl
      · rw [← Option.some.inj hs]
        exact jsTrim_idem d2
  have hspfix : ∀ s, sp = some s → (∀ z, s ≠ '/' :: z) →
      normalizePath (some subpathFilter) s = s := by
    intro s hs hz
    rcases constructSubpath_ok hSP with ⟨_, hsp2⟩ | ⟨_, hsp2⟩ |
      ⟨r2, d2, _, _, _, hsp2⟩ <;> rw [hsp2] at hs
    · exact absurd hs (by simp)
    · rw [← Option.some.inj hs]
      rfl
    · exact normalizePath_out_fix (Option.some.inj hs) hz
  have hqcanon : constructQualifiers q = .ok q :=
    constructQualifiers_canonical hQ
  have hfacts : p.type = t ∧ p.qualifiers = q ∧ p.subpath = sp ∧
      canonFields p ∧
      ((typeKnown t = true ∧ (typeValidate t p true).isOk ∧
        p = typeNormalize t ⟨t, ns, n, v, q, sp⟩) ∨ typeKnown t = false) := by
    rcases hcase with ⟨hk, hpe, hval2⟩ | ⟨hk, hpe⟩
    · exact ⟨by rw [hpe, typeNormalize_type],
        by rw [hpe, typeNormalize_qualifiers],
        by rw [hpe, typeNormalize_subpath],
        by rw [hpe]; exact typeNormalize_canonFields hk _ hcanon,
        Or.inl ⟨hk, hval2, hpe⟩⟩
    · exact ⟨by rw [hpe], by rw [hpe], by rw [hpe],
        by rw [hpe]; exact hcanon, Or.inr hk⟩
  obtain ⟨hptype, hpq, hpsub, hpcanon, hbranch⟩ := hfacts
  obtain ⟨hc1, hc2, hc3, hc4⟩ := hpcanon
  have e1 : constructType (some p.type) = .ok (some p.type) := by
    rw [hptype]
    exact constructType_id htne (hptype ▸ hpt) htfix htyVal
  have e2 : constructNamespace p.nspace = .ok p.nspace := by
    cases hns : p.nspace with
    | none => exact constructNamespace_id_deg none (Or.inl rfl)
    | some s =>
      by_cases hse : s = []
      · subst hse
        exact constructNamespace_id_deg (some []) (Or.inr rfl)
      · exact constructNamespace_id hse (hpns s hns) (hc3 s hns)
  have e3 : constructName (some p.name) = .ok (some p.name) :=
    constructName_id hc2 hpn hc1
  have e4 : constructVersion p.version = .ok p.version := by
    cases hv2 : p.version with
    | none => exact constructVersion_id_deg none (Or.inl rfl)
    | some s =>
      by_cases hse : s = []
      · subst hse
        exact constructVersion_id_deg (some []) (Or.inr rfl)
      · exact constructVersion_id hse (hpv s hv2) (hc4 s hv2)
  have e5 : constructQualifiers p.qualifiers = .ok p.qualifiers := by
    rw [hpq]
    exact hqcanon
  have e6 : constructSubpath p.subpath = .ok p.subpath := by
    cases hsp2 : p.subpath with
    | none => exact constructSubpath_id_deg none (Or.inl rfl)
    | some s =>
      by_cases hse : s = []
      · subst hse
        exact constructSubpath_id_deg (some []) (Or.inr rfl)
      · refine constructSubpath_id hse (hpsp s hsp2) ?_
        refine hspfix s (by rw [← hpsub]; exact hsp2) ?_
        intro z
        exact hpss s z hsp2
  simp only [construct, Bind.bind, Except.bind, e1, e2, e3, e4, e5, e6]
  rcases hbranch with ⟨hk, hval2, hpe⟩ | hk
  · rw [if_pos (show typeKnown p.type = true by rw [hptype]; exact hk)]
    have hidem : typeNormalize p.type
        ⟨p.type, p.nspace, p.name, p.version, p.qualifiers, p.subpath⟩ = p := by
      have heta : (⟨p.type, p.nspace, p.name, p.version, p.qualifiers,
          p.subpath⟩ : PackageURL) = p := rfl
      rw [heta, hptype]
      conv_lhs => rw [hpe]
      rw [typeNormalize_idem hk]
      exact hpe.symm
    rw [hidem]
    obtain ⟨b2, hb2⟩ := except_isOk_exists hval2
    have hb3 : typeValidate p.type p true = .ok b2 := by
      rw [hptype]
      exact hb2
    rw [hb3]
    rfl
  · rw [if_neg (show ¬ typeKnown p.type = true by
      rw [hptype, hk]; exact Bool.noConfusion)]
    rfl

/-- Witness for C2 at a concrete purl: npm with a raw namespace Scope,
name Name, version 1.0 and qualifier K=' v '; the stored canonical fields
reconstruct the identical instance. -/
theorem C2_canonical_reconstruct_witness :
    construct (some (lc "npm")) (some (lc "Scope")) (some (lc "Name"))
        (some (lc "1.0")) (some [(lc "K", lc " v ")]) none =
      .ok ⟨lc "npm", some (lc "scope"), lc "name", some (lc "1.0"),
        some [(lc "k", lc "v")], none⟩ ∧
    construct (some (lc "npm")) (some (lc "scope")) (some (lc "name"))
        (some (lc "1.0")) (some [(lc "k", lc "v")]) none =
      .ok ⟨lc "npm", some (lc "scope"), lc "name", some (lc "1.0"),
        some [(lc "k", lc "v")], none⟩ :=
  ⟨by decide,
    C2_canonical_reconstruct (some (lc "npm")) (some (lc "Scope"))
      (some (lc "Name")) (some (lc "1.0")) (some [(lc "K", lc " v ")]) none
      ⟨lc "npm", some (lc "scope"), lc "name", some (lc "1.0"),
        some [(lc "k", lc "v")], none⟩
      (by decide) (by decide) (by decide)
      (fun s hs => by rw [← Option.some.inj hs]; decide)
      (fun s hs => by rw [← Option.some.inj hs]; decide)
      (fun s hs => by simp at hs)
      (fun s z hs => by simp at hs)⟩

/-! ## decodePct inverts the keep-set percent-encoders -/

theorem hexVal_hexDigitUpper {b : Nat} (hb : b < 16) :
    hexVal? (hexDigitUpper b) = some b := by
  interval_cases b <;> decide

theorem decodePctGo_pct1 (f : Nat) (h1 h2 : Char) (t : LC) (d1 d2 : Nat)
    (hh1 : hexVal? h1 = some d1) (hh2 : hexVal? h2 = some d2)
    (hb : 16 * d1 + d2 < 0x80) :
    decodePctGo (f + 1) ('%' :: h1 :: h2 :: t) =
      (Char.ofNat (16 * d1 + d2) :: ·) <$> decodePctGo f t := by
  conv_lhs => unfold decodePctGo
  simp only [hh1, hh2, Bind.bind, Option.bind]
  rw [if_pos hb]

theorem decodePctGo_pct2 (f : Nat) (h1 h2 h3 h4 : Char) (t : LC)
    (d1 d2 d3 d4 : Nat)
    (hh1 : hexVal? h1 = some d1) (hh2 : hexVal? h2 = some d2)
    (hh3 : hexVal? h3 = some d3) (hh4 : hexVal? h4 = some d4)
    (hb : 0xC2 ≤ 16 * d1 + d2 ∧ 16 * d1 + d2 < 0xE0)
    (hb2 : 0x80 ≤ 16 * d3 + d4 ∧ 16 * d3 + d4 < 0xC0) :
    decodePctGo (f + 1) ('%' :: h1 :: h2 :: '%' :: h3 :: h4 :: t) =
      (Char.ofNat ((16 * d1 + d2 - 0xC0) * 0x40 + (16 * d3 + d4 - 0x80)) :: ·)
        <$> decodePctGo f t := by
  conv_lhs => unfold decodePctGo
  simp only [hh1, hh2, hh3, hh4, Bind.bind, Option.bind]
  rw [if_neg (by omega), if_neg (by omega), if_pos (by omega), if_pos hb2]

theorem decodePctGo_pct3 (f : Nat) (h1 h2 h3 h4 h5 h6 : Char) (t : LC)
    (d1 d2 d3 d4 d5 d6 : Nat)
    (hh1 : hexVal? h1 = some d1) (hh2 : hexVal? h2 = some d2)
    (hh3 : hexVal? h3 = some d3) (hh4 : hexVal? h4 = some d4)
    (hh5 : hexVal? h5 = some d5) (hh6 : hexVal? h6 = some d6)
    (hb : 0xE0 ≤ 16 * d1 + d2 ∧ 16 * d1 + d2 < 0xF0)
    (hb2 : (if 16 * d1 + d2 = 0xE0 then 0xA0 else 0x80) ≤ 16 * d3 + d4 ∧
      16 * d3 + d4 < (if 16 * d1 + d2 = 0xED then 0xA0 else 0xC0))
    (hb3 : 0x80 ≤ 16 * d5 + d6 ∧ 16 * d5 + d6 < 0xC0) :
    decodePctGo (f + 1)
        ('%' :: h1 :: h2 :: '%' :: h3 :: h4 :: '%' :: h5 :: h6 :: t) =
      (Char.ofNat ((16 * d1 + d2 - 0xE0) * 0x1000 +
        (16 * d3 + d4 - 0x80) * 0x40 + (16 * d5 + d6 - 0x80)) :: ·)
        <$> decodePctGo f t := by
  conv_lhs => unfold decodePctGo
  simp only [hh1, hh2, hh3, hh4, hh5, hh6, Bind.bind, Option.bind]
  rw [if_neg (by omega), if_neg (by omega), if_neg (by omega),
    if_pos (by omega), if_pos ⟨hb2, hb3⟩]

theorem decodePctGo_pct4 (f : Nat) (h1 h2 h3 h4 h5 h6 h7 h8 : Char) (t : LC)
    (d1 d2 d3 d4 d5 d6 d7 d8 : Nat)
    (hh1 : hexVal? h1 = some d1) (hh2 : hexVal? h2 = some d2)
    (hh3 : hexVal? h3 = some d3) (hh4 : hexVal? h4 = some d4)
    (hh5 : hexVal? h5 = some d5) (hh6 : hexVal? h6 = some d6)
    (hh7 : hexVal? h7 = some d7) (hh8 : hexVal? h8 = some d8)
    (hb : 0xF0 ≤ 16 * d1 + d2 ∧ 16 * d1 + d2 < 0xF5)
    (hb2 : (if 16 * d1 + d2 = 0xF0 then 0x90 else 0x80) ≤ 16 * d3 + d4 ∧
      16 * d3 + d4 < (if 16 * d1 + d2 = 0xF4 then 0x90 else 0xC0))
    (hb3 : 0x80 ≤ 16 * d5 + d6 ∧ 16 * d5 + d6 < 0xC0)
    (hb4 : 0x80 ≤ 16 * d7 + d8 ∧ 16 * d7 + d8 < 0xC0) :
    decodePctGo (f + 1)
        ('%' :: h1 :: h2 :: '%' :: h3 :: h4 :: '%' :: h5 :: h6 ::
          '%' :: h7 :: h8 :: t) =
      (Char.ofNat ((16 * d1 + d2 - 0xF0) * 0x40000 +
        (16 * d3 + d4 - 0x80) * 0x1000 + (16 * d5 + d6 - 0x80) * 0x40 +
        (16 * d7 + d8 - 0x80)) :: ·) <$> decodePctGo f t := by
  conv_lhs => unfold decodePctGo
  simp only [hh1, hh2, hh3, hh4, hh5, hh6, hh7, hh8, Bind.bind, Option.bind]
  rw [if_neg (by omega), if_neg (by omega), if_neg (by omega),
    if_neg (by omega), if_pos (by omega), if_pos ⟨hb2, hb3, hb4⟩]

theorem unreservedURI_ne_pct {c : Char} (h : isUnreservedURI c = true)
    (he : c = '%') : False := by
  subst he
  exact absurd h (by decide)

theorem decodePctGo_encKeep {K : List Char} (hK : '%' ∉ K) :
    ∀ (s : LC) (f : Nat), (encKeep K s).length ≤ f →
      decodePctGo f (encKeep K s) = some s := by
  intro s
  induction s with
  | nil =>
    intro f _
    have he : encKeep K ([] : LC) = [] := rfl
    rw [he]
    cases f <;> rfl
  | cons c s ih =>
    intro f hf
    rw [encKeep_cons] at hf ⊢
    by_cases hkeep : (c ∈ K || isUnreservedURI c) = true
    · have henc : encCharKeep K c = [c] := by
        simp only [encCharKeep]
        rw [if_pos hkeep]
      rw [henc] at hf ⊢
      have hcne : c ≠ '%' := by
        intro he
        rcases Bool.or_eq_true_iff.mp hkeep with h | h
        · exact hK (he ▸ (by simpa using h))
        · exact unreservedURI_ne_pct h he
      rw [List.singleton_append] at hf ⊢
      cases f with
      | zero => simp at hf
      | succ f2 =>
        rw [decodePctGo_cons_ne f2 c _ hcne,
          ih f2 (by simp only [List.length_cons] at hf; omega)]
        rfl
    · have henc : encCharKeep K c = (utf8Enc c.toNat).flatMap pctTriplet := by
        simp only [encCharKeep]
        rw [if_neg hkeep]
      rw [henc] at hf ⊢
      by_cases h1 : c.toNat < 0x80
      · have hu : utf8Enc c.toNat = [c.toNat] := by
          simp only [utf8Enc]
          rw [if_pos h1]
        rw [hu] at hf ⊢
        simp only [List.flatMap_cons, List.flatMap_nil, List.append_nil,
          pctTriplet, List.cons_append, List.nil_append, List.length_cons]
          at hf ⊢
        cases f with
        | zero => omega
        | succ f2 =>
          rw [decodePctGo_pct1 f2 _ _ _ (c.toNat / 16) (c.toNat % 16)
            (hexVal_hexDigitUpper (by omega)) (hexVal_hexDigitUpper (by omega))
            (by omega),
            ih f2 (by omega)]
          have harith : 16 * (c.toNat / 16) + c.toNat % 16 = c.toNat := by
            omega
          rw [harith, Char.ofNat_toNat]
          rfl
      · by_cases h2 : c.toNat < 0x800
        · have hu : utf8Enc c.toNat =
              [0xC0 + c.toNat / 0x40, 0x80 + c.toNat % 0x40] := by
            simp only [utf8Enc]
            rw [if_neg h1, if_pos h2]
          rw [hu] at hf ⊢
          simp only [List.flatMap_cons, List.flatMap_nil, List.append_nil,
            pctTriplet, List.cons_append, List.nil_append, List.length_cons]
            at hf ⊢
          cases f with
          | zero => omega
          | succ f2 =>
            have e1 : (0xC0 + c.toNat / 0x40) / 16 < 16 := by omega
            have e2 : (0x80 + c.toNat % 0x40) / 16 < 16 := by omega
            rw [decodePctGo_pct2 f2 _ _ _ _ _
              ((0xC0 + c.toNat / 0x40) / 16) ((0xC0 + c.toNat / 0x40) % 16)
              ((0x80 + c.toNat % 0x40) / 16) ((0x80 + c.toNat % 0x40) % 16)
              (hexVal_hexDigitUpper (by omega))
              (hexVal_hexDigitUpper (by omega))
              (hexVal_hexDigitUpper (by omega))
              (hexVal_hexDigitUpper (by omega))
              (by omega) (by omega),
              ih f2 (by omega)]
            have harith : (16 * ((0xC0 + c.toNat / 0x40) / 16) +
                (0xC0 + c.toNat / 0x40) % 16 - 0xC0) * 0x40 +
                (16 * ((0x80 + c.toNat % 0x40) / 16) +
                (0x80 + c.toNat % 0x40) % 16 - 0x80) = c.toNat := by
              omega
            rw [harith, Char.ofNat_toNat]
            rfl
        · by_cases h3 : c.toNat < 0x10000
          · have hu : utf8Enc c.toNat =
                [0xE0 + c.toNat / 0x1000, 0x80 + c.toNat / 0x40 % 0x40,
                  0x80 + c.toNat % 0x40] := by
              simp only [utf8Enc]
              rw [if_neg h1, if_neg h2, if_pos h3]
            rw [hu] at hf ⊢
            simp only [List.flatMap_cons, List.flatMap_nil, List.append_nil,
              pctTriplet, List.cons_append, List.nil_append, List.length_cons]
              at hf ⊢
            cases f with
            | zero => omega
            | succ f2 =>
              have hval := char_valid c
              rw [decodePctGo_pct3 f2 _ _ _ _ _ _ _
                ((0xE0 + c.toNat / 0x1000) / 16) ((0xE0 + c.toNat / 0x1000) % 16)
                ((0x80 + c.toNat / 0x40 % 0x40) / 16)
                ((0x80 + c.toNat / 0x40 % 0x40) % 16)
                ((0x80 + c.toNat % 0x40) / 16) ((0x80 + c.toNat % 0x40) % 16)
                (hexVal_hexDigitUpper (by omega))
                (hexVal_hexDigitUpper (by omega))
                (hexVal_hexDigitUpper (by omega))
                (hexVal_hexDigitUpper (by omega))
                (hexVal_hexDigitUpper (by omega))
                (hexVal_hexDigitUpper (by omega))
                (by omega)
                (by constructor <;> split <;> omega)
                (by omega),
                ih f2 (by omega)]
              have harith : (16 * ((0xE0 + c.toNat / 0x1000) / 16) +
                  (0xE0 + c.toNat / 0x1000) % 16 - 0xE0) * 0x1000 +
                  (16 * ((0x80 + c.toNat / 0x40 % 0x40) / 16) +
                  (0x80 + c.toNat / 0x40 % 0x40) % 16 - 0x80) * 0x40 +
                  (16 * ((0x80 + c.toNat % 0x40) / 16) +
                  (0x80 + c.toNat % 0x40) % 16 - 0x80) = c.toNat := by
                omega
              rw [harith, Char.ofNat_toNat]
              rfl
          · have hval := char_valid c
            have h4 : c.toNat < 0x110000 := by
              rcases hval with hv | hv <;> omega
            have hu : utf8Enc c.toNat =
                [0xF0 + c.toNat / 0x40000, 0x80 + c.toNat / 0x1000 % 0x40,
                  0x80 + c.toNat / 0x40 % 0x40, 0x80 + c.toNat % 0x40] := by
              simp only [utf8Enc]
              rw [if_neg h1, if_neg h2, if_neg h3]
            rw [hu] at hf ⊢
            simp only [List.flatMap_cons, List.flatMap_nil, List.append_nil,
              pctTriplet, List.cons_append, List.nil_append, List.length_cons]
              at hf ⊢
            cases f with
            | zero => omega
            | succ f2 =>
              rw [decodePctGo_pct4 f2 _ _ _ _ _ _ _ _ _
                ((0xF0 + c.toNat / 0x40000) / 16)
                ((0xF0 + c.toNat / 0x40000) % 16)
                ((0x80 + c.toNat / 0x1000 % 0x40) / 16)
                ((0x80 + c.toNat / 0x1000 % 0x40) % 16)
                ((0x80 + c.toNat / 0x40 % 0x40) / 16)
                ((0x80 + c.toNat / 0x40 % 0x40) % 16)
                ((0x80 + c.toNat % 0x40) / 16) ((0x80 + c.toNat % 0x40) % 16)
                (hexVal_hexDigitUpper (by omega))
                (hexVal_hexDigitUpper (by omega))
                (hexVal_hexDigitUpper (by omega))
                (hexVal_hexDigitUpper (by omega))
                (hexVal_hexDigitUpper (by omega))
                (hexVal_hexDigitUpper (by omega))
                (hexVal_hexDigitUpper (by omega))
                (hexVal_hexDigitUpper (by omega))
                (by omega)
                (by constructor <;> split <;> omega)
                (by omega) (by omega),
                ih f2 (by omega)]
              have harith : (16 * ((0xF0 + c.toNat / 0x40000) / 16) +
                  (0xF0 + c.toNat / 0x40000) % 16 - 0xF0) * 0x40000 +
                  (16 * ((0x80 + c.toNat / 0x1000 % 0x40) / 16) +
                  (0x80 + c.toNat / 0x1000 % 0x40) % 16 - 0x80) * 0x1000 +
                  (16 * ((0x80 + c.toNat / 0x40 % 0x40) / 16) +
                  (0x80 + c.toNat / 0x40 % 0x40) % 16 - 0x80) * 0x40 +
                  (16 * ((0x80 + c.toNat % 0x40) / 16) +
                  (0x80 + c.toNat % 0x40) % 16 - 0x80) = c.toNat := by
                omega
              rw [harith, Char.ofNat_toNat]
              rfl

theorem decodePct_encKeep {K : List Char} (hK : '%' ∉ K) (s : LC) :
    decodePct (encKeep K s) = some s :=
  decodePctGo_encKeep hK s (encKeep K s).length (le_refl _)

/-! ## URLSearchParams decoding inverts the encoders -/

theorem pctBytesGo_cons_ne (f : Nat) (c : Char) (t : LC) (hc : c ≠ '%') :
    pctBytesGo (f + 1) (c :: t) = utf8Enc c.toNat ++ pctBytesGo f t := by
  conv_lhs => unfold pctBytesGo
  rw [if_neg hc]

theorem pctBytesGo_triplet (f : Nat) (h1 h2 : Char) (t : LC) (d1 d2 : Nat)
    (hh1 : hexVal? h1 = some d1) (hh2 : hexVal? h2 = some d2) :
    pctBytesGo (f + 1) ('%' :: h1 :: h2 :: t) =
      (16 * d1 + d2) :: pctBytesGo f t := by
  conv_lhs => unfold pctBytesGo
  rw [if_pos rfl]
  simp only [hh1, hh2]

theorem pctBytesGo_fuel :
    ∀ n (s : LC) f g, s.length ≤ n → s.length ≤ f → s.length ≤ g →
      pctBytesGo f s = pctBytesGo g s := by
  intro n
  induction n with
  | zero =>
    intro s f g hn _ _
    have hs : s = [] := by cases s <;> simp_all
    subst hs
    cases f <;> cases g <;> rfl
  | succ n ih =>
    intro s f g hn hf hg
    match s with
    | [] => cases f <;> cases g <;> rfl
    | c :: rest =>
      simp only [List.length_cons] at hn hf hg
      match f, g with
      | f2 + 1, g2 + 1 =>
        conv_lhs => unfold pctBytesGo
        conv_rhs => unfold pctBytesGo
        by_cases hc : c = '%'
        · rw [if_pos hc, if_pos hc]
          match rest with
          | h1 :: h2 :: t =>
            simp only [List.length_cons] at hn hf hg
            cases hv1 : hexVal? h1 <;> cases hv2 : hexVal? h2 <;>
              simp only [hv1, hv2] <;>
              first
              | rw [ih t f2 g2 (by omega) (by omega) (by omega)]
              | rw [ih (h1 :: h2 :: t) f2 g2 (by simp; omega)
                  (by simp; omega) (by simp; omega)]
          | [h1] =>
            simp only [List.length_cons, List.length_nil] at hn hf hg
            rw [ih [h1] f2 g2 (by simp; omega) (by simp; omega)
              (by simp; omega)]
          | [] =>
            rw [ih [] f2 g2 (by simp) (by simp) (by simp)]
        · rw [if_neg hc, if_neg hc,
            ih rest f2 g2 (by omega) (by omega) (by omega)]

theorem pctBytes_cons_ne (c : Char) (t : LC) (hc : c ≠ '%') :
    pctBytes (c :: t) = utf8Enc c.toNat ++ pctBytes t := by
  simp only [pctBytes, List.length_cons]
  rw [pctBytesGo_cons_ne t.length c t hc]

theorem pctBytes_triplet (h1 h2 : Char) (t : LC) (d1 d2 : Nat)
    (hh1 : hexVal? h1 = some d1) (hh2 : hexVal? h2 = some d2) :
    pctBytes ('%' :: h1 :: h2 :: t) = (16 * d1 + d2) :: pctBytes t := by
  simp only [pctBytes, List.length_cons]
  rw [pctBytesGo_triplet (t.length + 1 + 1) h1 h2 t d1 d2 hh1 hh2,
    pctBytesGo_fuel t.length t (t.length + 1 + 1) t.length (le_refl _)
      (by omega) (le_refl _)]

theorem pctBytes_triplets (bs : List Nat) (hbs : ∀ b ∈ bs, b < 0x100) :
    ∀ rest : LC, pctBytes (bs.flatMap pctTriplet ++ rest) =
      bs ++ pctBytes rest := by
  induction bs with
  | nil => intro rest; simp
  | cons b bs2 ih =>
    intro rest
    have hb : b < 0x100 := hbs b (List.mem_cons_self _ _)
    simp only [List.flatMap_cons, pctTriplet, List.cons_append,
      List.append_assoc, List.nil_append]
    rw [pctBytes_triplet _ _ _ (b / 16) (b % 16)
      (hexVal_hexDigitUpper (by omega)) (hexVal_hexDigitUpper (by omega)),
      ih (fun b2 hb2 => hbs b2 (List.mem_cons_of_mem _ hb2)) rest]
    have harith : 16 * (b / 16) + b % 16 = b := by omega
    rw [harith]

theorem pctBytes_encKeep {K : List Char} (hK : '%' ∉ K) (v : LC) :
    pctBytes (encKeep K v) = utf8Bytes v := by
  induction v with
  | nil => rfl
  | cons c s ih =>
    rw [encKeep_cons]
    have hgoal : utf8Bytes (c :: s) = utf8Enc c.toNat ++ utf8Bytes s := by
      simp [utf8Bytes]
    rw [hgoal]
    by_cases hkeep : (c ∈ K || isUnreservedURI c) = true
    · have henc : encCharKeep K c = [c] := by
        simp only [encCharKeep]
        rw [if_pos hkeep]
      have hcne : c ≠ '%' := by
        intro he
        rcases Bool.or_eq_true_iff.mp hkeep with h | h
        · exact hK (he ▸ (by simpa using h))
        · exact unreservedURI_ne_pct h he
      rw [henc, List.singleton_append, pctBytes_cons_ne c _ hcne, ih]
    · have henc : encCharKeep K c = (utf8Enc c.toNat).flatMap pctTriplet := by
        simp only [encCharKeep]
        rw [if_neg hkeep]
      have hbytes : ∀ b ∈ utf8Enc c.toNat, b < 0x100 := by
        intro b hb
        apply utf8Enc_byte_lt _ b hb
        rcases char_valid c with hv | hv <;> omega
      rw [henc, pctBytes_triplets _ hbytes _, ih]

theorem pctBytes_no_pct {s : LC} (hp : '%' ∉ s) :
    pctBytes s = utf8Bytes s := by
  induction s with
  | nil => rfl
  | cons c t ih =>
    have hc : c ≠ '%' := fun he => hp (he ▸ List.mem_cons_self _ _)
    have ht : '%' ∉ t := fun hm => hp (List.mem_cons_of_mem _ hm)
    rw [pctBytes_cons_ne c t hc, ih ht]
    simp [utf8Bytes]

theorem utf8LossyGo_b1 (f : Nat) (b : Nat) (t : List Nat) (hb : b < 0x80) :
    utf8LossyGo (f + 1) (b :: t) = Char.ofNat b :: utf8LossyGo f t := by
  conv_lhs => unfold utf8LossyGo
  rw [if_pos hb]

theorem utf8LossyGo_b2 (f : Nat) (b b2 : Nat) (t : List Nat)
    (hb : 0xC2 ≤ b ∧ b < 0xE0) (hb2 : 0x80 ≤ b2 ∧ b2 < 0xC0) :
    utf8LossyGo (f + 1) (b :: b2 :: t) =
      Char.ofNat ((b - 0xC0) * 0x40 + (b2 - 0x80)) :: utf8LossyGo f t := by
  conv_lhs => unfold utf8LossyGo
  rw [if_neg (by omega), if_neg (by omega), if_pos (by omega)]
  try dsimp only
  rw [if_pos hb2]

theorem utf8LossyGo_b3 (f : Nat) (b b2 b3 : Nat) (t : List Nat)
    (hb : 0xE0 ≤ b ∧ b < 0xF0)
    (hb2 : (if b = 0xE0 then 0xA0 else 0x80) ≤ b2 ∧
      b2 < (if b = 0xED then 0xA0 else 0xC0))
    (hb3 : 0x80 ≤ b3 ∧ b3 < 0xC0) :
    utf8LossyGo (f + 1) (b :: b2 :: b3 :: t) =
      Char.ofNat ((b - 0xE0) * 0x1000 + (b2 - 0x80) * 0x40 + (b3 - 0x80)) ::
        utf8LossyGo f t := by
  conv_lhs => unfold utf8LossyGo
  rw [if_neg (by omega), if_neg (by omega), if_neg (by omega),
    if_pos (by omega)]
  try dsimp only
  rw [if_pos hb2]
  try dsimp only
  rw [if_pos hb3]

theorem utf8LossyGo_b4 (f : Nat) (b b2 b3 b4 : Nat) (t : List Nat)
    (hb : 0xF0 ≤ b ∧ b < 0xF5)
    (hb2 : (if b = 0xF0 then 0x90 else 0x80) ≤ b2 ∧
      b2 < (if b = 0xF4 then 0x90 else 0xC0))
    (hb3 : 0x80 ≤ b3 ∧ b3 < 0xC0) (hb4 : 0x80 ≤ b4 ∧ b4 < 0xC0) :
    utf8LossyGo (f + 1) (b :: b2 :: b3 :: b4 :: t) =
      Char.ofNat ((b - 0xF0) * 0x40000 + (b2 - 0x80) * 0x1000 +
        (b3 - 0x80) * 0x40 + (b4 - 0x80)) :: utf8LossyGo f t := by
  conv_lhs => unfold utf8LossyGo
  rw [if_neg (by omega), if_neg (by omega), if_neg (by omega),
    if_neg (by omega), if_pos (by omega)]
  try dsimp only
  rw [if_pos hb2]
  try dsimp only
  rw [if_pos hb3]
  try dsimp only
  rw [if_pos hb4]

theorem utf8LossyGo_utf8Bytes :
    ∀ (v : LC) (f : Nat), (utf8Bytes v).length ≤ f →
      utf8LossyGo f (utf8Bytes v) = v := by
  intro v
  induction v with
  | nil =>
    intro f _
    cases f <;> rfl
  | cons c s ih =>
    intro f hf
    have hgoal : utf8Bytes (c :: s) = utf8Enc c.toNat ++ utf8Bytes s := by
      simp [utf8Bytes]
    rw [hgoal] at hf ⊢
    by_cases h1 : c.toNat < 0x80
    · have hu : utf8Enc c.toNat = [c.toNat] := by
        simp only [utf8Enc]
        rw [if_pos h1]
      rw [hu] at hf ⊢
      simp only [List.singleton_append, List.length_cons] at hf ⊢
      cases f with
      | zero => omega
      | succ f2 =>
        rw [utf8LossyGo_b1 f2 c.toNat _ h1, ih f2 (by omega),
          Char.ofNat_toNat]
    · by_cases h2 : c.toNat < 0x800
      · have hu : utf8Enc c.toNat =
            [0xC0 + c.toNat / 0x40, 0x80 + c.toNat % 0x40] := by
          simp only [utf8Enc]
          rw [if_neg h1, if_pos h2]
        rw [hu] at hf ⊢
        simp only [List.cons_append, List.nil_append, List.length_cons]
          at hf ⊢
        cases f with
        | zero => omega
        | succ f2 =>
          rw [utf8LossyGo_b2 f2 _ _ _ (by omega) (by omega), ih f2 (by omega)]
          have harith : (0xC0 + c.toNat / 0x40 - 0xC0) * 0x40 +
              (0x80 + c.toNat % 0x40 - 0x80) = c.toNat := by omega
          rw [harith, Char.ofNat_toNat]
      · by_cases h3 : c.toNat < 0x10000
        · have hu : utf8Enc c.toNat =
              [0xE0 + c.toNat / 0x1000, 0x80 + c.toNat / 0x40 % 0x40,
                0x80 + c.toNat % 0x40] := by
            simp only [utf8Enc]
            rw [if_neg h1, if_neg h2, if_pos h3]
          rw [hu] at hf ⊢
          simp only [List.cons_append, List.nil_append, List.length_cons]
            at hf ⊢
          cases f with
          | zero => omega
          | succ f2 =>
            have hval := char_valid c
            rw [utf8LossyGo_b3 f2 _ _ _ _ (by omega)
              (by constructor <;> split <;> omega) (by omega), ih f2 (by omega)]
            have harith : (0xE0 + c.toNat / 0x1000 - 0xE0) * 0x1000 +
                (0x80 + c.toNat / 0x40 % 0x40 - 0x80) * 0x40 +
                (0x80 + c.toNat % 0x40 - 0x80) = c.toNat := by omega
            rw [harith, Char.ofNat_toNat]
        · have hval := char_valid c
          have h4 : c.toNat < 0x110000 := by
            rcases hval with hv | hv <;> omega
          have hu : utf8Enc c.toNat =
              [0xF0 + c.toNat / 0x40000, 0x80 + c.toNat / 0x1000 % 0x40,
                0x80 + c.toNat / 0x40 % 0x40, 0x80 + c.toNat % 0x40] := by
            simp only [utf8Enc]
            rw [if_neg h1, if_neg h2, if_neg h3]
          rw [hu] at hf ⊢
          simp only [List.cons_append, List.nil_append, List.length_cons]
            at hf ⊢
          cases f with
          | zero => omega
          | succ f2 =>
            rw [utf8LossyGo_b4 f2 _ _ _ _ _ (by omega)
              (by constructor <;> split <;> omega) (by omega) (by omega),
              ih f2 (by omega)]
            have harith : (0xF0 + c.toNat / 0x40000 - 0xF0) * 0x40000 +
                (0x80 + c.toNat / 0x1000 % 0x40 - 0x80) * 0x1000 +
                (0x80 + c.toNat / 0x40 % 0x40 - 0x80) * 0x40 +
                (0x80 + c.toNat % 0x40 - 0x80) = c.toNat := by omega
            rw [harith, Char.ofNat_toNat]

theorem utf8Lossy_utf8Bytes (v : LC) : utf8Lossy (utf8Bytes v) = v :=
  utf8LossyGo_utf8Bytes v (utf8Bytes v).length (le_refl _)

theorem map_id_of_forall {f : Char → Char} {s : LC}
    (h : ∀ c ∈ s, f c = c) : s.map f = s := by
  induction s with
  | nil => rfl
  | cons a t ih =>
    rw [List.map_cons, h a (List.mem_cons_self _ _),
      ih fun c hc => h c (List.mem_cons_of_mem _ hc)]

theorem formDecode_encKeep {K : List Char} (hK : '%' ∉ K) (hplus : '+' ∉ K)
    (v : LC) : formDecode (encKeep K v) = v := by
  simp only [formDecode]
  have hmap : (encKeep K v).map (fun c => if c = '+' then ' ' else c) =
      encKeep K v := by
    apply map_id_of_forall
    intro c hc
    rw [if_neg]
    intro he
    subst he
    rcases encKeep_chars hc with h | h | h | h
    · exact hplus h
    · exact absurd h (by decide)
    · exact absurd h (by decide)
    · exact absurd h (by decide)
  rw [hmap, pctBytes_encKeep hK v, utf8Lossy_utf8Bytes]

theorem formDecode_safe {k : LC} (hp : '%' ∉ k) (hplus : '+' ∉ k) :
    formDecode k = k := by
  simp only [formDecode]
  have hmap : k.map (fun c => if c = '+' then ' ' else c) = k := by
    apply map_id_of_forall
    intro c hc
    rw [if_neg]
    intro he
    subst he
    exact hplus hc
  rw [hmap, pctBytes_no_pct hp, utf8Lossy_utf8Bytes]



theorem parseUrlencoded_pairs (ps : List (LC × LC)) (hne : ps ≠ [])
    (hsafe : ∀ kv ∈ ps, '&' ∉ kv.1 ∧ '=' ∉ kv.1 ∧ '%' ∉ kv.1 ∧
      '+' ∉ kv.1 ∧ '&' ∉ kv.2) :
    parseUrlencoded (List.intercalate ['&']
        (ps.map fun kv => kv.1 ++ '=' :: kv.2)) =
      ps.map fun kv => (kv.1, formDecode kv.2) := by
  simp only [parseUrlencoded]
  rw [splitOnChar_intercalate '&' (ps.map fun kv => kv.1 ++ '=' :: kv.2)
    ?_ ?_]
  · clear hne
    revert hsafe
    induction ps with
    | nil => intro _; rfl
    | cons kv ps2 ih =>
      intro hsafe
      obtain ⟨h1, h2, h3, h4, h5⟩ := hsafe kv (List.mem_cons_self _ _)
      simp only [List.map_cons, List.filterMap_cons]
      rw [if_neg (by simp)]
      rw [firstIdx?_append_cons '=' kv.1 kv.2 h2]
      simp only [List.take_left, drop_append_cons]
      rw [formDecode_safe h3 h4,
        ih fun kv2 hm => hsafe kv2 (List.mem_cons_of_mem _ hm)]
  · intro seg hseg
    obtain ⟨kv, hkv, he⟩ := List.mem_map.mp hseg
    obtain ⟨h1, h2, _, _, h5⟩ := hsafe kv hkv
    subst he
    intro hmem
    rcases List.mem_append.mp hmem with hm | hm
    · exact h1 hm
    · rcases List.mem_cons.mp hm with hm | hm
      · exact absurd hm (by decide)
      · exact h5 hm
  · simp [hne]

/-! ## Character-set facts about the encoder outputs -/

theorem not_mem_encKeep {K : List Char} {s : LC} {c : Char} (hc : c ∉ K)
    (h1 : isUnreservedURI c = false) (h2 : c ≠ '%')
    (h3 : c ∉ lc "0123456789ABCDEF") : c ∉ encKeep K s := fun hm => by
  rcases encKeep_chars hm with h | h | h | h
  · exact hc h
  · rw [h1] at h
    exact Bool.noConfusion h
  · exact h2 h
  · exact h3 h

theorem encKeep_ascii {K : List Char} {s : LC} {c : Char}
    (hK : ∀ k ∈ K, 0x21 ≤ k.toNat ∧ k.toNat ≤ 0x7E) (h : c ∈ encKeep K s) :
    0x21 ≤ c.toNat ∧ c.toNat ≤ 0x7E := by
  rcases encKeep_chars h with h | h | h | h
  · exact hK c h
  · simp only [isUnreservedURI, Bool.or_eq_true, Bool.and_eq_true,
      decide_eq_true_eq] at h
    omega
  · subst h
    exact ⟨by decide, by decide⟩
  · have hall : ∀ x ∈ lc "0123456789ABCDEF",
        0x21 ≤ x.toNat ∧ x.toNat ≤ 0x7E := by decide
    exact hall c h

theorem encKeep_ne_nil {K : List Char} {s : LC} (h : s ≠ []) :
    encKeep K s ≠ [] := by
  cases s with
  | nil => exact absurd rfl h
  | cons c t =>
    rw [encKeep_cons]
    intro he
    have h1 := (List.append_eq_nil.mp he).1
    simp only [encCharKeep] at h1
    split at h1
    · exact List.noConfusion h1
    · have hb : utf8Enc c.toNat ≠ [] := by
        rcases char_valid c with hv | hv <;>
          · simp only [utf8Enc]
            split
            · simp
            · split
              · simp
              · split <;> simp
      cases hu : utf8Enc c.toNat with
      | nil => exact hb hu
      | cons b bs =>
        rw [hu] at h1
        simp only [List.flatMap_cons, pctTriplet] at h1
        exact List.noConfusion h1

/-! ## Transparency of the URL primitive on encoder output -/

theorem dropWhile_eq_self_of {p : Char → Bool} {l : LC}
    (h : ∀ c ∈ l, p c = false) : l.dropWhile p = l := by
  cases l with
  | nil => rfl
  | cons a t =>
    rw [List.dropWhile_cons, h a (List.mem_cons_self _ _)]
    simp

theorem dropTrailing_id {p : Char → Bool} {s : LC}
    (h : ∀ c ∈ s, p c = false) : dropTrailing p s = s := by
  simp only [dropTrailing]
  rw [dropWhile_eq_self_of fun c hc => h c (List.mem_reverse.mp hc),
    List.reverse_reverse]

theorem takeWhile_append_stop {p : Char → Bool} {a b : LC}
    (ha : ∀ c ∈ a, p c = true)
    (hb : match b with | [] => True | x :: _ => p x = false) :
    (a ++ b).takeWhile p = a := by
  induction a with
  | nil =>
    cases b with
    | nil => rfl
    | cons x t =>
      simp only [List.nil_append, List.takeWhile_cons]
      simp only at hb
      rw [hb]
      simp
  | cons c a2 ih =>
    simp only [List.cons_append, List.takeWhile_cons,
      ha c (List.mem_cons_self _ _), if_true]
    rw [ih fun c2 hc2 => ha c2 (List.mem_cons_of_mem _ hc2)]

theorem drop_length_append (a b : LC) : (a ++ b).drop a.length = b :=
  List.drop_left a b

theorem pctEncodeSet_id {pred : Char → Bool} {s : LC}
    (h : ∀ c ∈ s, pred c = false) : pctEncodeSet pred s = s := by
  induction s with
  | nil => rfl
  | cons c t ih =>
    simp only [pctEncodeSet, List.flatMap_cons]
    rw [h c (List.mem_cons_self _ _)]
    simp only [Bool.false_eq_true, if_false, List.singleton_append]
    have ih2 := ih fun c2 hc2 => h c2 (List.mem_cons_of_mem _ hc2)
    simp only [pctEncodeSet] at ih2
    rw [ih2]

theorem trimLeadingSlashes_id {s : LC}
    (h : match s with | [] => True | x :: _ => x ≠ '/') :
    trimLeadingSlashes s = s := by
  cases s with
  | nil => rfl
  | cons x t =>
    simp only at h
    simp only [trimLeadingSlashes, List.dropWhile_cons]
    rw [if_neg (by simpa using h)]

theorem isBlank_cons_false {c : Char} {t : LC} (h : isWsChar c = false) :
    isBlank (c :: t) = false := by
  simp [isBlank, h]

theorem inC0Set_false {c : Char} (h : 0x21 ≤ c.toNat ∧ c.toNat ≤ 0x7E) :
    inC0Set c = false := by
  simp only [inC0Set, Bool.or_eq_false_iff, decide_eq_false_iff_not]
  omega

theorem inQuerySet_false {c : Char} (h : 0x21 ≤ c.toNat ∧ c.toNat ≤ 0x7E)
    (h2 : c ≠ '"' ∧ c ≠ '#' ∧ c ≠ '<' ∧ c ≠ '>') : inQuerySet c = false := by
  simp only [inQuerySet, Bool.or_eq_false_iff, decide_eq_false_iff_not,
    inC0Set_false h]
  refine ⟨⟨⟨⟨⟨trivial, ?_⟩, h2.1⟩, h2.2.1⟩, h2.2.2.1⟩, h2.2.2.2⟩
  intro he
  rw [he] at h
  exact absurd h.1 (by decide)

theorem inFragmentSet_false {c : Char} (h : 0x21 ≤ c.toNat ∧ c.toNat ≤ 0x7E)
    (h2 : c ≠ '"' ∧ c ≠ '<' ∧ c ≠ '>' ∧ c ≠ Char.ofNat 0x60) :
    inFragmentSet c = false := by
  simp only [inFragmentSet, Bool.or_eq_false_iff, decide_eq_false_iff_not,
    inC0Set_false h]
  refine ⟨⟨⟨⟨⟨trivial, ?_⟩, h2.1⟩, h2.2.1⟩, h2.2.2.1⟩, h2.2.2.2⟩
  intro he
  rw [he] at h
  exact absurd h.1 (by decide)

/-- Structure theorem for the modelled WHATWG URL parse on toStr-shaped
tails: a path of printable characters free of question mark and hash,
followed by an optional query and an optional fragment over the safe
charsets, splits back into exactly those parts. -/
theorem jsURLpkgTail_split (P : LC) (q f : Option LC)
    (hP : ∀ c ∈ P, (0x21 ≤ c.toNat ∧ c.toNat ≤ 0x7E) ∧ c ≠ '?' ∧ c ≠ '#')
    (hQ : ∀ Q c, q = some Q → c ∈ Q →
      (0x21 ≤ c.toNat ∧ c.toNat ≤ 0x7E) ∧ c ≠ '#' ∧ c ≠ '"' ∧ c ≠ '<' ∧ c ≠ '>')
    (hF : ∀ F, f = some F → F ≠ [] ∧ ∀ c ∈ F,
      (0x21 ≤ c.toNat ∧ c.toNat ≤ 0x7E) ∧ c ≠ '"' ∧ c ≠ '<' ∧ c ≠ '>' ∧
        c ≠ Char.ofNat 0x60) :
    jsURLpkgTail (P ++ optQuery q ++ optFrag f) =
      ⟨P, optSearch q, optFrag f⟩ := by
  have hPpath : pctEncodeSet inC0Set P = P :=
    pctEncodeSet_id fun c hc => inC0Set_false (hP c hc).1
  have hPtake : ∀ c ∈ P, (fun c => decide (c ≠ '?' ∧ c ≠ '#')) c = true :=
    fun c hc => decide_eq_true ⟨(hP c hc).2.1, (hP c hc).2.2⟩
  cases q with
  | none =>
    cases f with
    | none =>
      simp only [optQuery, optFrag, optSearch, List.append_nil]
      have hdrop : dropTrailing (fun c => decide (c.toNat ≤ 0x20)) P = P :=
        dropTrailing_id fun c hc => by
          simp only [decide_eq_false_iff_not]
          have := (hP c hc).1
          omega
      have hfil : P.filter
          (fun c => decide ¬(c.toNat = 0x9 ∨ c.toNat = 0xA ∨ c.toNat = 0xD)) = P :=
        List.filter_eq_self.mpr fun c hc => decide_eq_true (by
          have := (hP c hc).1
          omega)
      have htake : P.takeWhile (fun c => decide (c ≠ '?' ∧ c ≠ '#')) = P := by
        have h0 := takeWhile_append_stop (b := ([] : LC)) hPtake trivial
        simpa using h0
      simp only [jsURLpkgTail, hdrop, hfil, htake, List.drop_length, hPpath]
    | some F =>
      obtain ⟨hFne, hF'⟩ := hF F rfl
      simp only [optQuery, optFrag, optSearch, List.append_nil]
      have hbnd : ∀ c ∈ P ++ '#' :: F, 0x21 ≤ c.toNat ∧ c.toNat ≤ 0x7E := by
        intro c hc
        simp only [List.mem_append, List.mem_cons] at hc
        rcases hc with h | h | h
        · exact (hP c h).1
        · rw [h]; exact ⟨by decide, by decide⟩
        · exact (hF' c h).1
      have hdrop : dropTrailing (fun c => decide (c.toNat ≤ 0x20))
          (P ++ '#' :: F) = P ++ '#' :: F :=
        dropTrailing_id fun c hc => by
          simp only [decide_eq_false_iff_not]
          have := hbnd c hc
          omega
      have hfil : (P ++ '#' :: F).filter
          (fun c => decide ¬(c.toNat = 0x9 ∨ c.toNat = 0xA ∨ c.toNat = 0xD)) =
          P ++ '#' :: F :=
        List.filter_eq_self.mpr fun c hc => decide_eq_true (by
          have := hbnd c hc
          omega)
      have htake : (P ++ '#' :: F).takeWhile
          (fun c => decide (c ≠ '?' ∧ c ≠ '#')) = P :=
        takeWhile_append_stop (p := fun c => decide (c ≠ '?' ∧ c ≠ '#'))
          (b := '#' :: F) hPtake
          (show (fun c => decide (c ≠ '?' ∧ c ≠ '#')) '#' = false by decide)
      have hFenc : pctEncodeSet inFragmentSet F = F :=
        pctEncodeSet_id fun c hc => inFragmentSet_false (hF' c hc).1 (hF' c hc).2
      simp only [jsURLpkgTail, hdrop, hfil, htake, drop_length_append, hPpath,
        hFenc, if_neg hFne]
  | some Q =>
    have hQ' := fun c hc => hQ Q c rfl hc
    cases f with
    | none =>
      simp only [optQuery, optFrag, optSearch, List.append_nil]
      have hbnd : ∀ c ∈ P ++ '?' :: Q, 0x21 ≤ c.toNat ∧ c.toNat ≤ 0x7E := by
        intro c hc
        simp only [List.mem_append, List.mem_cons] at hc
        rcases hc with h | h | h
        · exact (hP c h).1
        · rw [h]; exact ⟨by decide, by decide⟩
        · exact (hQ' c h).1
      have hdrop : dropTrailing (fun c => decide (c.toNat ≤ 0x20))
          (P ++ '?' :: Q) = P ++ '?' :: Q :=
        dropTrailing_id fun c hc => by
          simp only [decide_eq_false_iff_not]
          have := hbnd c hc
          omega
      have hfil : (P ++ '?' :: Q).filter
          (fun c => decide ¬(c.toNat = 0x9 ∨ c.toNat = 0xA ∨ c.toNat = 0xD)) =
          P ++ '?' :: Q :=
        List.filter_eq_self.mpr fun c hc => decide_eq_true (by
          have := hbnd c hc
          omega)
      have htake : (P ++ '?' :: Q).takeWhile
          (fun c => decide (c ≠ '?' ∧ c ≠ '#')) = P :=
        takeWhile_append_stop (p := fun c => decide (c ≠ '?' ∧ c ≠ '#'))
          (b := '?' :: Q) hPtake
          (show (fun c => decide (c ≠ '?' ∧ c ≠ '#')) '?' = false by decide)
      have hqtake : Q.takeWhile (fun c => decide (c ≠ '#')) = Q := by
        have h0 := takeWhile_append_stop (b := ([] : LC))
          (fun c hc => decide_eq_true (hQ' c hc).2.1) trivial
        simpa using h0
      have hQenc : pctEncodeSet inQuerySet Q = Q :=
        pctEncodeSet_id fun c hc =>
          inQuerySet_false (hQ' c hc).1
            ⟨(hQ' c hc).2.2.1, (hQ' c hc).2.1, (hQ' c hc).2.2.2.1,
              (hQ' c hc).2.2.2.2⟩
      simp only [jsURLpkgTail, hdrop, hfil, htake, drop_length_append, hPpath,
        hqtake, List.drop_length, hQenc]
    | some F =>
      obtain ⟨hFne, hF'⟩ := hF F rfl
      simp only [optQuery, optFrag, optSearch]
      have hS1 : P ++ '?' :: Q ++ '#' :: F = P ++ ('?' :: (Q ++ '#' :: F)) := by
        simp
      rw [hS1]
      have hbnd : ∀ c ∈ P ++ ('?' :: (Q ++ '#' :: F)),
          0x21 ≤ c.toNat ∧ c.toNat ≤ 0x7E := by
        intro c hc
        simp only [List.mem_append, List.mem_cons] at hc
        rcases hc with h | h | h | h | h
        · exact (hP c h).1
        · rw [h]; exact ⟨by decide, by decide⟩
        · exact (hQ' c h).1
        · rw [h]; exact ⟨by decide, by decide⟩
        · exact (hF' c h).1
      have hdrop : dropTrailing (fun c => decide (c.toNat ≤ 0x20))
          (P ++ ('?' :: (Q ++ '#' :: F))) = P ++ ('?' :: (Q ++ '#' :: F)) :=
        dropTrailing_id fun c hc => by
          simp only [decide_eq_false_iff_not]
          have := hbnd c hc
          omega
      have hfil : (P ++ ('?' :: (Q ++ '#' :: F))).filter
          (fun c => decide ¬(c.toNat = 0x9 ∨ c.toNat = 0xA ∨ c.toNat = 0xD)) =
          P ++ ('?' :: (Q ++ '#' :: F)) :=
        List.filter_eq_self.mpr fun c hc => decide_eq_true (by
          have := hbnd c hc
          omega)
      have htake : (P ++ ('?' :: (Q ++ '#' :: F))).takeWhile
          (fun c => decide (c ≠ '?' ∧ c ≠ '#')) = P :=
        takeWhile_append_stop (p := fun c => decide (c ≠ '?' ∧ c ≠ '#'))
          (b := '?' :: (Q ++ '#' :: F)) hPtake
          (show (fun c => decide (c ≠ '?' ∧ c ≠ '#')) '?' = false by decide)
      have hqtake : (Q ++ '#' :: F).takeWhile (fun c => decide (c ≠ '#')) = Q :=
        takeWhile_append_stop (p := fun c => decide (c ≠ '#')) (b := '#' :: F)
          (fun c hc => decide_eq_true (hQ' c hc).2.1)
          (show (fun c => decide (c ≠ '#')) '#' = false by decide)
      have hQenc : pctEncodeSet inQuerySet Q = Q :=
        pctEncodeSet_id fun c hc =>
          inQuerySet_false (hQ' c hc).1
            ⟨(hQ' c hc).2.2.1, (hQ' c hc).2.1, (hQ' c hc).2.2.2.1,
              (hQ' c hc).2.2.2.2⟩
      have hFenc : pctEncodeSet inFragmentSet F = F :=
        pctEncodeSet_id fun c hc => inFragmentSet_false (hF' c hc).1 (hF' c hc).2
      simp only [jsURLpkgTail, hdrop, hfil, htake, drop_length_append, hPpath,
        hqtake, hQenc, hFenc, if_neg hFne]

/-! ## The parse and construct stages of the round trip (C1) -/


theorem decodeE_encKeep {K : List Char} (hK : '%' ∉ K) (s : LC) :
    decodeE (encKeep K s) = .ok s := by
  simp [decodeE, decodePct_encKeep hK]

theorem head_prop_append {P : Char → Prop} {a : LC} (b : LC) (hne : a ≠ [])
    (h : ∀ c ∈ a, P c) :
    match a ++ b with | [] => True | x :: _ => P x := by
  cases a with
  | nil => exact absurd rfl hne
  | cons c t => exact h c (List.mem_cons_self _ _)

theorem encKeep_out_safe {K : List Char}
    (hK : ∀ k ∈ K, k = '/' ∨ k = ':' ∨ k = '+') {s : LC} {c : Char}
    (hc : c ∈ encKeep K s) :
    (0x21 ≤ c.toNat ∧ c.toNat ≤ 0x7E) ∧ c ≠ '?' ∧ c ≠ '#' ∧ c ≠ '@' ∧
      c ≠ '"' ∧ c ≠ '<' ∧ c ≠ '>' ∧ c ≠ Char.ofNat 0x60 ∧ c ≠ '&' ∧
      c ≠ '=' := by
  rcases encKeep_chars hc with h | h | h | h
  · rcases hK c h with rfl | rfl | rfl <;> exact ⟨⟨by decide, by decide⟩,
      by decide, by decide, by decide, by decide, by decide, by decide,
      by decide, by decide, by decide⟩
  · have hb : 0x21 ≤ c.toNat ∧ c.toNat ≤ 0x7E := by
      simp only [isUnreservedURI, Bool.or_eq_true, Bool.and_eq_true,
        decide_eq_true_eq] at h
      omega
    refine ⟨hb, ?_, ?_, ?_, ?_, ?_, ?_, ?_, ?_, ?_⟩ <;>
      exact fun he => absurd (he ▸ h) (by decide)
  · subst h
    exact ⟨⟨by decide, by decide⟩, by decide, by decide, by decide, by decide,
      by decide, by decide, by decide, by decide, by decide⟩
  · have hall : ∀ x ∈ lc "0123456789ABCDEF",
        ((0x21 ≤ x.toNat ∧ x.toNat ≤ 0x7E) ∧ x ≠ '?' ∧ x ≠ '#' ∧ x ≠ '@' ∧
          x ≠ '"' ∧ x ≠ '<' ∧ x ≠ '>' ∧ x ≠ Char.ofNat 0x60 ∧ x ≠ '&' ∧
          x ≠ '=') := by decide
    exact hall c h

theorem qualifierKeyChar_facts {c : Char} (h : isQualifierKeyChar c = true) :
    (0x21 ≤ c.toNat ∧ c.toNat ≤ 0x7E) ∧ c ≠ '#' ∧ c ≠ '"' ∧ c ≠ '<' ∧
      c ≠ '>' ∧ c ≠ '&' ∧ c ≠ '=' ∧ c ≠ '%' ∧ c ≠ '+' := by
  simp only [isQualifierKeyChar, Bool.or_eq_true, Bool.and_eq_true,
    decide_eq_true_eq] at h
  have hb : 0x21 ≤ c.toNat ∧ c.toNat ≤ 0x7E := by omega
  refine ⟨hb, ?_, ?_, ?_, ?_, ?_, ?_, ?_, ?_⟩ <;>
    exact fun he => by
      rw [he] at h
      exact absurd h (by decide)

theorem mem_intercalate_sep {s : Char} {L : List LC} {c : Char}
    (h : c ∈ List.intercalate [s] L) : c = s ∨ ∃ l ∈ L, c ∈ l := by
  induction L with
  | nil => simp [List.intercalate] at h
  | cons a t ih =>
    cases t with
    | nil =>
      simp only [List.intercalate] at h
      simp at h
      exact Or.inr ⟨a, by simp, by simpa using h⟩
    | cons b t2 =>
      rw [intercalate_cons2 s a (b :: t2) (by simp)] at h
      rcases List.mem_append.mp h with h1 | h1
      · exact Or.inr ⟨a, by simp, h1⟩
      · rcases List.mem_cons.mp h1 with h2 | h2
        · exact Or.inl h2
        · rcases ih h2 with h3 | ⟨l, hl, hc⟩
          · exact Or.inl h3
          · exact Or.inr ⟨l, by simp [hl], hc⟩

theorem mem_encodeQualifiers_chars {m : List (LC × LC)} {c : Char}
    (hkeys : ∀ kv ∈ m, kv.1.all isQualifierKeyChar = true)
    (hc : c ∈ encodeQualifiers m) :
    (0x21 ≤ c.toNat ∧ c.toNat ≤ 0x7E) ∧ c ≠ '#' ∧ c ≠ '"' ∧ c ≠ '<' ∧
      c ≠ '>' := by
  simp only [encodeQualifiers] at hc
  rcases mem_intercalate_sep hc with rfl | ⟨l, hl, hcl⟩
  · exact ⟨⟨by decide, by decide⟩, by decide, by decide, by decide, by decide⟩
  · obtain ⟨k, hk, he⟩ := List.mem_map.mp hl
    subst he
    have hkm : k ∈ m.map (·.1) := (jsSortKeys_perm _).mem_iff.mp hk
    obtain ⟨kv, hkv, hke⟩ := List.mem_map.mp hkm
    rcases List.mem_append.mp hcl with h1 | h1
    · have hq : isQualifierKeyChar c = true := by
        have := hkeys kv hkv
        rw [List.all_eq_true] at this
        exact this c (hke ▸ h1)
      obtain ⟨hb, h2, h3, h4, h5, _⟩ := qualifierKeyChar_facts hq
      exact ⟨hb, h2, h3, h4, h5⟩
    · rcases List.mem_cons.mp h1 with rfl | h2
      · exact ⟨⟨by decide, by decide⟩, by decide, by decide, by decide,
          by decide⟩
      · simp only [encodeQualifierValue] at h2
        split at h2
        · rw [encodeWithColonAndForwardSlash_eq] at h2
          obtain ⟨hb, _, hh, _, hq, hl2, hg, _⟩ :=
            encKeep_out_safe (by decide) h2
          exact ⟨hb, hh, hq, hl2, hg⟩
        · simp at h2

theorem formDecode_encodeQualifierValue (v : LC) :
    formDecode (encodeQualifierValue v) = v := by
  simp only [encodeQualifierValue]
  by_cases hv : v.length ≠ 0
  · rw [if_pos hv, encodeWithColonAndForwardSlash_eq,
      formDecode_encKeep (by decide) (by decide)]
  · rw [if_neg hv]
    simp only [ne_eq, not_not, List.length_eq_zero] at hv
    subst hv
    rfl

theorem normalizeQualifiers_props {e m : List (LC × LC)}
    (hm : normalizeQualifiers e = some m) :
    (∀ kv ∈ m, jsToLower kv.1 = kv.1 ∧ jsTrim kv.2 = kv.2 ∧ kv.2 ≠ []) ∧
      (m.map (·.1)).Nodup ∧ m ≠ [] := by
  rw [normalizeQualifiers_eq] at hm
  split at hm
  · simp at hm
  · rename_i hall
    simp only [Option.some.injEq] at hm
    subst hm
    refine ⟨?_, foldl_nqStep_nodup e [] (by simp), ?_⟩
    · intro kv hkv
      rcases foldl_nqStep_mem e [] kv hkv with h1 | ⟨kv0, _, hk, hv2, hne⟩
      · simp at h1
      · exact ⟨by rw [hk]; exact jsToLower_idem _,
          by rw [hv2]; exact jsTrim_idem _, hne⟩
    · intro hnil
      exact hall (foldl_nqStep_eq_nil e [] hnil).2

theorem normalizeQualifiers_fix {m : List (LC × LC)}
    (hkeys : ∀ kv ∈ m, jsToLower kv.1 = kv.1)
    (hvals : ∀ kv ∈ m, jsTrim kv.2 = kv.2 ∧ kv.2 ≠ [])
    (hnd : (m.map (·.1)).Nodup) (hne : m ≠ []) :
    normalizeQualifiers m = some m := by
  rw [normalizeQualifiers_eq]
  rw [if_neg ?hall]
  · rw [foldl_nqStep_canonical m [] hkeys hvals (by simp) hnd]
    simp
  case hall =>
    intro hall
    cases hme : m with
    | nil => exact hne hme
    | cons kv0 t0 =>
      have h1 := hall kv0 (hme ▸ List.mem_cons_self _ _)
      have h2 := hvals kv0 (hme ▸ List.mem_cons_self _ _)
      rw [h2.1] at h1
      exact h2.2 h1

theorem graph_perm {m : List (LC × LC)} (hnd : (m.map (·.1)).Nodup)
    {ks : List LC} (hp : List.Perm ks (m.map (·.1))) :
    List.Perm (ks.map fun k => (k, (jsGet m k).getD [])) m := by
  have h1 : (m.map (·.1)).map (fun k => (k, (jsGet m k).getD [])) = m := by
    rw [List.map_map]
    calc m.map ((fun k => (k, (jsGet m k).getD [])) ∘ (·.1))
        = m.map id := List.map_congr_left fun kv hkv => by
          simp only [Function.comp_apply, id_eq, mem_jsGet hnd hkv,
            Option.getD_some]
      _ = m := List.map_id m
  have h2 := hp.map fun k => (k, (jsGet m k).getD [])
  exact h2.trans (by rw [h1])

theorem validateStartsWithoutNumber_true_cases (label : String) (v : LC) :
    validateStartsWithoutNumber label v true = .ok true ∨
    ∃ e, validateStartsWithoutNumber label v true = .error e := by
  cases v with
  | nil => exact Or.inl rfl
  | cons c t =>
    by_cases hd : 0x30 ≤ c.toNat ∧ c.toNat ≤ 0x39
    · refine Or.inr ⟨JsErr.error ("Invalid purl: " ++ label ++ " \"" ++
        String.mk (c :: t) ++ "\" cannot start with a number."), ?_⟩
      simp [validateStartsWithoutNumber, hd]
    · exact Or.inl (by simp [validateStartsWithoutNumber, hd])

theorem validateQualifierKey_true_cases (key : LC) :
    (validateQualifierKey key true = .ok true ∧
      key.all isQualifierKeyChar = true) ∨
    ∃ e, validateQualifierKey key true = .error e := by
  rcases validateStartsWithoutNumber_true_cases "qualifier" key with hc | ⟨e, hc⟩
  · simp only [validateQualifierKey, hc, Bind.bind, Except.bind]
    cases hall : key.all isQualifierKeyChar with
    | true => exact Or.inl ⟨rfl, rfl⟩
    | false => exact Or.inr ⟨_, rfl⟩
  · simp only [validateQualifierKey, hc, Bind.bind, Except.bind]
    exact Or.inr ⟨e, rfl⟩

theorem validateQualifiers_ok_keys {m : List (LC × LC)}
    (h : (validateQualifiers (some m) true).isOk) :
    ∀ kv ∈ m, validateQualifierKey kv.1 true = .ok true ∧
      kv.1.all isQualifierKeyChar = true := by
  simp only [validateQualifiers] at h
  induction m with
  | nil => simp
  | cons kv t ih =>
    intro kv2 hkv2
    rw [List.foldlM_cons] at h
    rcases validateQualifierKey_true_cases kv.1 with ⟨hk, hall⟩ | ⟨e, hk⟩
    · have hstep : (if (true : Bool) = false then
          (pure false : Except JsErr Bool)
          else validateQualifierKey kv.1 true) = .ok true := by
        rw [if_neg (by simp), hk]
      rw [hstep] at h
      simp only [Bind.bind, Except.bind] at h
      rcases List.mem_cons.mp hkv2 with rfl | hmem
      · exact ⟨hk, hall⟩
      · exact ih h kv2 hmem
    · have hstep : (if (true : Bool) = false then
          (pure false : Except JsErr Bool)
          else validateQualifierKey kv.1 true) = .error e := by
        rw [if_neg (by simp), hk]
      rw [hstep] at h
      simp [Bind.bind, Except.bind, Except.isOk, Except.toBool] at h

theorem validateQualifiers_all_ok {m : List (LC × LC)}
    (h : ∀ kv ∈ m, validateQualifierKey kv.1 true = .ok true) :
    validateQualifiers (some m) true = .ok true := by
  simp only [validateQualifiers]
  induction m with
  | nil => rfl
  | cons kv t ih =>
    rw [List.foldlM_cons]
    have hstep : (if (true : Bool) = false then
        (pure false : Except JsErr Bool)
        else validateQualifierKey kv.1 true) = .ok true := by
      rw [if_neg (by simp), h kv (List.mem_cons_self _ _)]
    rw [hstep]
    simp only [Bind.bind, Except.bind]
    exact ih fun kv2 hm => h kv2 (List.mem_cons_of_mem _ hm)

theorem typeValidate_congr (t : LC) {p1 p2 : PackageURL} (thr : Bool)
    (hns : p1.nspace = p2.nspace) (hn : p1.name = p2.name)
    (hv : p1.version = p2.version)
    (hch : conanChannelTruthy p1.qualifiers = conanChannelTruthy p2.qualifiers)
    (hqn : (p1.qualifiers = none) = (p2.qualifiers = none)) :
    typeValidate t p1 thr = typeValidate t p2 thr := by
  simp only [typeValidate, conanValidate, golangValidate, pubValidate, hns,
    hn, hv, hch, hqn]

theorem constructType_enc {t : LC} (hne : t ≠ [])
    (hfix : jsToLower (jsTrim t) = t)
    (hval : (validateType (some t) true).isOk) :
    constructType (some (encKeep [] t)) = .ok (some t) := by
  obtain ⟨b, hb⟩ := except_isOk_exists hval
  have he : encKeep ([] : List Char) t ≠ [] := encKeep_ne_nil hne
  have hdec : decodeE (encKeep ([] : List Char) t) = .ok t :=
    decodeE_encKeep (by decide) t
  simp [constructType, isNonEmptyStringO, he, normalizeType, hdec, hfix,
    Bind.bind, Except.bind, Pure.pure, Except.pure, hb]

theorem constructName_enc {n : LC} (hne : n ≠ []) (hfix : jsTrim n = n) :
    constructName (some (encKeep [] n)) = .ok (some n) := by
  have he : encKeep ([] : List Char) n ≠ [] := encKeep_ne_nil hne
  have hdec : decodeE (encKeep ([] : List Char) n) = .ok n :=
    decodeE_encKeep (by decide) n
  simp [constructName, isNonEmptyStringO, he, normalizeName, hdec, hfix, hne,
    Bind.bind, Except.bind, Pure.pure, Except.pure, validateName,
    validateRequired, isNullishOrEmptyStringO]

theorem constructNamespace_enc {ns : LC} (hne : ns ≠ [])
    (hfix : normalizePath none ns = ns) :
    constructNamespace (some (encKeep ['/', ':'] ns)) = .ok (some ns) := by
  have he : encKeep ['/', ':'] ns ≠ [] := encKeep_ne_nil hne
  have hdec : decodeE (encKeep ['/', ':'] ns) = .ok ns :=
    decodeE_encKeep (by decide) ns
  simp [constructNamespace, isNonEmptyStringO, he, normalizeNamespace, hdec,
    hfix, Bind.bind, Except.bind, Pure.pure, Except.pure, validateNamespace]

theorem constructVersion_enc {v : LC} (hne : v ≠ []) (hfix : jsTrim v = v) :
    constructVersion (some (encKeep ['+', ':'] v)) = .ok (some v) := by
  have he : encKeep ['+', ':'] v ≠ [] := encKeep_ne_nil hne
  have hdec : decodeE (encKeep ['+', ':'] v) = .ok v :=
    decodeE_encKeep (by decide) v
  simp [constructVersion, isNonEmptyStringO, he, normalizeVersion, hdec, hfix,
    Bind.bind, Except.bind, Pure.pure, Except.pure, validateVersion]

theorem constructSubpath_enc {sp : LC} (hne : sp ≠ [])
    (hfix : normalizePath (some subpathFilter) sp = sp) :
    constructSubpath (some (encKeep ['/'] sp)) = .ok (some sp) := by
  have he : encKeep ['/'] sp ≠ [] := encKeep_ne_nil hne
  have hdec : decodeE (encKeep ['/'] sp) = .ok sp :=
    decodeE_encKeep (by decide) sp
  simp [constructSubpath, isNonEmptyStringO, he, normalizeSubpath, hdec, hfix,
    Bind.bind, Except.bind, Pure.pure, Except.pure, validateSubpath]

theorem pkg_colon (R : LC) : lc "pkg:" ++ R = lc "pkg" ++ ':' :: R := rfl

theorem toStr_decomp (p : PackageURL) (ht : p.type ≠ []) (hn : p.name ≠ [])
    (hns : p.nspace ≠ some []) (hv : p.version ≠ some [])
    (hsp : p.subpath ≠ some []) :
    toStr p = lc "pkg:" ++
      ((encKeep [] p.type ++ '/' ::
        ((match p.nspace with
          | some ns => encKeep ['/', ':'] ns ++ '/' :: encKeep [] p.name
          | none => encKeep [] p.name) ++
         (match p.version with
          | some v => '@' :: encKeep ['+', ':'] v
          | none => []))) ++
       (match p.qualifiers with
        | some m => '?' :: encodeQualifiers m
        | none => []) ++
       (match p.subpath with
        | some sp => '#' :: encKeep ['/'] sp
        | none => [])) := by
  have hT : PurlComponentEncoder (some p.type) = encKeep [] p.type := by
    simp only [PurlComponentEncoder]
    rw [if_pos (by simpa using ht)]
    rfl
  have hN : PurlComponentEncoder (some p.name) = encKeep [] p.name := by
    simp only [PurlComponentEncoder]
    rw [if_pos (by simpa using hn)]
    rfl
  simp only [toStr, hT, hN]
  cases hns2 : p.nspace with
  | none =>
    cases hv2 : p.version with
    | none =>
      cases hq2 : p.qualifiers with
      | none =>
        cases hsp2 : p.subpath with
        | none => simp
        | some sp =>
          have hspne : sp ≠ [] := fun he => hsp (by rw [hsp2, he])
          have hspe : encodeSubpath (some sp) = encKeep ['/'] sp := by
            simp only [encodeSubpath]
            rw [if_pos (by simpa using hspne)]
            exact encodeWithForwardSlash_eq sp
          simp [hspe, hspne]
      | some m =>
        cases hsp2 : p.subpath with
        | none => simp
        | some sp =>
          have hspne : sp ≠ [] := fun he => hsp (by rw [hsp2, he])
          have hspe : encodeSubpath (some sp) = encKeep ['/'] sp := by
            simp only [encodeSubpath]
            rw [if_pos (by simpa using hspne)]
            exact encodeWithForwardSlash_eq sp
          simp [hspe, hspne]
    | some v =>
      have hvne : v ≠ [] := fun he => hv (by rw [hv2, he])
      have hve : encodeVersion (some v) = encKeep ['+', ':'] v := by
        simp only [encodeVersion]
        rw [if_pos (by simpa using hvne)]
        exact encodeWithColonAndPlusSign_eq v
      cases hq2 : p.qualifiers with
      | none =>
        cases hsp2 : p.subpath with
        | none => simp [hve, hvne]
        | some sp =>
          have hspne : sp ≠ [] := fun he => hsp (by rw [hsp2, he])
          have hspe : encodeSubpath (some sp) = encKeep ['/'] sp := by
            simp only [encodeSubpath]
            rw [if_pos (by simpa using hspne)]
            exact encodeWithForwardSlash_eq sp
          simp [hve, hvne, hspe, hspne]
      | some m =>
        cases hsp2 : p.subpath with
        | none => simp [hve, hvne]
        | some sp =>
          have hspne : sp ≠ [] := fun he => hsp (by rw [hsp2, he])
          have hspe : encodeSubpath (some sp) = encKeep ['/'] sp := by
            simp only [encodeSubpath]
            rw [if_pos (by simpa using hspne)]
            exact encodeWithForwardSlash_eq sp
          simp [hve, hvne, hspe, hspne]
  | some ns =>
    have hnsne : ns ≠ [] := fun he => hns (by rw [hns2, he])
    have hnse : encodeNamespace (some ns) = encKeep ['/', ':'] ns := by
      simp only [encodeNamespace]
      rw [if_pos (by simpa using hnsne)]
      exact encodeWithColonAndForwardSlash_eq ns
    cases hv2 : p.version with
    | none =>
      cases hq2 : p.qualifiers with
      | none =>
        cases hsp2 : p.subpath with
        | none => simp [hnse, hnsne]
        | some sp =>
          have hspne : sp ≠ [] := fun he => hsp (by rw [hsp2, he])
          have hspe : encodeSubpath (some sp) = encKeep ['/'] sp := by
            simp only [encodeSubpath]
            rw [if_pos (by simpa using hspne)]
            exact encodeWithForwardSlash_eq sp
          simp [hnse, hnsne, hspe, hspne]
      | some m =>
        cases hsp2 : p.subpath with
        | none => simp [hnse, hnsne]
        | some sp =>
          have hspne : sp ≠ [] := fun he => hsp (by rw [hsp2, he])
          have hspe : encodeSubpath (some sp) = encKeep ['/'] sp := by
            simp only [encodeSubpath]
            rw [if_pos (by simpa using hspne)]
            exact encodeWithForwardSlash_eq sp
          simp [hnse, hnsne, hspe, hspne]
    | some v =>
      have hvne : v ≠ [] := fun he => hv (by rw [hv2, he])
      have hve : encodeVersion (some v) = encKeep ['+', ':'] v := by
        simp only [encodeVersion]
        rw [if_pos (by simpa using hvne)]
        exact encodeWithColonAndPlusSign_eq v
      cases hq2 : p.qualifiers with
      | none =>
        cases hsp2 : p.subpath with
        | none => simp [hnse, hnsne, hve, hvne]
        | some sp =>
          have hspne : sp ≠ [] := fun he => hsp (by rw [hsp2, he])
          have hspe : encodeSubpath (some sp) = encKeep ['/'] sp := by
            simp only [encodeSubpath]
            rw [if_pos (by simpa using hspne)]
            exact encodeWithForwardSlash_eq sp
          simp [hnse, hnsne, hve, hvne, hspe, hspne]
      | some m =>
        cases hsp2 : p.subpath with
        | none => simp [hnse, hnsne, hve, hvne]
        | some sp =>
          have hspne : sp ≠ [] := fun he => hsp (by rw [hsp2, he])
          have hspe : encodeSubpath (some sp) = encKeep ['/'] sp := by
            simp only [encodeSubpath]
            rw [if_pos (by simpa using hspne)]
            exact encodeWithForwardSlash_eq sp
          simp [hnse, hnsne, hve, hvne, hspe, hspne]

theorem toStr_decomp_opt (p : PackageURL) (ht : p.type ≠ []) (hn : p.name ≠ [])
    (hns : p.nspace ≠ some []) (hv : p.version ≠ some [])
    (hsp : p.subpath ≠ some []) :
    toStr p = lc "pkg:" ++
      ((encKeep [] p.type ++ '/' ::
        (optNsPre (p.nspace.map (encKeep ['/', ':'])) (encKeep [] p.name) ++
         optVer (p.version.map (encKeep ['+', ':'])))) ++
       optQuery (p.qualifiers.map encodeQualifiers) ++
       optFrag (p.subpath.map (encKeep ['/']))) := by
  rw [toStr_decomp p ht hn hns hv hsp]
  cases p.nspace <;> cases p.version <;> cases p.qualifiers <;>
    cases p.subpath <;> rfl

theorem match_opt_map {α β : Type} (o : Option α) (f : α → β) (g : β → LC) :
    (match o.map f with | some b => g b | none => ([] : LC)) =
      (match o with | some a => g (f a) | none => []) := by
  cases o <;> rfl

theorem key_safe {k : LC} (h : k.all isQualifierKeyChar = true) :
    '&' ∉ k ∧ '=' ∉ k ∧ '%' ∉ k ∧ '+' ∉ k := by
  rw [List.all_eq_true] at h
  refine ⟨fun hm => ?_, fun hm => ?_, fun hm => ?_, fun hm => ?_⟩
  · exact absurd rfl (qualifierKeyChar_facts (h '&' hm)).2.2.2.2.2.1
  · exact absurd rfl (qualifierKeyChar_facts (h '=' hm)).2.2.2.2.2.2.1
  · exact absurd rfl (qualifierKeyChar_facts (h '%' hm)).2.2.2.2.2.2.2.1
  · exact absurd rfl (qualifierKeyChar_facts (h '+' hm)).2.2.2.2.2.2.2.2

theorem amp_not_mem_encodeQualifierValue (v : LC) :
    '&' ∉ encodeQualifierValue v := by
  simp only [encodeQualifierValue]
  split
  · rw [encodeWithColonAndForwardSlash_eq]
    intro hm
    exact absurd rfl (encKeep_out_safe (by decide) hm).2.2.2.2.2.2.2.2.1
  · simp

theorem parseUrlencoded_encodeQualifiers {m : List (LC × LC)} (hm : m ≠ [])
    (hqk : ∀ kv ∈ m, kv.1.all isQualifierKeyChar = true) :
    parseUrlencoded (encodeQualifiers m) =
      (jsSortKeys (m.map (·.1))).map fun k => (k, (jsGet m k).getD []) := by
  have hkeys : ∀ k ∈ jsSortKeys (m.map (·.1)),
      k.all isQualifierKeyChar = true := by
    intro k hk
    have hkm : k ∈ m.map (·.1) := (jsSortKeys_perm _).mem_iff.mp hk
    obtain ⟨kv, hkv, hke⟩ := List.mem_map.mp hkm
    exact hke ▸ hqk kv hkv
  have hksne : jsSortKeys (m.map (·.1)) ≠ [] := by
    intro he
    have hp := jsSortKeys_perm (m.map (·.1))
    rw [he] at hp
    have := hp.length_eq
    cases hmc : m with
    | nil => exact hm hmc
    | cons kv t =>
      rw [hmc] at this
      simp at this
  have henc : encodeQualifiers m = List.intercalate ['&']
      (((jsSortKeys (m.map (·.1))).map
        (fun k => (k, encodeQualifierValue ((jsGet m k).getD [])))).map
        fun kv => kv.1 ++ '=' :: kv.2) := by
    simp only [encodeQualifiers, List.map_map]
    rfl
  rw [henc, parseUrlencoded_pairs _ (by simpa using hksne) ?hsafe]
  · rw [List.map_map]
    apply List.map_congr_left
    intro k hk
    simp only [Function.comp_apply]
    rw [formDecode_encodeQualifierValue]
  case hsafe =>
    intro kv hkv
    obtain ⟨k, hk, he⟩ := List.mem_map.mp hkv
    subst he
    obtain ⟨h1, h2, h3, h4⟩ := key_safe (hkeys k hk)
    exact ⟨h1, h2, h3, h4, amp_not_mem_encodeQualifierValue _⟩

theorem getLast?_append_ne (a b : LC) (h : b ≠ []) :
    (a ++ b).getLast? = b.getLast? := by
  rw [List.getLast?_append]
  cases hl : b.getLast? with
  | none => exact absurd (List.getLast?_eq_none_iff.mp hl) h
  | some x => rfl

set_option maxHeartbeats 2000000 in
theorem parseString_pkg (R : LC)
    (hR : match R with | [] => True | x :: _ => x ≠ '/') :
    parseString (lc "pkg:" ++ R) = parseTail (jsURLpkgTail R) := by
  show parseString ('p' :: 'k' :: 'g' :: ':' :: R) = _
  unfold parseString
  rw [isBlank_cons_false (by decide)]
  rw [if_neg (by simp)]
  have hfi : firstIdx? ':' ('p' :: 'k' :: 'g' :: ':' :: R) = some 3 := by
    simp [firstIdx?]
  rw [hfi]
  show parseTail (jsURLpkgTail (trimLeadingSlashes
    (('p' :: 'k' :: 'g' :: ':' :: R).drop (3 + 1)))) = _
  rw [show ('p' :: 'k' :: 'g' :: ':' :: R).drop (3 + 1) = R from rfl,
    trimLeadingSlashes_id hR]

theorem parseString_parts
    (T Nn : LC) (NS V Q F : Option LC)
    (hT : T ≠ []) (hNne : Nn ≠ [])
    (hTc : ∀ c ∈ T, (0x21 ≤ c.toNat ∧ c.toNat ≤ 0x7E) ∧ c ≠ '?' ∧ c ≠ '#' ∧
      c ≠ '/' ∧ c ≠ '@')
    (hNc : ∀ c ∈ Nn, (0x21 ≤ c.toNat ∧ c.toNat ≤ 0x7E) ∧ c ≠ '?' ∧ c ≠ '#' ∧
      c ≠ '/' ∧ c ≠ '@')
    (hNSc : ∀ ns c, NS = some ns → c ∈ ns →
      (0x21 ≤ c.toNat ∧ c.toNat ≤ 0x7E) ∧ c ≠ '?' ∧ c ≠ '#' ∧ c ≠ '@')
    (hVc : ∀ v c, V = some v → c ∈ v →
      (0x21 ≤ c.toNat ∧ c.toNat ≤ 0x7E) ∧ c ≠ '?' ∧ c ≠ '#' ∧ c ≠ '@')
    (hQc : ∀ q2 c, Q = some q2 → c ∈ q2 →
      (0x21 ≤ c.toNat ∧ c.toNat ≤ 0x7E) ∧ c ≠ '#' ∧ c ≠ '"' ∧ c ≠ '<' ∧
        c ≠ '>')
    (hFc : ∀ f2, F = some f2 → f2 ≠ [] ∧ ∀ c ∈ f2,
      (0x21 ≤ c.toNat ∧ c.toNat ≤ 0x7E) ∧ c ≠ '"' ∧ c ≠ '<' ∧ c ≠ '>' ∧
        c ≠ Char.ofNat 0x60) :
    parseString (lc "pkg:" ++
      ((T ++ '/' :: (optNsPre NS Nn ++ optVer V)) ++ optQuery Q ++
        optFrag F)) =
      .ok ⟨some T, NS, some Nn, V, optRawQ Q, F⟩ := by
  have hTslash : '/' ∉ T := fun hm => absurd rfl (hTc '/' hm).2.2.2.1
  have hTat : '@' ∉ T := fun hm => absurd rfl (hTc '@' hm).2.2.2.2
  have hNslash : '/' ∉ Nn := fun hm => absurd rfl (hNc '/' hm).2.2.2.1
  have hNat : '@' ∉ Nn := fun hm => absurd rfl (hNc '@' hm).2.2.2.2
  have hP : ∀ c ∈ T ++ '/' :: (optNsPre NS Nn ++ optVer V),
      (0x21 ≤ c.toNat ∧ c.toNat ≤ 0x7E) ∧ c ≠ '?' ∧ c ≠ '#' := by
    intro c hc
    simp only [List.mem_append, List.mem_cons] at hc
    rcases hc with hc | rfl | hc | hc
    · exact ⟨(hTc c hc).1, (hTc c hc).2.1, (hTc c hc).2.2.1⟩
    · exact ⟨⟨by decide, by decide⟩, by decide, by decide⟩
    · cases hNS2 : NS with
      | none =>
        rw [hNS2] at hc
        simp only [optNsPre] at hc
        exact ⟨(hNc c hc).1, (hNc c hc).2.1, (hNc c hc).2.2.1⟩
      | some ns =>
        rw [hNS2] at hc
        simp only [optNsPre, List.mem_append, List.mem_cons] at hc
        rcases hc with hc | rfl | hc
        · exact ⟨(hNSc ns c hNS2 hc).1, (hNSc ns c hNS2 hc).2.1,
            (hNSc ns c hNS2 hc).2.2.1⟩
        · exact ⟨⟨by decide, by decide⟩, by decide, by decide⟩
        · exact ⟨(hNc c hc).1, (hNc c hc).2.1, (hNc c hc).2.2.1⟩
    · cases hV2 : V with
      | none =>
        rw [hV2] at hc
        simp [optVer] at hc
      | some v =>
        rw [hV2] at hc
        simp only [optVer, List.mem_cons] at hc
        rcases hc with rfl | hc
        · exact ⟨⟨by decide, by decide⟩, by decide, by decide⟩
        · exact ⟨(hVc v c hV2 hc).1, (hVc v c hV2 hc).2.1,
            (hVc v c hV2 hc).2.2.1⟩
  have hurl := jsURLpkgTail_split
    (T ++ '/' :: (optNsPre NS Nn ++ optVer V)) Q F hP hQc hFc
  have hhead : match (T ++ '/' :: (optNsPre NS Nn ++ optVer V)) ++
      optQuery Q ++ optFrag F with
      | [] => True | x :: _ => x ≠ '/' := by
    rw [show (T ++ '/' :: (optNsPre NS Nn ++ optVer V)) ++ optQuery Q ++
        optFrag F =
        T ++ ('/' :: (optNsPre NS Nn ++ optVer V) ++ optQuery Q ++
          optFrag F) from by simp]
    exact head_prop_append _ hT fun c hc => (hTc c hc).2.2.2.1
  rw [parseString_pkg _ hhead, hurl]
  unfold parseTail
  dsimp only
  have hrawq : (if (optSearch Q).length ≠ 0 then some (optSearch Q)
      else none) = optRawQ Q := by
    cases Q <;> rfl
  have hrawsp : (if (optFrag F).length ≠ 0 then some ((optFrag F).drop 1)
      else none) = F := by
    cases F with
    | none => rfl
    | some f2 => simp [optFrag]
  rw [hrawq, hrawsp]
  obtain ⟨x, hx⟩ : ∃ x, Nn.getLast? = some x := by
    cases hxe : Nn.getLast? with
    | none => exact absurd (List.getLast?_eq_none_iff.mp hxe) hNne
    | some y => exact ⟨y, rfl⟩
  have hxNn : x ∈ Nn := List.mem_of_mem_getLast? hx
  have hxs : x ≠ '/' := (hNc x hxNn).2.2.2.1
  cases V with
  | none =>
    cases NS with
    | none =>
      simp only [optVer, optNsPre, List.append_nil]
      rw [firstIdx?_append_cons '/' T Nn hTslash]
      rw [if_neg (by simp [List.length_eq_zero, hT])]
      dsimp only
      rw [List.take_left]
      have hat : lastIdx? '@' (T ++ '/' :: Nn) = none :=
        (lastIdx?_eq_none_iff _ _).mpr (by
          simp only [List.mem_append, List.mem_cons, not_or]
          exact ⟨hTat, by decide, hNat⟩)
      rw [hat]
      dsimp only
      rw [List.take_length, drop_append_cons T Nn]
      rw [(lastIdx?_eq_none_iff '/' Nn).mpr hNslash]
    | some ns =>
      simp only [optVer, optNsPre, List.append_nil]
      have hnsat : '@' ∉ ns := fun hm => absurd rfl (hNSc ns '@' rfl hm).2.2.2
      rw [firstIdx?_append_cons '/' T _ hTslash]
      rw [if_neg (by simp [List.length_eq_zero, hT])]
      dsimp only
      rw [List.take_left]
      have hat : lastIdx? '@' (T ++ '/' :: (ns ++ '/' :: Nn)) = none :=
        (lastIdx?_eq_none_iff _ _).mpr (by
          simp only [List.mem_append, List.mem_cons, not_or]
          exact ⟨hTat, by decide, hnsat, by decide, hNat⟩)
      rw [hat]
      dsimp only
      rw [List.take_length, drop_append_cons T _]
      rw [lastIdx?_append_cons '/' ns Nn hNslash]
      dsimp only
      rw [List.take_left, drop_append_cons ns Nn]
  | some v =>
    have hVat : '@' ∉ v := fun hm => absurd rfl (hVc v '@' rfl hm).2.2.2
    cases NS with
    | none =>
      simp only [optVer, optNsPre]
      rw [firstIdx?_append_cons '/' T _ hTslash]
      rw [if_neg (by simp [List.length_eq_zero, hT])]
      dsimp only
      rw [List.take_left]
      simp only [show T ++ '/' :: (Nn ++ '@' :: v) =
        (T ++ '/' :: Nn) ++ '@' :: v from by simp]
      rw [lastIdx?_append_cons '@' (T ++ '/' :: Nn) v hVat]
      dsimp only
      have hgd : ((T ++ '/' :: Nn) ++ '@' :: v).getD
          ((T ++ '/' :: Nn).length - 1) ' ' = x := by
        rw [getD_append_last _ _ '@' ' ' (by simp)]
        rw [show T ++ '/' :: Nn = (T ++ ['/']) ++ Nn from by simp]
        rw [getLast?_append_ne _ _ hNne, hx]
        rfl
      rw [if_neg fun hand => hxs (hgd ▸ hand.2)]
      dsimp only
      rw [List.take_left, drop_append_cons T Nn]
      rw [drop_append_cons (T ++ '/' :: Nn) v]
      rw [(lastIdx?_eq_none_iff '/' Nn).mpr hNslash]
    | some ns =>
      simp only [optVer, optNsPre]
      have hnsat : '@' ∉ ns := fun hm => absurd rfl (hNSc ns '@' rfl hm).2.2.2
      rw [firstIdx?_append_cons '/' T _ hTslash]
      rw [if_neg (by simp [List.length_eq_zero, hT])]
      dsimp only
      rw [List.take_left]
      simp only [show T ++ '/' :: ((ns ++ '/' :: Nn) ++ '@' :: v) =
        (T ++ '/' :: (ns ++ '/' :: Nn)) ++ '@' :: v from by simp]
      rw [lastIdx?_append_cons '@' (T ++ '/' :: (ns ++ '/' :: Nn)) v hVat]
      dsimp only
      have hgd : ((T ++ '/' :: (ns ++ '/' :: Nn)) ++ '@' :: v).getD
          ((T ++ '/' :: (ns ++ '/' :: Nn)).length - 1) ' ' = x := by
        rw [getD_append_last _ _ '@' ' ' (by simp)]
        rw [show T ++ '/' :: (ns ++ '/' :: Nn) =
          (T ++ '/' :: (ns ++ ['/'])) ++ Nn from by simp]
        rw [getLast?_append_ne _ _ hNne, hx]
        rfl
      rw [if_neg fun hand => hxs (hgd ▸ hand.2)]
      dsimp only
      rw [List.take_left, drop_append_cons T _]
      rw [drop_append_cons (T ++ '/' :: (ns ++ '/' :: Nn)) v]
      rw [lastIdx?_append_cons '/' ns Nn hNslash]
      dsimp only
      rw [List.take_left, drop_append_cons ns Nn]

/-! ## Claim C1 (round trip) -/


/-- C1 (amended): the round trip holds for every constructed instance whose
optional components are not stored as empty strings and whose stored subpath
does not begin with '/': parsing the serialized form back succeeds and
returns an instance with identical type, namespace, name, version and
subpath, and with the same qualifier mapping up to entry order (the reparse
returns the entries in sorted key order). -/
theorem C1_roundtrip
    (rt rns rn rv : Option LC) (rq : Option (List (LC × LC))) (rsp : Option LC)
    (p : PackageURL)
    (h : construct rt rns rn rv rq rsp = .ok p)
    (hnse : p.nspace ≠ some []) (hve : p.version ≠ some [])
    (hspe : p.subpath ≠ some [])
    (hpss : ∀ s z, p.subpath = some s → s ≠ '/' :: z) :
    ∃ p' : PackageURL, fromString (toStr p) = .ok p' ∧
      p'.type = p.type ∧ p'.nspace = p.nspace ∧ p'.name = p.name ∧
      p'.version = p.version ∧ p'.subpath = p.subpath ∧
      qualsPerm p'.qualifiers p.qualifiers := by
  obtain ⟨t, ns, n, v, q, sp, hT, hNS, hN, hV, hQ, hSP, hcase⟩ :=
    construct_ok_inv h
  obtain ⟨rT, dT, _, _, _, htyEq, htyVal⟩ := constructType_ok hT
  obtain ⟨rN2, dN, _, _, _, hnEq, hnNe⟩ := constructName_ok hN
  have hteq : t = jsToLower (jsTrim dT) := Option.some.inj htyEq
  have hneq : n = jsTrim dN := Option.some.inj hnEq
  have htne : t ≠ [] := validateType_isOk_ne htyVal
  have htfix : jsToLower (jsTrim t) = t := by
    rw [hteq]
    calc jsToLower (jsTrim (jsToLower (jsTrim dT)))
        = jsToLower (jsToLower (jsTrim (jsTrim dT))) := by
          rw [jsTrim_toLower_comm]
      _ = jsToLower (jsToLower (jsTrim dT)) := by rw [jsTrim_idem]
      _ = jsToLower (jsTrim dT) := jsToLower_idem _
  have hcanon : canonFields ⟨t, ns, n, v, q, sp⟩ := by
    refine ⟨?_, ?_, ?_, ?_⟩
    · rw [hneq]
      exact jsTrim_idem dN
    · rw [hneq]
      exact hnNe
    · intro s hs
      simp only at hs
      rcases constructNamespace_ok hNS with ⟨_, hns⟩ | ⟨_, hns⟩ |
        ⟨r2, d2, _, _, _, hns⟩ <;> rw [hns] at hs
      · exact absurd hs (by simp)
      · rw [← Option.some.inj hs]
        rfl
      · rw [← Option.some.inj hs]
        exact normalizePath_idem_none d2
    · intro s hs
      simp only at hs
      rcases constructVersion_ok hV with ⟨_, hv2⟩ | ⟨_, hv2⟩ |
        ⟨r2, d2, _, _, _, hv2⟩ <;> rw [hv2] at hs
      · exact absurd hs (by simp)
      · rw [← Option.some.inj hs]
        rfl
      · rw [← Option.some.inj hs]
        exact jsTrim_idem d2
  have hspfix : ∀ s, sp = some s → (∀ z, s ≠ '/' :: z) →
      normalizePath (some subpathFilter) s = s := by
    intro s hs hz
    rcases constructSubpath_ok hSP with ⟨_, hsp2⟩ | ⟨_, hsp2⟩ |
      ⟨r2, d2, _, _, _, hsp2⟩ <;> rw [hsp2] at hs
    · exact absurd hs (by simp)
    · rw [← Option.some.inj hs]
      rfl
    · exact normalizePath_out_fix (Option.some.inj hs) hz
  have hqprops : ∀ m, q = some m →
      (∀ kv ∈ m, jsToLower kv.1 = kv.1 ∧ jsTrim kv.2 = kv.2 ∧ kv.2 ≠ []) ∧
      (m.map (·.1)).Nodup ∧ m ≠ [] := by
    intro m hm
    obtain ⟨hcases, _⟩ := constructQualifiers_ok hQ
    rcases hcases with ⟨_, hq2⟩ | ⟨e, _, hq2⟩
    · rw [hq2] at hm
      exact absurd hm (by simp)
    · rw [hm] at hq2
      exact normalizeQualifiers_props hq2.symm
  have hqkeys : ∀ m, q = some m → ∀ kv ∈ m,
      validateQualifierKey kv.1 true = .ok true ∧
      kv.1.all isQualifierKeyChar = true := by
    intro m hm
    obtain ⟨_, hval⟩ := constructQualifiers_ok hQ
    rw [hm] at hval
    exact validateQualifiers_ok_keys hval
  have hfacts : p.type = t ∧ p.qualifiers = q ∧ p.subpath = sp ∧
      canonFields p ∧
      ((typeKnown t = true ∧ (typeValidate t p true).isOk ∧
        p = typeNormalize t ⟨t, ns, n, v, q, sp⟩) ∨
       (typeKnown t = false ∧ p = ⟨t, ns, n, v, q, sp⟩)) := by
    rcases hcase with ⟨hk, hpe, hval2⟩ | ⟨hk, hpe⟩
    · exact ⟨by rw [hpe, typeNormalize_type],
        by rw [hpe, typeNormalize_qualifiers],
        by rw [hpe, typeNormalize_subpath],
        by rw [hpe]; exact typeNormalize_canonFields hk _ hcanon,
        Or.inl ⟨hk, hval2, hpe⟩⟩
    · exact ⟨by rw [hpe], by rw [hpe], by rw [hpe],
        by rw [hpe]; exact hcanon, Or.inr ⟨hk, hpe⟩⟩
  obtain ⟨hptype, hpq, hpsub, hpcanon, hbranch⟩ := hfacts
  obtain ⟨hc1, hc2, hc3, hc4⟩ := hpcanon
  have htne' : p.type ≠ [] := by rw [hptype]; exact htne
  have htfix' : jsToLower (jsTrim p.type) = p.type := by
    rw [hptype]; exact htfix
  have htyVal' : (validateType (some p.type) true).isOk := by
    rw [hptype]; exact htyVal
  have hspfix' : ∀ s, p.subpath = some s →
      normalizePath (some subpathFilter) s = s := by
    intro s hs
    refine hspfix s (by rw [← hpsub]; exact hs) fun z => hpss s z hs
  have htoStr := toStr_decomp_opt p htne' hc2 hnse hve hspe
  have hTc : ∀ c ∈ encKeep ([] : List Char) p.type,
      (0x21 ≤ c.toNat ∧ c.toNat ≤ 0x7E) ∧ c ≠ '?' ∧ c ≠ '#' ∧ c ≠ '/' ∧
        c ≠ '@' := by
    intro c hc
    obtain ⟨hb, h1, h2, h3, _⟩ := encKeep_out_safe (by simp) hc
    exact ⟨hb, h1, h2,
      fun he => not_mem_encKeep (by simp) (by decide) (by decide) (by decide)
        (he ▸ hc),
      h3⟩
  have hNc : ∀ c ∈ encKeep ([] : List Char) p.name,
      (0x21 ≤ c.toNat ∧ c.toNat ≤ 0x7E) ∧ c ≠ '?' ∧ c ≠ '#' ∧ c ≠ '/' ∧
        c ≠ '@' := by
    intro c hc
    obtain ⟨hb, h1, h2, h3, _⟩ := encKeep_out_safe (by simp) hc
    exact ⟨hb, h1, h2,
      fun he => not_mem_encKeep (by simp) (by decide) (by decide) (by decide)
        (he ▸ hc),
      h3⟩
  have hNSc : ∀ ns2 c, (p.nspace).map (encKeep ['/', ':']) = some ns2 →
      c ∈ ns2 →
      (0x21 ≤ c.toNat ∧ c.toNat ≤ 0x7E) ∧ c ≠ '?' ∧ c ≠ '#' ∧ c ≠ '@' := by
    intro ns2 c hns2 hc
    obtain ⟨s, _, he⟩ := Option.map_eq_some'.mp hns2
    subst he
    obtain ⟨hb, h1, h2, h3, _⟩ := encKeep_out_safe (by decide) hc
    exact ⟨hb, h1, h2, h3⟩
  have hVc : ∀ v2 c, (p.version).map (encKeep ['+', ':']) = some v2 →
      c ∈ v2 →
      (0x21 ≤ c.toNat ∧ c.toNat ≤ 0x7E) ∧ c ≠ '?' ∧ c ≠ '#' ∧ c ≠ '@' := by
    intro v2 c hv2 hc
    obtain ⟨s, _, he⟩ := Option.map_eq_some'.mp hv2
    subst he
    obtain ⟨hb, h1, h2, h3, _⟩ := encKeep_out_safe (by decide) hc
    exact ⟨hb, h1, h2, h3⟩
  have hQc : ∀ q2 c, (p.qualifiers).map encodeQualifiers = some q2 →
      c ∈ q2 →
      (0x21 ≤ c.toNat ∧ c.toNat ≤ 0x7E) ∧ c ≠ '#' ∧ c ≠ '"' ∧ c ≠ '<' ∧
        c ≠ '>' := by
    intro q2 c hq2 hc
    obtain ⟨m, hm, he⟩ := Option.map_eq_some'.mp hq2
    subst he
    refine mem_encodeQualifiers_chars ?_ hc
    intro kv hkv
    exact ((hqkeys m (by rw [← hpq]; exact hm)) kv hkv).2
  have hFc : ∀ f2, (p.subpath).map (encKeep ['/']) = some f2 → f2 ≠ [] ∧
      ∀ c ∈ f2, (0x21 ≤ c.toNat ∧ c.toNat ≤ 0x7E) ∧ c ≠ '"' ∧ c ≠ '<' ∧
        c ≠ '>' ∧ c ≠ Char.ofNat 0x60 := by
    intro f2 hf2
    obtain ⟨s, hs, he⟩ := Option.map_eq_some'.mp hf2
    subst he
    have hsne : s ≠ [] := fun he2 => hspe (by rw [hs, he2])
    refine ⟨encKeep_ne_nil hsne, ?_⟩
    intro c hc
    obtain ⟨hb, _, _, _, h4, h5, h6, h7, _, _⟩ :=
      encKeep_out_safe (by decide) hc
    exact ⟨hb, h4, h5, h6, h7⟩
  have hparse := parseString_parts (encKeep [] p.type) (encKeep [] p.name)
    ((p.nspace).map (encKeep ['/', ':'])) ((p.version).map (encKeep ['+', ':']))
    ((p.qualifiers).map encodeQualifiers) ((p.subpath).map (encKeep ['/']))
    (encKeep_ne_nil htne') (encKeep_ne_nil hc2) hTc hNc hNSc hVc hQc hFc
  obtain ⟨QG, hQGc, hQGperm, hQGdb, hQGch, hQGnone⟩ :
      ∃ QG, constructQualifiers (optRawQ ((p.qualifiers).map
          encodeQualifiers)) = .ok QG ∧ qualsPerm QG p.qualifiers ∧
        mlflowDatabricks QG = mlflowDatabricks p.qualifiers ∧
        conanChannelTruthy QG = conanChannelTruthy p.qualifiers ∧
        ((QG = none) = (p.qualifiers = none)) := by
    cases hpq2 : p.qualifiers with
    | none => exact ⟨none, rfl, trivial, rfl, rfl, rfl⟩
    | some m =>
      obtain ⟨hprops, hnd, hmne⟩ := hqprops m (by rw [← hpq]; exact hpq2)
      have hkall : ∀ kv ∈ m, kv.1.all isQualifierKeyChar = true :=
        fun kv hkv => ((hqkeys m (by rw [← hpq]; exact hpq2)) kv hkv).2
      have hpu := parseUrlencoded_encodeQualifiers hmne hkall
      obtain ⟨G, hGdef⟩ : ∃ G, (jsSortKeys (m.map (·.1))).map
          (fun k => (k, (jsGet m k).getD [])) = G := ⟨_, rfl⟩
      rw [hGdef] at hpu
      have hGperm : List.Perm G m := by
        rw [← hGdef]
        exact graph_perm hnd (jsSortKeys_perm _)
      have hGne : G ≠ [] := by
        intro he
        rw [he] at hGperm
        exact hmne hGperm.symm.eq_nil
      have hmemG : ∀ kv : LC × LC, kv ∈ G ↔ kv ∈ m := fun kv => hGperm.mem_iff
      have hndG : (G.map (·.1)).Nodup := ((hGperm.map (·.1)).nodup_iff).mpr hnd
      have hnormG : normalizeQualifiers G = some G :=
        normalizeQualifiers_fix
          (fun kv hkv => (hprops kv ((hmemG kv).mp hkv)).1)
          (fun kv hkv => ⟨(hprops kv ((hmemG kv).mp hkv)).2.1,
            (hprops kv ((hmemG kv).mp hkv)).2.2⟩)
          hndG hGne
      have hvalG : validateQualifiers (some G) true = .ok true :=
        validateQualifiers_all_ok fun kv hkv =>
          ((hqkeys m (by rw [← hpq]; exact hpq2)) kv ((hmemG kv).mp hkv)).1
      have hCQG : constructQualifiers (some G) = .ok (some G) := by
        simp only [constructQualifiers, hnormG, Bind.bind, Except.bind, hvalG]
        rfl
      have hopt : optRawQ ((some m).map encodeQualifiers) = some G := by
        show optRawQ (some (encodeQualifiers m)) = some G
        simp only [optRawQ, hpu]
        rw [if_pos (show G.length ≠ 0 from
          fun he => hGne (List.length_eq_zero.mp he))]
      have hget : ∀ k, jsGet G k = jsGet m k := jsGet_perm hGperm hndG
      refine ⟨some G, ?_, hGperm, ?_, ?_, by simp⟩
      · rw [hopt]
        exact hCQG
      · simp only [mlflowDatabricks, hget]
      · simp only [conanChannelTruthy, hget]
  have e1 : constructType (some (encKeep [] p.type)) = .ok (some p.type) :=
    constructType_enc htne' htfix' htyVal'
  have e2 : constructNamespace ((p.nspace).map (encKeep ['/', ':'])) =
      .ok p.nspace := by
    cases hns2 : p.nspace with
    | none => exact constructNamespace_id_deg none (Or.inl rfl)
    | some s =>
      have hsne : s ≠ [] := fun he => hnse (by rw [hns2, he])
      exact constructNamespace_enc hsne (hc3 s hns2)
  have e3 : constructName (some (encKeep [] p.name)) = .ok (some p.name) :=
    constructName_enc hc2 hc1
  have e4 : constructVersion ((p.version).map (encKeep ['+', ':'])) =
      .ok p.version := by
    cases hv2 : p.version with
    | none => exact constructVersion_id_deg none (Or.inl rfl)
    | some s =>
      have hsne : s ≠ [] := fun he => hve (by rw [hv2, he])
      exact constructVersion_enc hsne (hc4 s hv2)
  have e6 : constructSubpath ((p.subpath).map (encKeep ['/'])) =
      .ok p.subpath := by
    cases hsp2 : p.subpath with
    | none => exact constructSubpath_id_deg none (Or.inl rfl)
    | some s =>
      have hsne : s ≠ [] := fun he => hspe (by rw [hsp2, he])
      exact constructSubpath_enc hsne (hspfix' s hsp2)
  rcases hbranch with ⟨hk, hval2, hpe⟩ | ⟨hk, hpe⟩
  · have hk' : typeKnown p.type = true := by rw [hptype]; exact hk
    have hidem : typeNormalize p.type p = p := by
      rw [hptype]
      conv_lhs => rw [hpe]
      rw [typeNormalize_idem hk]
      exact hpe.symm
    have hname : (typeNormalize p.type ⟨p.type, p.nspace, p.name, p.version,
        QG, p.subpath⟩).name = p.name := by
      have h1 := typeNormalize_name_congr p.type
        ⟨p.type, p.nspace, p.name, p.version, QG, p.subpath⟩ p rfl rfl rfl
        hQGdb
      rw [hidem] at h1
      exact h1
    have hnspace : (typeNormalize p.type ⟨p.type, p.nspace, p.name, p.version,
        QG, p.subpath⟩).nspace = p.nspace := by
      have h1 := typeNormalize_nspace_congr p.type
        ⟨p.type, p.nspace, p.name, p.version, QG, p.subpath⟩ p rfl rfl rfl
        hQGdb
      rw [hidem] at h1
      exact h1
    have hversion : (typeNormalize p.type ⟨p.type, p.nspace, p.name, p.version,
        QG, p.subpath⟩).version = p.version := by
      have h1 := typeNormalize_version_congr p.type
        ⟨p.type, p.nspace, p.name, p.version, QG, p.subpath⟩ p rfl rfl rfl
        hQGdb
      rw [hidem] at h1
      exact h1
    have htv : typeValidate p.type (typeNormalize p.type ⟨p.type, p.nspace,
        p.name, p.version, QG, p.subpath⟩) true = typeValidate p.type p true :=
      typeValidate_congr p.type true hnspace hname hversion
        (by rw [typeNormalize_qualifiers]; exact hQGch)
        (by rw [typeNormalize_qualifiers]; exact hQGnone)
    have hval2' : (typeValidate p.type p true).isOk := by
      rw [hptype]; exact hval2
    obtain ⟨b, hb⟩ := except_isOk_exists hval2'
    have htvX : typeValidate p.type (typeNormalize p.type ⟨p.type, p.nspace,
        p.name, p.version, QG, p.subpath⟩) true = .ok b := by
      rw [htv, hb]
    refine ⟨typeNormalize p.type ⟨p.type, p.nspace, p.name, p.version, QG,
      p.subpath⟩, ?_, ?_, hnspace, hname, hversion, ?_, ?_⟩
    · simp only [fromString, Bind.bind, Except.bind, htoStr, hparse]
      simp only [construct, Bind.bind, Except.bind, e1, e2, e3, e4, hQGc, e6]
      rw [if_pos hk', htvX]
      rfl
    · exact typeNormalize_type p.type _
    · exact typeNormalize_subpath p.type _
    · rw [typeNormalize_qualifiers]
      exact hQGperm
  · refine ⟨⟨p.type, p.nspace, p.name, p.version, QG, p.subpath⟩, ?_, rfl,
      rfl, rfl, rfl, rfl, hQGperm⟩
    simp only [fromString, Bind.bind, Except.bind, htoStr, hparse]
    simp only [construct, Bind.bind, Except.bind, e1, e2, e3, e4, hQGc, e6]
    rw [if_neg (show ¬typeKnown p.type = true by
      rw [hptype, hk]; exact Bool.noConfusion)]
    rfl

/-- Witness for C1 at a concrete purl: a constructed npm instance with
namespace, version and one qualifier round-trips through
fromString (toString ()) with identical fields. -/
theorem C1_roundtrip_witness :
    construct (some (lc "npm")) (some (lc "scope")) (some (lc "name"))
        (some (lc "1.0")) (some [(lc "k", lc "v")]) none =
      .ok ⟨lc "npm", some (lc "scope"), lc "name", some (lc "1.0"),
        some [(lc "k", lc "v")], none⟩ ∧
    ∃ p' : PackageURL,
      fromString (toStr ⟨lc "npm", some (lc "scope"), lc "name",
        some (lc "1.0"), some [(lc "k", lc "v")], none⟩) = .ok p' ∧
      p'.type = lc "npm" ∧ p'.nspace = some (lc "scope") ∧
      p'.name = lc "name" ∧ p'.version = some (lc "1.0") ∧
      p'.subpath = none ∧
      qualsPerm p'.qualifiers (some [(lc "k", lc "v")]) :=
  ⟨by decide,
    C1_roundtrip (some (lc "npm")) (some (lc "scope")) (some (lc "name"))
      (some (lc "1.0")) (some [(lc "k", lc "v")]) none
      ⟨lc "npm", some (lc "scope"), lc "name", some (lc "1.0"),
        some [(lc "k", lc "v")], none⟩
      (by decide) (by decide) (by decide) (by decide)
      (fun s z hs => by simp at hs)⟩

end PurlJs
